import Mathlib

/-!
The three-way alignment engine of lrcstats.

A shallow embedding of `lrcstats/alignments/alignments.cpp` (classes `Reads`,
`GenericAlignments`, `ProovreadAlignments`) and of the legacy
`alignments/alignments.cpp` (class `OptimalAlignment`), followed by the
properties proved about them.

Modelling conventions.
* A `std::string` is a `List Char`; `s[i]` is `charAt s i`.  Every index the
  code reads is inside the string when the reference and the uncorrected read
  have the same length.
* `islower`, `isupper`, `toupper` are the `<cctype>` functions in the C locale.
* The cells of the matrix are C `int`s: they are integers, every addition is
  reduced to 32 bits in two's complement (`add32`), as the usual targets do
  on overflow, and `std::abs` is `abs32`.
* Row and column counters are natural numbers; the strings are assumed short
  enough for an `int` to hold their length.
* The line `ERROR CODE n: No paths found.` written to `std::cerr` is recorded
  in the field `errorCode`.
-/

namespace Lrcstats

/-! ## Characters and machine integers -/

/-- The `islower` test of `<cctype>`. -/
def islower (c : Char) : Bool := c.isLower

/-- The `isupper` test of `<cctype>`. -/
def isupper (c : Char) : Bool := c.isUpper

/-- The `toupper` conversion of `<cctype>`. -/
def toupper (c : Char) : Char := c.toUpper

/-- The `tolower` conversion of `<cctype>`. -/
def tolower (c : Char) : Char := c.toLower

/-- Character `i` of a string (`s[i]`); the terminating NUL outside of it. -/
def charAt (s : List Char) (i : Nat) : Char := s.getD i (Char.ofNat 0)

/-- The value `std::numeric_limits<int>::max()`. -/
def INT_MAX : Int := 2147483647

/-- Reduction of an integer to a 32-bit two's-complement `int`. -/
def wrap32 (x : Int) : Int := (x + 2147483648) % 4294967296 - 2147483648

/-- Addition of two `int`s. -/
def add32 (a b : Int) : Int := wrap32 (a + b)

/-- The function `std::abs` on `int`; the negation wraps around, so that
`INT_MIN` is sent to itself. -/
def abs32 (x : Int) : Int := if x < 0 then wrap32 (-x) else x

/-- Entry `matrix[i][j]`. -/
def cellAt (matrix : List (List Int)) (i j : Nat) : Int := (matrix.getD i []).getD j 0

/-! ## Class `Reads` -/

/-- The body of `Reads::cost`, with the mismatch penalty (the constant `2`)
as a parameter. -/
def Reads.costWith (penalty : Int) (refBase cBase : Char) : Int :=
  if islower cBase then 0
  else if toupper refBase = cBase then 0
  else penalty

/-- The function `Reads::cost`. -/
def Reads.cost (refBase cBase : Char) : Int := Reads.costWith 2 refBase cBase

/-- The number of rows set by `Reads::createMatrix`: the length of `clr`
without its blanks, plus one. -/
def Reads.rows (clr : List Char) : Nat := (clr.filter (fun c => c != ' ')).length + 1

/-- The number of columns set by `Reads::createMatrix`. -/
def Reads.columns (ulr : List Char) : Nat := ulr.length + 1

/-! ## Filling a matrix row by row -/

/-- The inner loop over `columnIndex`: the cells of one row from column
`columnIndex` on. `left` is the cell written last, the list is the row above
from column `columnIndex - 1` on. -/
def fillRow (cell : Nat → Int → Int → Int → Int) : Nat → Int → List Int → List Int
  | _, _, [] => []
  | columnIndex, left, diag :: above =>
    match above with
    | [] => []
    | up :: _ =>
      (cell columnIndex left up diag) ::
        fillRow cell (columnIndex + 1) (cell columnIndex left up diag) above

/-- One iteration of the outer loop: row `rowIndex` from the row `above` it.
Column 0 holds `rowIndex`. -/
def nextRow (cell : Nat → Nat → Int → Int → Int → Int) (rowIndex : Nat) (above : List Int) :
    List Int :=
  (rowIndex : Int) :: fillRow (cell rowIndex) 1 (rowIndex : Int) above

/-- The outer loop over `rowIndex`: `n` rows from row `rowIndex` on, `above`
being row `rowIndex - 1`. -/
def fillRows (cell : Nat → Nat → Int → Int → Int → Int) : Nat → Nat → List Int → List (List Int)
  | 0, _, _ => []
  | n + 1, rowIndex, above =>
    nextRow cell rowIndex above :: fillRows cell n (rowIndex + 1) (nextRow cell rowIndex above)

/-- The matrix with first row `row0` and `rows` rows in all. -/
def fillMatrix (cell : Nat → Nat → Int → Int → Int → Int) (row0 : List Int) (rows : Nat) :
    List (List Int) :=
  row0 :: fillRows cell (rows - 1) 1 row0

/-! ## The backtracking state -/

/-- The variables of the `while` loop of `findAlignments`. -/
structure Backtrack where
  rowIndex : Nat
  columnIndex : Nat
  clrMaf : List Char
  ulrMaf : List Char
  refMaf : List Char
  errorCode : Option Nat
deriving DecidableEq, Repr

/-- The three tracks stored by `findAlignments` in `clr`, `ulr` and `ref`. -/
structure Alignment where
  clr : List Char
  ulr : List Char
  ref : List Char
  errorCode : Option Nat
deriving DecidableEq, Repr

/-- The block commented `Deletion`. -/
def Backtrack.deletion (ulr ref : List Char) (s : Backtrack) : Backtrack :=
  { s with
    clrMaf := '-' :: s.clrMaf
    ulrMaf := charAt ulr (s.columnIndex - 1) :: s.ulrMaf
    refMaf := charAt ref (s.columnIndex - 1) :: s.refMaf
    columnIndex := s.columnIndex - 1 }

/-- The block commented `Insertion`. -/
def Backtrack.insertion (clr : List Char) (s : Backtrack) : Backtrack :=
  { s with
    clrMaf := charAt clr (s.rowIndex - 1) :: s.clrMaf
    ulrMaf := '-' :: s.ulrMaf
    refMaf := '-' :: s.refMaf
    rowIndex := s.rowIndex - 1 }

/-- The block commented `Substitution`. -/
def Backtrack.substitution (ref ulr clr : List Char) (s : Backtrack) : Backtrack :=
  { s with
    clrMaf := charAt clr (s.rowIndex - 1) :: s.clrMaf
    ulrMaf := charAt ulr (s.columnIndex - 1) :: s.ulrMaf
    refMaf := charAt ref (s.columnIndex - 1) :: s.refMaf
    rowIndex := s.rowIndex - 1
    columnIndex := s.columnIndex - 1 }

/-- The block `ERROR CODE n: No paths found. Terminating backtracking.` -/
def Backtrack.noPath (code : Nat) (s : Backtrack) : Backtrack :=
  { s with rowIndex := 0, columnIndex := 0, errorCode := some code }

/-- The loop `while (rowIndex > 0 || columnIndex > 0)`, run for at most
`fuel` iterations; `none` when the fuel does not suffice. -/
def whileLoop (body : Backtrack → Backtrack) : Nat → Backtrack → Option Backtrack
  | 0, s => if s.rowIndex > 0 ∨ s.columnIndex > 0 then none else some s
  | fuel + 1, s =>
    if s.rowIndex > 0 ∨ s.columnIndex > 0 then whileLoop body fuel (body s) else some s

/-- The assignments `clr = clrMaf; ulr = ulrMaf; ref = refMaf` after the loop. -/
def Backtrack.toAlignment (s : Backtrack) : Alignment :=
  { clr := s.clrMaf, ulr := s.ulrMaf, ref := s.refMaf, errorCode := s.errorCode }

/-- The state in which the loop of `findAlignments` starts. -/
def Backtrack.start (rows columns : Nat) : Backtrack :=
  { rowIndex := rows - 1, columnIndex := columns - 1,
    clrMaf := [], ulrMaf := [], refMaf := [], errorCode := none }

/-! ## Class `GenericAlignments` -/

namespace GenericAlignments

/-- The test of `initialize` for an ending lowercase letter. The comparison
`cIndex < clr.length() - 1` is made where `clr` is not empty. -/
def isEndingLCInit (clr : List Char) (cIndex : Nat) : Bool :=
  decide (cIndex + 1 < clr.length) && islower (charAt clr cIndex) &&
    isupper (charAt clr (cIndex + 1))

/-- The test of `findAlignments` for an ending lowercase letter. -/
def isEndingLCFind (clr : List Char) (cIndex : Nat) : Bool :=
  (decide (cIndex + 1 < clr.length) && islower (charAt clr cIndex) &&
      isupper (charAt clr (cIndex + 1))) ||
    (decide (cIndex + 1 = clr.length) && islower (charAt clr cIndex))

/-- The body of the double loop of `initialize`: the value written to
`matrix[rowIndex][columnIndex]`, from `left = matrix[rowIndex][columnIndex-1]`,
`up = matrix[rowIndex-1][columnIndex]`, `diag = matrix[rowIndex-1][columnIndex-1]`. -/
def cell (cost : Char → Char → Int) (ref ulr clr : List Char)
    (rowIndex columnIndex : Nat) (left up diag : Int) : Int :=
  let cIndex := rowIndex - 1
  let urIndex := columnIndex - 1
  if isEndingLCInit clr cIndex then
    if toupper (charAt ulr urIndex) = toupper (charAt clr cIndex) then
      min (abs32 (add32 diag (cost (charAt ref urIndex) (charAt clr cIndex))))
        (abs32 (add32 left (cost (charAt ref urIndex) '-')))
    else
      abs32 (add32 left (cost (charAt ref urIndex) '-'))
  else if islower (charAt clr cIndex) then
    if toupper (charAt ulr urIndex) = toupper (charAt clr cIndex) then
      abs32 (add32 diag (cost (charAt ref urIndex) (charAt clr cIndex)))
    else if charAt ulr urIndex = '-' then
      left
    else
      INT_MAX
  else
    min (abs32 (add32 left (cost (charAt ref urIndex) '-')))
      (min (abs32 (add32 up (cost '-' (charAt clr cIndex))))
        (abs32 (add32 diag (cost (charAt ref urIndex) (charAt clr cIndex)))))

/-- Row 0 of the matrix: `matrix[0][columnIndex] = columnIndex`. -/
def row0 (columns : Nat) : List Int := (List.range columns).map (fun (j : Nat) => (j : Int))

/-- The matrix filled by `initialize`, for a given cost function. -/
def matrixWith (cost : Char → Char → Int) (ref ulr clr : List Char) : List (List Int) :=
  fillMatrix (cell cost ref ulr clr) (row0 (Reads.columns ulr)) (Reads.rows clr)

/-- The matrix filled by `initialize`. -/
def matrix (ref ulr clr : List Char) : List (List Int) :=
  matrixWith Reads.cost ref ulr clr

/-- The edit distance: the cell `matrix[rows-1][columns-1]`. -/
def distance (ref ulr clr : List Char) : Int :=
  cellAt (matrix ref ulr clr) (Reads.rows clr - 1) (Reads.columns ulr - 1)

/-- The values given to `deletion`, `insert` and `substitute` at the top of the
loop body (the last case does not occur inside the loop). -/
def moveCosts (ref clr : List Char) (matrix : List (List Int)) (rowIndex columnIndex : Nat) :
    Int × Int × Int :=
  let urIndex := columnIndex - 1
  let cIndex := rowIndex - 1
  if rowIndex > 0 ∧ columnIndex > 0 then
    (add32 (cellAt matrix rowIndex (columnIndex - 1)) (Reads.cost (charAt ref urIndex) '-'),
     add32 (cellAt matrix (rowIndex - 1) columnIndex) (Reads.cost '-' (charAt clr cIndex)),
     add32 (cellAt matrix (rowIndex - 1) (columnIndex - 1))
       (Reads.cost (charAt ref urIndex) (charAt clr cIndex)))
  else if rowIndex ≤ 0 ∧ columnIndex > 0 then
    (add32 (cellAt matrix rowIndex (columnIndex - 1)) (Reads.cost (charAt ref urIndex) '-'),
     INT_MAX, INT_MAX)
  else if rowIndex > 0 ∧ columnIndex ≤ 0 then
    (INT_MAX,
     add32 (cellAt matrix (rowIndex - 1) columnIndex) (Reads.cost '-' (charAt clr cIndex)),
     INT_MAX)
  else (INT_MAX, INT_MAX, INT_MAX)

/-- The body of the `while` loop of `findAlignments`. -/
def step (ref ulr clr : List Char) (matrix : List (List Int)) (s : Backtrack) : Backtrack :=
  let rowIndex := s.rowIndex
  let columnIndex := s.columnIndex
  let urIndex := columnIndex - 1
  let cIndex := rowIndex - 1
  let currentCost := cellAt matrix rowIndex columnIndex
  let deletion := (moveCosts ref clr matrix rowIndex columnIndex).1
  let insert := (moveCosts ref clr matrix rowIndex columnIndex).2.1
  let substitute := (moveCosts ref clr matrix rowIndex columnIndex).2.2
  if rowIndex = 0 ∨ columnIndex = 0 then
    if rowIndex = 0 then s.deletion ulr ref else s.insertion clr
  else if isEndingLCFind clr cIndex then
    if toupper (charAt ulr urIndex) = toupper (charAt clr cIndex) then
      if deletion = currentCost then s.deletion ulr ref
      else if substitute = currentCost then s.substitution ref ulr clr
      else s.noPath 1
    else
      if deletion = currentCost then s.deletion ulr ref
      else s.noPath 2
  else if islower (charAt clr cIndex) ∧ rowIndex > 0 ∧ columnIndex > 0 then
    if toupper (charAt ulr urIndex) = toupper (charAt clr cIndex) then
      if substitute = currentCost then s.substitution ref ulr clr
      else s.noPath 3
    else if charAt ulr urIndex = '-' then
      if cellAt matrix rowIndex (columnIndex - 1) = currentCost then s.deletion ulr ref
      else s.noPath 4
    else s.noPath 5
  else
    if deletion = currentCost then s.deletion ulr ref
    else if insert = currentCost then s.insertion clr
    else if substitute = currentCost then s.substitution ref ulr clr
    else s.noPath 6

/-- The method `findAlignments` on a filled matrix. -/
def findAlignments (ref ulr clr : List Char) (rows columns : Nat) (matrix : List (List Int)) :
    Option Alignment :=
  (whileLoop (step ref ulr clr matrix) ((rows - 1) + (columns - 1))
    (Backtrack.start rows columns)).map Backtrack.toAlignment

/-- The constructor: `createMatrix`, then `initialize`, which ends in
`findAlignments`. -/
def initialise (ref ulr clr : List Char) : Option Alignment :=
  findAlignments ref ulr clr (Reads.rows clr) (Reads.columns ulr) (matrix ref ulr clr)

end GenericAlignments

/-! ## Class `ProovreadAlignments` -/

namespace ProovreadAlignments

/-- The loop of `initialize` that records the index of the last base of every
read of `trimmedClrs`, appending to the member `lastBaseIndices`. -/
def recordLastBases : List (List Char) → Int → List Int → List Int
  | [], _, lastBaseIndices => lastBaseIndices
  | t :: ts, lastBaseIndex, lastBaseIndices =>
    recordLastBases ts (lastBaseIndex + t.length) (lastBaseIndices ++ [lastBaseIndex + t.length])

/-- The corrected read with its blanks erased. -/
def cleanClr (clr : List Char) : List Char := clr.filter (fun c => c != ' ')

/-- The test `std::find(lastBaseIndices ..., cIndex) != end`. -/
def isLastBase (lastBaseIndices : List Int) (rowIndex : Nat) : Bool :=
  decide (((rowIndex : Int) - 1) ∈ lastBaseIndices)

/-- The body of the double loop of `initialize`; `clr` has no blanks here. -/
def cell (lastBaseIndices : List Int) (ref clr : List Char)
    (rowIndex columnIndex : Nat) (left up diag : Int) : Int :=
  let cIndex := rowIndex - 1
  let urIndex := columnIndex - 1
  let deletion :=
    if isLastBase lastBaseIndices rowIndex then left
    else add32 left (Reads.cost (charAt ref urIndex) '-')
  let insert := add32 up (Reads.cost '-' (charAt clr cIndex))
  let substitute := add32 diag (Reads.cost (charAt clr cIndex) (charAt ref urIndex))
  min deletion (min insert substitute)

/-- The matrix filled by `initialize`: row 0 is zero. -/
def matrix (lastBaseIndices : List Int) (ref clr : List Char) : List (List Int) :=
  fillMatrix (cell lastBaseIndices ref clr) (List.replicate (ref.length + 1) 0) (clr.length + 1)

/-- The values given to `deletion`, `insert` and `substitute` at the top of the
loop body (the last case does not occur inside the loop). -/
def moveCosts (lastBaseIndices : List Int) (ref clr : List Char) (matrix : List (List Int))
    (rowIndex columnIndex : Nat) : Int × Int × Int :=
  let urIndex := columnIndex - 1
  let cIndex := rowIndex - 1
  if rowIndex > 0 ∧ columnIndex > 0 then
    ((if isLastBase lastBaseIndices rowIndex then cellAt matrix rowIndex (columnIndex - 1)
      else add32 (cellAt matrix rowIndex (columnIndex - 1)) (Reads.cost (charAt ref urIndex) '-')),
     add32 (cellAt matrix (rowIndex - 1) columnIndex) (Reads.cost '-' (charAt clr cIndex)),
     add32 (cellAt matrix (rowIndex - 1) (columnIndex - 1))
       (Reads.cost (charAt ref urIndex) (charAt clr cIndex)))
  else if rowIndex ≤ 0 ∧ columnIndex > 0 then
    ((if isLastBase lastBaseIndices rowIndex then cellAt matrix rowIndex (columnIndex - 1)
      else add32 (cellAt matrix rowIndex (columnIndex - 1)) (Reads.cost (charAt ref urIndex) '-')),
     INT_MAX, INT_MAX)
  else if rowIndex > 0 ∧ columnIndex ≤ 0 then
    (INT_MAX,
     add32 (cellAt matrix (rowIndex - 1) columnIndex) (Reads.cost '-' (charAt clr cIndex)),
     INT_MAX)
  else (INT_MAX, INT_MAX, INT_MAX)

/-- The body of the `while` loop of `findAlignments`. -/
def step (lastBaseIndices : List Int) (ref ulr clr : List Char) (matrix : List (List Int))
    (s : Backtrack) : Backtrack :=
  let rowIndex := s.rowIndex
  let columnIndex := s.columnIndex
  let currentCost := cellAt matrix rowIndex columnIndex
  let deletion := (moveCosts lastBaseIndices ref clr matrix rowIndex columnIndex).1
  let insert := (moveCosts lastBaseIndices ref clr matrix rowIndex columnIndex).2.1
  let substitute := (moveCosts lastBaseIndices ref clr matrix rowIndex columnIndex).2.2
  if rowIndex = 0 ∨ columnIndex = 0 then
    if rowIndex = 0 then s.deletion ulr ref else s.insertion clr
  else if deletion = currentCost then s.deletion ulr ref
  else if insert = currentCost then s.insertion clr
  else if substitute = currentCost then s.substitution ref ulr clr
  else s.noPath 6

/-- The method `findAlignments` on a filled matrix. -/
def findAlignments (lastBaseIndices : List Int) (ref ulr clr : List Char) (rows columns : Nat)
    (matrix : List (List Int)) : Option Alignment :=
  (whileLoop (step lastBaseIndices ref ulr clr matrix) ((rows - 1) + (columns - 1))
    (Backtrack.start rows columns)).map Backtrack.toAlignment

/-- The member `lastBaseIndices` after `initialize`, when it held `before` and
`split(clr)` returned `trimmedClrs`. -/
def lastBaseIndicesAfter (trimmedClrs : List (List Char)) (before : List Int) : List Int :=
  recordLastBases trimmedClrs (-1) before

/-- The method `initialize` on an object whose member `lastBaseIndices` holds
`before`; `split` is the function of `data.cpp` that cuts `clr` into its reads. -/
def initialise (split : List Char → List (List Char)) (before : List Int)
    (ref ulr clr : List Char) : Option Alignment :=
  findAlignments (lastBaseIndicesAfter (split clr) before) ref ulr (cleanClr clr)
    ((cleanClr clr).length + 1) (ref.length + 1)
    (matrix (lastBaseIndicesAfter (split clr) before) ref (cleanClr clr))

end ProovreadAlignments

/-! ## Class `OptimalAlignment` (legacy) -/

namespace OptimalAlignment

/-- The function `OptimalAlignment::cost`. -/
def cost (refBase cBase : Char) : Int :=
  if islower cBase then 0
  else if toupper refBase = cBase then 0
  else 2

/-- The loop of `processAlignments`, `n` iterations from index `i` on. -/
def processLoop (clrMaf refMaf : List Char) : Nat → Nat → List Char × List Char →
    List Char × List Char
  | 0, _, acc => acc
  | n + 1, i, acc =>
    processLoop clrMaf refMaf n (i + 1)
      (if charAt clrMaf i ≠ '-' ∨ charAt refMaf i ≠ '-' then
        (acc.1 ++ [charAt clrMaf i], acc.2 ++ [charAt refMaf i])
      else acc)

/-- The method `processAlignments`: the pair `(cAlignment, refAlignment)`. -/
def processAlignments (clrMaf refMaf : List Char) : List Char × List Char :=
  processLoop clrMaf refMaf clrMaf.length 0 ([], [])

end OptimalAlignment

/-! ## Notions used in the statements -/

/-- A track with its gap characters removed. -/
def removeGaps (track : List Char) : List Char := track.filter (fun c => c != '-')

/-- A column is kept unless it holds a gap in both tracks. -/
def keepColumn (p : Char × Char) : Bool := !(p.1 == '-' && p.2 == '-')

/-- The columns of two tracks that are not a gap in both. -/
def keptColumns (clrMaf refMaf : List Char) : List (Char × Char) :=
  (clrMaf.zip refMaf).filter keepColumn

/-- No column of the two tracks holds a gap in both. -/
def NoDoubleGap (clrTrack ulrTrack : List Char) : Prop :=
  ∀ p ∈ clrTrack.zip ulrTrack, ¬ (p.1 = '-' ∧ p.2 = '-')

/-- The corrected track without its gaps is the part of the first `n`
characters of `clr` from `rowIndex` on, as long as no error is written; after
an error both counters are 0 and it is still a suffix of those characters. -/
def RoundTrip (clr : List Char) (n : Nat) (s : Backtrack) : Prop :=
  (s.errorCode = none →
    s.rowIndex ≤ n ∧ removeGaps s.clrMaf = (clr.take n).drop s.rowIndex) ∧
  (s.errorCode ≠ none →
    s.rowIndex = 0 ∧ s.columnIndex = 0 ∧ removeGaps s.clrMaf <:+ clr.take n)

/-- The sum over the columns of an alignment of the step cost `cost(r, c)`,
`r` the reference character and `c` the corrected-read character of the
column: `cost(r, '-')` on a deletion column, `cost('-', c)` on an insertion
column, `cost(r, c)` on a substitution column. -/
def columnCostSum (a : Alignment) : Int :=
  ((a.ref.zip a.clr).map (fun p => Reads.cost p.1 p.2)).sum

/-- The cost that the forward pass of the Generic engine puts on the move that
the backtracker takes in state `s`: nothing when a `No paths found` branch is
taken, 1 for a move along row 0 or column 0, 0 for the zero-cost deletion
against a `-` of the uncorrected read, and `cost(r, '-')`, `cost('-', c)`,
`cost(r, c)` for the other deletions, the insertions and the substitutions. -/
def GenericAlignments.chargedCost (ref ulr clr : List Char) (matrix : List (List Int))
    (s : Backtrack) : Int :=
  if (GenericAlignments.step ref ulr clr matrix s).errorCode ≠ s.errorCode then 0
  else if s.rowIndex = 0 ∨ s.columnIndex = 0 then 1
  else if (GenericAlignments.step ref ulr clr matrix s).rowIndex = s.rowIndex then
    if GenericAlignments.isEndingLCFind clr (s.rowIndex - 1) = false ∧
        islower (charAt clr (s.rowIndex - 1)) = true then 0
    else Reads.cost (charAt ref (s.columnIndex - 1)) '-'
  else if (GenericAlignments.step ref ulr clr matrix s).columnIndex = s.columnIndex then
    Reads.cost '-' (charAt clr (s.rowIndex - 1))
  else Reads.cost (charAt ref (s.columnIndex - 1)) (charAt clr (s.rowIndex - 1))

/-- The sum of `charge` over the states in which the loop body runs. -/
def pathCost (body : Backtrack → Backtrack) (charge : Backtrack → Int) : Nat → Backtrack → Int
  | 0, _ => 0
  | fuel + 1, s =>
    if s.rowIndex > 0 ∨ s.columnIndex > 0 then charge s + pathCost body charge fuel (body s)
    else 0

/-- The values of a C `int`. -/
def InRange (v : Int) : Prop := -2147483648 ≤ v ∧ v < 2147483648

/-- One iteration of either backtracking loop is one of the four blocks. -/
def IsMove (ref ulr clr : List Char) (s t : Backtrack) : Prop :=
  (0 < s.columnIndex ∧ t = s.deletion ulr ref) ∨
  (0 < s.rowIndex ∧ t = s.insertion clr) ∨
  (0 < s.rowIndex ∧ 0 < s.columnIndex ∧ t = s.substitution ref ulr clr) ∨
  (∃ code, t = s.noPath code)

/-- The three tracks have the same length. -/
def EqualTracks (s : Backtrack) : Prop :=
  s.clrMaf.length = s.ulrMaf.length ∧ s.ulrMaf.length = s.refMaf.length

/-- The values `std::abs` can return: a non-negative `int`, or `INT_MIN`. -/
def AbsRange (v : Int) : Prop := (0 ≤ v ∧ v < 2147483648) ∨ v = -2147483648

/-- A cell next to a zero on the diagonal: `INT_MIN`, or between 0 and 2. -/
def Near (v : Int) : Prop := v = -2147483648 ∨ (0 ≤ v ∧ v ≤ 2)

/-- The index, in the corrected read without delimiters, of the last
character of fragment `k` of `tokens`. -/
def fragmentEnd (tokens : List (List Char)) (k : Nat) : Int :=
  (((tokens.take (k + 1)).map List.length).sum : Nat) - 1

/-- The sum of a cell and a cost when `INT_MAX` stands for +infinity:
+infinity plus a finite cost is +infinity. -/
def addInf (a c : Int) : Int := if a = INT_MAX then INT_MAX else a + c

/-- A cell `(i, j)` holds `INT_MAX` or a value between 0 and `2 * (i + j)`. -/
def CellBound (i j : Nat) (v : Int) : Prop :=
  v = INT_MAX ∨ (0 ≤ v ∧ v ≤ 2 * ((i : Int) + (j : Int)))

/-- The body of the double loop of `GenericAlignments::initialize` in exact
integer arithmetic: the additions do not wrap around and `std::abs` is the
absolute value. -/
def GenericAlignments.cellExact (cost : Char → Char → Int) (ref ulr clr : List Char)
    (rowIndex columnIndex : Nat) (left up diag : Int) : Int :=
  let cIndex := rowIndex - 1
  let urIndex := columnIndex - 1
  if GenericAlignments.isEndingLCInit clr cIndex then
    if toupper (charAt ulr urIndex) = toupper (charAt clr cIndex) then
      min ((diag + cost (charAt ref urIndex) (charAt clr cIndex)).natAbs : Int)
        ((left + cost (charAt ref urIndex) '-').natAbs : Int)
    else
      ((left + cost (charAt ref urIndex) '-').natAbs : Int)
  else if islower (charAt clr cIndex) then
    if toupper (charAt ulr urIndex) = toupper (charAt clr cIndex) then
      ((diag + cost (charAt ref urIndex) (charAt clr cIndex)).natAbs : Int)
    else if charAt ulr urIndex = '-' then
      left
    else
      INT_MAX
  else
    min ((left + cost (charAt ref urIndex) '-').natAbs : Int)
      (min ((up + cost '-' (charAt clr cIndex)).natAbs : Int)
        ((diag + cost (charAt ref urIndex) (charAt clr cIndex)).natAbs : Int))

/-- No overflow in the forward pass: at every cell the value that
`initialize` stores with its 32-bit arithmetic is the value that exact
integer arithmetic gives from the same three neighbours. -/
def GenericAlignments.NoOverflow (cost : Char → Char → Int) (ref ulr clr : List Char) : Prop :=
  ∀ i, i < Reads.rows clr - 1 → ∀ j, j < Reads.columns ulr - 1 →
    GenericAlignments.cell cost ref ulr clr (i + 1) (j + 1)
        (cellAt (GenericAlignments.matrixWith cost ref ulr clr) (i + 1) j)
        (cellAt (GenericAlignments.matrixWith cost ref ulr clr) i (j + 1))
        (cellAt (GenericAlignments.matrixWith cost ref ulr clr) i j) =
      GenericAlignments.cellExact cost ref ulr clr (i + 1) (j + 1)
        (cellAt (GenericAlignments.matrixWith cost ref ulr clr) (i + 1) j)
        (cellAt (GenericAlignments.matrixWith cost ref ulr clr) i (j + 1))
        (cellAt (GenericAlignments.matrixWith cost ref ulr clr) i j)

/-- The edit distance `matrix[rows-1][columns-1]` for a given cost function. -/
def GenericAlignments.distanceWith (cost : Char → Char → Int) (ref ulr clr : List Char) : Int :=
  cellAt (GenericAlignments.matrixWith cost ref ulr clr) (Reads.rows clr - 1)
    (Reads.columns ulr - 1)

/-- The tokens of `str` after the token `cur` that is being read. -/
def splitFrom (cur : List Char) : List Char → List (List Char)
  | [] => if cur = [] then [] else [cur]
  | c :: cs =>
    if c = ' ' then
      if cur = [] then splitFrom [] cs else cur :: splitFrom [] cs
    else splitFrom (cur ++ [c]) cs

/-- Modelled from the spec: the function `split` of `data.cpp`, of which
`data.hpp` holds the declaration only ("splits a string into its constituent
tokens similar to the .split() function in python"): the fragments of the
corrected read, separated by the delimiter, the blank. -/
def split (str : List Char) : List (List Char) := splitFrom [] str

namespace ProovreadAlignments

/-- The members of a `ProovreadAlignments` object after `initialize`: the
vector `lastBaseIndices`, the matrix, and the aligned triple that
`findAlignments` stored in `clr`, `ulr`, `ref`. -/
structure Object where
  lastBaseIndices : List Int
  matrix : List (List Int)
  aligned : Option Alignment
deriving DecidableEq

/-- The method `initialize` run on an object whose vector `lastBaseIndices`
holds `before` and whose strings were set to `ref`, `ulr`, `clr`. -/
def initialiseObject (split : List Char → List (List Char)) (before : List Int)
    (ref ulr clr : List Char) : Object :=
  { lastBaseIndices := lastBaseIndicesAfter (split clr) before
    matrix := matrix (lastBaseIndicesAfter (split clr) before) ref (cleanClr clr)
    aligned := initialise split before ref ulr clr }

/-- The constructor: the vector `lastBaseIndices` starts empty. -/
def construct (split : List Char → List (List Char)) (ref ulr clr : List Char) : Object :=
  initialiseObject split [] ref ulr clr

/-- The method `reset`: `Reads::reset` sets the three strings and recreates
the matrix, then `initialize` runs; the vector `lastBaseIndices` is left as it
is. -/
def reset (split : List Char → List (List Char)) (obj : Object) (ref ulr clr : List Char) :
    Object :=
  initialiseObject split obj.lastBaseIndices ref ulr clr

/-- The states an object can be in: constructed, then reset any number of
times. -/
inductive Reachable (split : List Char → List (List Char)) : Object → Prop
  | construct (ref ulr clr : List Char) : Reachable split (construct split ref ulr clr)
  | reset (obj : Object) (ref ulr clr : List Char) :
      Reachable split obj → Reachable split (reset split obj ref ulr clr)

end ProovreadAlignments

/-- Row `i` of the Generic matrix is filled by the interior-lowercase branch
of `initialize`. -/
def GenericAlignments.LowerRow (clr : List Char) (i : Nat) : Prop :=
  0 < i ∧ islower (charAt clr (i - 1)) = true ∧
    GenericAlignments.isEndingLCInit clr (i - 1) = false

/-- A cell is below `bound`, or it is `INT_MAX` on an interior-lowercase row. -/
def GenericAlignments.FiniteOrLower (clr : List Char) (i : Nat) (bound v : Int) : Prop :=
  (v = INT_MAX ∧ GenericAlignments.LowerRow clr i) ∨ (0 ≤ v ∧ v ≤ bound)

/-- The body of the Generic loop as the constructor runs it: on the matrix
that `initialize` has just filled. -/
def GenericAlignments.loopBody (ref ulr clr : List Char) : Backtrack → Backtrack :=
  GenericAlignments.step ref ulr clr (GenericAlignments.matrix ref ulr clr)

/-- The body of the Segment-Trimming loop as `initialize` runs it: on the
corrected read without blanks, with the member `lastBaseIndices` and the
matrix it has just filled. -/
def ProovreadAlignments.loopBody (split : List Char → List (List Char)) (before : List Int)
    (ref ulr clr : List Char) : Backtrack → Backtrack :=
  ProovreadAlignments.step (ProovreadAlignments.lastBaseIndicesAfter (split clr) before)
    ref ulr (ProovreadAlignments.cleanClr clr)
    (ProovreadAlignments.matrix (ProovreadAlignments.lastBaseIndicesAfter (split clr) before)
      ref (ProovreadAlignments.cleanClr clr))

/-- The uncorrected-read track and the reference track have their gaps in the
same columns. -/
def SameGaps (ulrTrack refTrack : List Char) : Prop :=
  ∀ p ∈ ulrTrack.zip refTrack, (p.1 = '-' ↔ p.2 = '-')

/-- No column holds a gap in all three tracks. -/
def NoTripleGap (clrTrack ulrTrack refTrack : List Char) : Prop :=
  ∀ p ∈ clrTrack.zip (ulrTrack.zip refTrack), ¬ (p.1 = '-' ∧ p.2.1 = '-' ∧ p.2.2 = '-')

/-- The guard `rowIndex > 0 || columnIndex > 0` of the backtracking loop. -/
def Backtrack.running (s : Backtrack) : Prop := 0 < s.rowIndex ∨ 0 < s.columnIndex

/-- From `s` to `t` the sum `rowIndex + columnIndex` falls by 1 or by 2, or
both indices are set to 0. -/
def Backtrack.StepsDown (s t : Backtrack) : Prop :=
  t.rowIndex + t.columnIndex + 1 = s.rowIndex + s.columnIndex ∨
  t.rowIndex + t.columnIndex + 2 = s.rowIndex + s.columnIndex ∨
  (t.rowIndex = 0 ∧ t.columnIndex = 0)

/-- The three tracks built so far, together with the way still to go, fit in
`bound` columns. -/
def TracksWithin (bound : Nat) (s : Backtrack) : Prop :=
  s.clrMaf.length + (s.rowIndex + s.columnIndex) ≤ bound ∧
  s.ulrMaf.length + (s.rowIndex + s.columnIndex) ≤ bound ∧
  s.refMaf.length + (s.rowIndex + s.columnIndex) ≤ bound

/-- The loop leaves after exactly `k` iterations from `s`, in the state `r`:
the guard holds before each of them and fails after the last. -/
def LeavesAfter (body : Backtrack → Backtrack) (s : Backtrack) (k : Nat) (r : Backtrack) : Prop :=
  (∀ m, m < k → (body^[m] s).running) ∧ ¬ (body^[k] s).running ∧ r = body^[k] s

/-- A state of the backtracking loop inside the matrix that has met no
`No paths found` branch. -/
def Backtrack.Sound (rows columns : Nat) (s : Backtrack) : Prop :=
  s.rowIndex < rows ∧ s.columnIndex < columns ∧ s.errorCode = none

theorem toNat_ofNat_small (n : Nat) (h : n < 55296) : (Char.ofNat n).toNat = n := by
  have hv : n.isValidChar := Or.inl h
  unfold Char.ofNat
  rw [dif_pos hv]
  rfl

theorem char_eq_iff (a b : Char) : a = b ↔ a.toNat = b.toNat := by
  constructor
  · intro h; rw [h]
  · intro h
    have := congrArg Char.ofNat h
    simpa using this

theorem islower_iff (c : Char) : islower c = true ↔ 97 ≤ c.toNat ∧ c.toNat ≤ 122 := by
  unfold islower Char.isLower
  simp
  rfl

theorem isupper_iff (c : Char) : isupper c = true ↔ 65 ≤ c.toNat ∧ c.toNat ≤ 90 := by
  unfold isupper Char.isUpper
  simp
  rfl

theorem toNat_toupper (c : Char) :
    (toupper c).toNat = if 97 ≤ c.toNat ∧ c.toNat ≤ 122 then c.toNat - 32 else c.toNat := by
  unfold toupper Char.toUpper
  simp only [ge_iff_le]
  split
  · rw [toNat_ofNat_small]; omega
  · rfl

theorem toNat_toLower (c : Char) :
    c.toLower.toNat = if 65 ≤ c.toNat ∧ c.toNat ≤ 90 then c.toNat + 32 else c.toNat := by
  unfold Char.toLower
  simp only [ge_iff_le]
  split
  · rw [toNat_ofNat_small]; omega
  · rfl

theorem toNat_dash : ('-' : Char).toNat = 45 := rfl

/-! ## The loop -/

theorem generic_step_isMove (ref ulr clr : List Char) (matrix : List (List Int))
    (s : Backtrack) (h : 0 < s.rowIndex ∨ 0 < s.columnIndex) :
    IsMove ref ulr clr s (GenericAlignments.step ref ulr clr matrix s) := by
  unfold GenericAlignments.step IsMove
  simp only
  split_ifs <;> first
    | (left; constructor <;> first | rfl | omega)
    | (right; left; constructor <;> first | rfl | omega)
    | (right; right; left; refine ⟨?_, ?_, rfl⟩ <;> omega)
    | (right; right; right; exact ⟨_, rfl⟩)

theorem proovread_step_isMove (lbi : List Int) (ref ulr clr : List Char)
    (matrix : List (List Int)) (s : Backtrack) (h : 0 < s.rowIndex ∨ 0 < s.columnIndex) :
    IsMove ref ulr clr s (ProovreadAlignments.step lbi ref ulr clr matrix s) := by
  unfold ProovreadAlignments.step IsMove
  simp only
  split_ifs <;> first
    | (left; constructor <;> first | rfl | omega)
    | (right; left; constructor <;> first | rfl | omega)
    | (right; right; left; refine ⟨?_, ?_, rfl⟩ <;> omega)
    | (right; right; right; exact ⟨_, rfl⟩)

theorem IsMove.measure_lt {ref ulr clr : List Char} {s t : Backtrack}
    (h : IsMove ref ulr clr s t) (hs : 0 < s.rowIndex ∨ 0 < s.columnIndex) :
    t.rowIndex + t.columnIndex < s.rowIndex + s.columnIndex := by
  rcases h with ⟨h1, rfl⟩ | ⟨h1, rfl⟩ | ⟨h1, h2, rfl⟩ | ⟨code, rfl⟩ <;>
    simp [Backtrack.deletion, Backtrack.insertion, Backtrack.substitution, Backtrack.noPath] <;>
    omega

theorem whileLoop_exit (body : Backtrack → Backtrack) :
    ∀ (fuel : Nat) (s r : Backtrack), whileLoop body fuel s = some r →
      r.rowIndex = 0 ∧ r.columnIndex = 0 := by
  intro fuel
  induction fuel with
  | zero =>
    intro s r h
    unfold whileLoop at h
    split_ifs at h with hc
    simp only [Option.some.injEq] at h
    subst h
    omega
  | succ n ih =>
    intro s r h
    unfold whileLoop at h
    split_ifs at h with hc
    · exact ih _ _ h
    · simp only [Option.some.injEq] at h
      subst h
      omega

theorem whileLoop_terminates (body : Backtrack → Backtrack)
    (hdec : ∀ s : Backtrack, (0 < s.rowIndex ∨ 0 < s.columnIndex) →
      (body s).rowIndex + (body s).columnIndex < s.rowIndex + s.columnIndex) :
    ∀ (fuel : Nat) (s : Backtrack), s.rowIndex + s.columnIndex ≤ fuel →
      ∃ r, whileLoop body fuel s = some r := by
  intro fuel
  induction fuel with
  | zero =>
    intro s hs
    refine ⟨s, ?_⟩
    unfold whileLoop
    rw [if_neg (by omega)]
  | succ n ih =>
    intro s hs
    unfold whileLoop
    split_ifs with hc
    · have := hdec s hc
      exact ih (body s) (by omega)
    · exact ⟨s, rfl⟩

theorem whileLoop_invariant (body : Backtrack → Backtrack) (P : Backtrack → Prop)
    (hP : ∀ s : Backtrack, (0 < s.rowIndex ∨ 0 < s.columnIndex) → P s → P (body s)) :
    ∀ (fuel : Nat) (s r : Backtrack), P s → whileLoop body fuel s = some r → P r := by
  intro fuel
  induction fuel with
  | zero =>
    intro s r hs h
    unfold whileLoop at h
    split_ifs at h with hc
    simp only [Option.some.injEq] at h
    subst h
    exact hs
  | succ n ih =>
    intro s r hs h
    unfold whileLoop at h
    split_ifs at h with hc
    · exact ih _ _ (hP s hc hs) h
    · simp only [Option.some.injEq] at h
      subst h
      exact hs

theorem IsMove.equalTracks {ref ulr clr : List Char} {s t : Backtrack}
    (h : IsMove ref ulr clr s t) (hs : EqualTracks s) : EqualTracks t := by
  unfold EqualTracks at *
  rcases h with ⟨_, rfl⟩ | ⟨_, rfl⟩ | ⟨_, _, rfl⟩ | ⟨code, rfl⟩ <;>
    simp [Backtrack.deletion, Backtrack.insertion, Backtrack.substitution, Backtrack.noPath] <;>
    omega

/-- Any loop whose body is a move returns, with three tracks of one length. -/
theorem loop_equalTracks (ref ulr clr : List Char) (body : Backtrack → Backtrack)
    (hbody : ∀ s : Backtrack, (0 < s.rowIndex ∨ 0 < s.columnIndex) → IsMove ref ulr clr s (body s))
    (rows columns : Nat) :
    ∃ a, (whileLoop body ((rows - 1) + (columns - 1)) (Backtrack.start rows columns)).map
        Backtrack.toAlignment = some a ∧
      a.clr.length = a.ulr.length ∧ a.ulr.length = a.ref.length := by
  obtain ⟨r, hr⟩ := whileLoop_terminates body (fun s hs => (hbody s hs).measure_lt hs)
    ((rows - 1) + (columns - 1)) (Backtrack.start rows columns) (by simp [Backtrack.start])
  have hinv := whileLoop_invariant body EqualTracks (fun s hs hP => (hbody s hs).equalTracks hP)
    _ _ r (by simp [EqualTracks, Backtrack.start]) hr
  exact ⟨r.toAlignment, by rw [hr]; rfl, hinv.1, hinv.2⟩

/-- C1: for all characters `a` and `b`, `cost(a, b)` is 0 when `b` is a
lowercase letter, otherwise 0 when `toupper(a) == b`, otherwise 2; the result
is a non-negative integer, 0 or 2; `OptimalAlignment::cost` is the same
function as `Reads::cost`. -/
theorem cost_contract (a b : Char) :
    Reads.cost a b = (if islower b then 0 else if toupper a = b then 0 else 2) ∧
    (Reads.cost a b = 0 ∨ Reads.cost a b = 2) ∧ 0 ≤ Reads.cost a b ∧
    OptimalAlignment.cost a b = Reads.cost a b := by
  unfold Reads.cost Reads.costWith OptimalAlignment.cost
  refine ⟨rfl, ?_, ?_, rfl⟩ <;> split_ifs <;> simp

/-- C3: for every input triple with `|reference| = |uncorrected|`, both the
Generic engine and the Segment-Trimming engine (whatever `split` returns and
whatever `lastBaseIndices` held before) return, and the three tracks they
produce have the same length, also when backtracking stopped in a
`No paths found` branch. -/
theorem tracks_equal_length (ref ulr clr : List Char) (_hlen : ref.length = ulr.length) :
    (∃ a, GenericAlignments.initialise ref ulr clr = some a ∧
      a.clr.length = a.ulr.length ∧ a.ulr.length = a.ref.length) ∧
    (∀ (split : List Char → List (List Char)) (before : List Int),
      ∃ a, ProovreadAlignments.initialise split before ref ulr clr = some a ∧
        a.clr.length = a.ulr.length ∧ a.ulr.length = a.ref.length) := by
  constructor
  · exact loop_equalTracks ref ulr clr _
      (fun s hs => generic_step_isMove ref ulr clr _ s hs) _ _
  · intro split before
    exact loop_equalTracks ref ulr (ProovreadAlignments.cleanClr clr) _
      (fun s hs => proovread_step_isMove _ ref ulr _ _ s hs) _ _

theorem tracks_equal_length_witness :
    ['A', 'C', 'G'].length = ['A', 'C', 'G'].length ∧
    ∃ a, GenericAlignments.initialise ['A', 'C', 'G'] ['A', 'C', 'G'] ['A', 't', 'g'] = some a ∧
      a.clr.length = a.ulr.length ∧ a.ulr.length = a.ref.length :=
  ⟨rfl, (tracks_equal_length ['A', 'C', 'G'] ['A', 'C', 'G'] ['A', 't', 'g'] rfl).1⟩

/-! ## Reading the filled matrix -/

theorem fillRow_cons_cons (cell : Nat → Int → Int → Int → Int) (k : Nat) (left diag up : Int)
    (rest : List Int) :
    fillRow cell k left (diag :: up :: rest) =
      cell k left up diag :: fillRow cell (k + 1) (cell k left up diag) (up :: rest) := by
  rw [fillRow]

theorem fillRow_length (cell : Nat → Int → Int → Int → Int) :
    ∀ (above : List Int) (k : Nat) (left : Int),
      (fillRow cell k left above).length = above.length - 1 := by
  intro above
  induction above with
  | nil => intro k left; simp [fillRow]
  | cons diag rest ih =>
    intro k left
    cases rest with
    | nil => simp [fillRow]
    | cons up rest2 =>
      rw [fillRow_cons_cons, List.length_cons, ih]
      simp

theorem fillRow_getD (cell : Nat → Int → Int → Int → Int) :
    ∀ (above : List Int) (k : Nat) (left : Int) (j : Nat), j + 1 < above.length →
      (fillRow cell k left above).getD j 0 =
        cell (k + j) (if j = 0 then left else (fillRow cell k left above).getD (j - 1) 0)
          (above.getD (j + 1) 0) (above.getD j 0) := by
  intro above
  induction above with
  | nil => intro k left j h; simp at h
  | cons diag rest ih =>
    intro k left j h
    cases rest with
    | nil => simp at h
    | cons up rest2 =>
      cases j with
      | zero => rw [fillRow_cons_cons]; simp
      | succ j =>
        have hj : j + 1 < (up :: rest2).length := by simpa using h
        have := ih (k + 1) (cell k left up diag) j hj
        rw [fillRow_cons_cons]
        simp only [List.getD_cons_succ]
        rw [this]
        have hk : k + 1 + j = k + (j + 1) := by omega
        rw [hk]
        cases j with
        | zero => simp
        | succ j => simp

theorem nextRow_length (cell : Nat → Nat → Int → Int → Int → Int) (rowIndex : Nat)
    (above : List Int) (h : 0 < above.length) :
    (nextRow cell rowIndex above).length = above.length := by
  unfold nextRow
  simp only [List.length_cons, fillRow_length]
  omega

theorem nextRow_getD_zero (cell : Nat → Nat → Int → Int → Int → Int) (rowIndex : Nat)
    (above : List Int) : (nextRow cell rowIndex above).getD 0 0 = (rowIndex : Int) := by
  simp [nextRow]

theorem nextRow_getD_succ (cell : Nat → Nat → Int → Int → Int → Int) (rowIndex : Nat)
    (above : List Int) (j : Nat) (h : j + 1 < above.length) :
    (nextRow cell rowIndex above).getD (j + 1) 0 =
      cell rowIndex (j + 1) ((nextRow cell rowIndex above).getD j 0)
        (above.getD (j + 1) 0) (above.getD j 0) := by
  unfold nextRow
  simp only [List.getD_cons_succ]
  rw [fillRow_getD _ _ _ _ _ h]
  have : 1 + j = j + 1 := by omega
  rw [this]
  cases j with
  | zero => simp
  | succ j => simp

theorem fillRows_length (cell : Nat → Nat → Int → Int → Int → Int) :
    ∀ (n r : Nat) (above : List Int), (fillRows cell n r above).length = n := by
  intro n
  induction n with
  | zero => intro r above; simp [fillRows]
  | succ n ih => intro r above; simp [fillRows, ih]

theorem fillRows_getD (cell : Nat → Nat → Int → Int → Int → Int) :
    ∀ (n r : Nat) (above : List Int) (i : Nat), i < n →
      (fillRows cell n r above).getD i [] =
        nextRow cell (r + i) (if i = 0 then above else (fillRows cell n r above).getD (i - 1) []) := by
  intro n
  induction n with
  | zero => intro r above i h; omega
  | succ n ih =>
    intro r above i h
    cases i with
    | zero => simp [fillRows]
    | succ i =>
      have hi : i < n := by omega
      have := ih (r + 1) (nextRow cell r above) i hi
      simp only [fillRows, List.getD_cons_succ]
      rw [this]
      have hk : r + 1 + i = r + (i + 1) := by omega
      rw [hk]
      cases i with
      | zero => simp
      | succ i => simp

theorem fillMatrix_row_zero (cell : Nat → Nat → Int → Int → Int → Int) (row0 : List Int)
    (rows : Nat) : (fillMatrix cell row0 rows).getD 0 [] = row0 := by
  simp [fillMatrix]

theorem fillMatrix_row_succ (cell : Nat → Nat → Int → Int → Int → Int) (row0 : List Int)
    (rows i : Nat) (h : i + 1 < rows) :
    (fillMatrix cell row0 rows).getD (i + 1) [] =
      nextRow cell (i + 1) ((fillMatrix cell row0 rows).getD i []) := by
  unfold fillMatrix
  simp only [List.getD_cons_succ]
  rw [fillRows_getD _ _ _ _ _ (by omega)]
  have : 1 + i = i + 1 := by omega
  rw [this]
  cases i with
  | zero => simp
  | succ i => simp

theorem fillMatrix_row_length (cell : Nat → Nat → Int → Int → Int → Int) (row0 : List Int)
    (rows : Nat) (h0 : 0 < row0.length) :
    ∀ i, i < rows → ((fillMatrix cell row0 rows).getD i []).length = row0.length := by
  intro i
  induction i with
  | zero => intro _; rw [fillMatrix_row_zero]
  | succ i ih =>
    intro h
    rw [fillMatrix_row_succ _ _ _ _ h, nextRow_length]
    · exact ih (by omega)
    · rw [ih (by omega)]; exact h0

theorem cellAt_zero (cell : Nat → Nat → Int → Int → Int → Int) (row0 : List Int)
    (rows j : Nat) : cellAt (fillMatrix cell row0 rows) 0 j = row0.getD j 0 := by
  unfold cellAt
  rw [fillMatrix_row_zero]

theorem cellAt_succ_zero (cell : Nat → Nat → Int → Int → Int → Int) (row0 : List Int)
    (rows i : Nat) (h : i + 1 < rows) :
    cellAt (fillMatrix cell row0 rows) (i + 1) 0 = ((i + 1 : Nat) : Int) := by
  unfold cellAt
  rw [fillMatrix_row_succ _ _ _ _ h, nextRow_getD_zero]

theorem cellAt_succ_succ (cell : Nat → Nat → Int → Int → Int → Int) (row0 : List Int)
    (rows i j : Nat) (h0 : 0 < row0.length) (h : i + 1 < rows) (hj : j + 1 < row0.length) :
    cellAt (fillMatrix cell row0 rows) (i + 1) (j + 1) =
      cell (i + 1) (j + 1) (cellAt (fillMatrix cell row0 rows) (i + 1) j)
        (cellAt (fillMatrix cell row0 rows) i (j + 1))
        (cellAt (fillMatrix cell row0 rows) i j) := by
  unfold cellAt
  rw [fillMatrix_row_succ _ _ _ _ h]
  rw [nextRow_getD_succ]
  rw [fillMatrix_row_length _ _ _ h0 i (by omega)]
  exact hj

/-! ## Machine integers -/

theorem absRange_abs32_add32 (x y : Int) : AbsRange (abs32 (add32 x y)) := by
  unfold AbsRange abs32 add32 wrap32
  split_ifs <;> omega

theorem absRange_INT_MAX : AbsRange INT_MAX := by
  unfold AbsRange INT_MAX
  omega

theorem absRange_min {a b : Int} (ha : AbsRange a) (hb : AbsRange b) : AbsRange (min a b) := by
  rcases min_choice a b with h | h <;> rw [h] <;> assumption

theorem add32_two_ne_zero {v : Int} (hv : AbsRange v) : add32 v 2 ≠ 0 := by
  unfold AbsRange at hv
  unfold add32 wrap32
  omega

theorem abs32_add32_zero_zero : abs32 (add32 0 0) = 0 := by decide

theorem add32_zero_zero : add32 0 0 = 0 := by decide

/-! ## Strings -/

theorem isAlpha_iff (c : Char) :
    c.isAlpha = true ↔ (65 ≤ c.toNat ∧ c.toNat ≤ 90) ∨ (97 ≤ c.toNat ∧ c.toNat ≤ 122) := by
  have h1 := isupper_iff c
  have h2 := islower_iff c
  unfold isupper at h1
  unfold islower at h2
  unfold Char.isAlpha
  rw [Bool.or_eq_true, h1, h2]

theorem toNat_tolower (c : Char) :
    (tolower c).toNat = if 65 ≤ c.toNat ∧ c.toNat ≤ 90 then c.toNat + 32 else c.toNat :=
  toNat_toLower c

theorem islower_tolower (c : Char) (h : c.isAlpha = true) : islower (tolower c) = true := by
  rw [islower_iff, toNat_tolower]
  rw [isAlpha_iff] at h
  split_ifs <;> omega

theorem isupper_tolower (c : Char) : isupper (tolower c) = false := by
  rw [Bool.eq_false_iff, Ne, isupper_iff, toNat_tolower]
  split_ifs <;> omega

theorem toupper_tolower (c : Char) : toupper (tolower c) = toupper c := by
  rw [char_eq_iff, toNat_toupper, toNat_toupper, toNat_tolower]
  split_ifs <;> omega

theorem toupper_ne_dash (c : Char) (h : c ≠ '-') : toupper c ≠ '-' := by
  rw [Ne, char_eq_iff, toNat_dash] at *
  rw [toNat_toupper]
  split_ifs <;> omega

theorem isAlpha_ne_dash (c : Char) (h : c.isAlpha = true) : c ≠ '-' := by
  rw [Ne, char_eq_iff, toNat_dash]
  rw [isAlpha_iff] at h
  omega

theorem toupper_of_isupper (c : Char) (h : isupper c = true) : toupper c = c := by
  rw [isupper_iff] at h
  rw [char_eq_iff, toNat_toupper]
  split_ifs <;> omega

theorem islower_of_isupper (c : Char) (h : isupper c = true) : islower c = false := by
  rw [isupper_iff] at h
  rw [Bool.eq_false_iff, Ne, islower_iff]
  omega

theorem isupper_ne_dash (c : Char) (h : isupper c = true) : c ≠ '-' := by
  rw [isupper_iff] at h
  rw [Ne, char_eq_iff, toNat_dash]
  omega

theorem islower_dash : islower '-' = false := by decide

theorem toupper_dash : toupper '-' = '-' := by decide

theorem isupper_nul : isupper (Char.ofNat 0) = false := by decide

theorem charAt_eq_getElem (s : List Char) (i : Nat) (h : i < s.length) :
    charAt s i = s[i] := by
  unfold charAt
  exact List.getD_eq_getElem _ _ h

theorem charAt_mem (s : List Char) (i : Nat) (h : i < s.length) : charAt s i ∈ s := by
  rw [charAt_eq_getElem s i h]
  exact List.getElem_mem h

theorem charAt_map (f : Char → Char) (s : List Char) (i : Nat) (h : i < s.length) :
    charAt (s.map f) i = f (charAt s i) := by
  rw [charAt_eq_getElem _ _ (by simpa using h), charAt_eq_getElem _ _ h]
  simp

theorem charAt_of_le (s : List Char) (i : Nat) (h : s.length ≤ i) :
    charAt s i = Char.ofNat 0 := by
  unfold charAt
  exact List.getD_eq_default _ _ h

theorem take_succ_charAt (s : List Char) (k : Nat) (h : k < s.length) :
    s.take (k + 1) = s.take k ++ [charAt s k] := by
  rw [charAt_eq_getElem s k h, List.take_succ]
  simp [List.getElem?_eq_getElem h]

/-! ## The matrix of the Generic engine -/

namespace GenericAlignments

theorem row0_length (columns : Nat) : (row0 columns).length = columns := by
  simp [row0]

theorem row0_getD (columns j : Nat) (h : j < columns) : (row0 columns).getD j 0 = (j : Int) := by
  have h' : j < (row0 columns).length := by rw [row0_length]; exact h
  rw [List.getD_eq_getElem _ _ h']
  simp [row0]

theorem cellAt_row_zero (cost : Char → Char → Int) (ref ulr clr : List Char) (j : Nat)
    (h : j < Reads.columns ulr) : cellAt (matrixWith cost ref ulr clr) 0 j = (j : Int) := by
  unfold matrixWith
  rw [cellAt_zero, row0_getD _ _ h]

theorem cellAt_col_zero (cost : Char → Char → Int) (ref ulr clr : List Char) (i : Nat)
    (h : i < Reads.rows clr) : cellAt (matrixWith cost ref ulr clr) i 0 = (i : Int) := by
  cases i with
  | zero =>
    have := cellAt_row_zero cost ref ulr clr 0 (by simp [Reads.columns])
    simpa using this
  | succ i =>
    unfold matrixWith
    rw [cellAt_succ_zero _ _ _ _ h]

theorem cellAt_interior (cost : Char → Char → Int) (ref ulr clr : List Char) (i j : Nat)
    (hi : i + 1 < Reads.rows clr) (hj : j + 1 < Reads.columns ulr) :
    cellAt (matrixWith cost ref ulr clr) (i + 1) (j + 1) =
      cell cost ref ulr clr (i + 1) (j + 1)
        (cellAt (matrixWith cost ref ulr clr) (i + 1) j)
        (cellAt (matrixWith cost ref ulr clr) i (j + 1))
        (cellAt (matrixWith cost ref ulr clr) i j) := by
  unfold matrixWith
  have h0 : 0 < (row0 (Reads.columns ulr)).length := by rw [row0_length]; omega
  have hj' : j + 1 < (row0 (Reads.columns ulr)).length := by rw [row0_length]; exact hj
  rw [cellAt_succ_succ _ _ _ _ _ h0 hi hj']

theorem moveCosts_interior (ref clr : List Char) (matrix : List (List Int)) (i j : Nat) :
    moveCosts ref clr matrix (i + 1) (j + 1) =
      (add32 (cellAt matrix (i + 1) j) (Reads.cost (charAt ref j) '-'),
       add32 (cellAt matrix i (j + 1)) (Reads.cost '-' (charAt clr i)),
       add32 (cellAt matrix i j) (Reads.cost (charAt ref j) (charAt clr i))) := by
  unfold moveCosts
  simp

end GenericAlignments

/-! ## A run along the diagonal -/

theorem whileLoop_diagonal (body : Backtrack → Backtrack) (ref ulr clr : List Char)
    (n : Nat) (hr : n ≤ ref.length) (hu : n ≤ ulr.length) (hc : n ≤ clr.length)
    (hbody : ∀ s : Backtrack, s.rowIndex = s.columnIndex → 0 < s.rowIndex → s.rowIndex ≤ n →
      body s = s.substitution ref ulr clr) :
    ∀ (k fuel : Nat) (cm um rm : List Char) (e : Option Nat), k ≤ n → k ≤ fuel →
      whileLoop body fuel
          { rowIndex := k, columnIndex := k, clrMaf := cm, ulrMaf := um, refMaf := rm,
            errorCode := e } =
        some { rowIndex := 0, columnIndex := 0, clrMaf := clr.take k ++ cm,
               ulrMaf := ulr.take k ++ um, refMaf := ref.take k ++ rm, errorCode := e } := by
  intro k
  induction k with
  | zero =>
    intro fuel cm um rm e _ _
    cases fuel <;> simp [whileLoop]
  | succ k ih =>
    intro fuel cm um rm e hk hf
    cases fuel with
    | zero => omega
    | succ fuel =>
      unfold whileLoop
      rw [if_pos (by simp)]
      rw [hbody _ rfl (by simp) (by simpa using hk)]
      unfold Backtrack.substitution
      simp only [Nat.add_sub_cancel]
      rw [ih fuel _ _ _ _ (by omega) (by omega)]
      rw [take_succ_charAt clr k (by omega), take_succ_charAt ulr k (by omega),
        take_succ_charAt ref k (by omega)]
      simp

/-! ## A read left uncorrected throughout -/

theorem rows_map_tolower (s : List Char) (hs : ∀ c ∈ s, c.isAlpha = true) :
    Reads.rows (s.map tolower) = s.length + 1 := by
  unfold Reads.rows
  rw [List.filter_eq_self.mpr, List.length_map]
  intro c hc
  obtain ⟨d, hd, rfl⟩ := List.mem_map.mp hc
  have hl := (islower_iff _).mp (islower_tolower d (hs d hd))
  have : tolower d ≠ ' ' := by
    rw [Ne, char_eq_iff]
    have : (' ' : Char).toNat = 32 := rfl
    omega
  simpa using this

theorem isEndingLCInit_map_tolower (s : List Char) (i : Nat) :
    GenericAlignments.isEndingLCInit (s.map tolower) i = false := by
  unfold GenericAlignments.isEndingLCInit
  by_cases h : i + 1 < s.length
  · rw [charAt_map tolower s (i + 1) h, isupper_tolower]
    simp
  · simp [h]

theorem cost_lower (a b : Char) (h : islower b = true) : Reads.cost a b = 0 := by
  unfold Reads.cost Reads.costWith
  rw [if_pos h]

theorem cost_dash (a : Char) (h : a ≠ '-') : Reads.cost a '-' = 2 := by
  unfold Reads.cost Reads.costWith
  rw [if_neg (by rw [islower_dash]; simp), if_neg (toupper_ne_dash a h)]

theorem cell_lower_match (cost : Char → Char → Int) (ref ulr clr : List Char) (i j : Nat)
    (left up diag : Int) (hE : GenericAlignments.isEndingLCInit clr i = false)
    (hl : islower (charAt clr i) = true)
    (hm : toupper (charAt ulr j) = toupper (charAt clr i)) :
    GenericAlignments.cell cost ref ulr clr (i + 1) (j + 1) left up diag =
      abs32 (add32 diag (cost (charAt ref j) (charAt clr i))) := by
  unfold GenericAlignments.cell
  simp [hE, hl, hm]

theorem cell_lower_absRange (cost : Char → Char → Int) (ref ulr clr : List Char) (i j : Nat)
    (left up diag : Int) (hE : GenericAlignments.isEndingLCInit clr i = false)
    (hl : islower (charAt clr i) = true) (hu : charAt ulr j ≠ '-') :
    AbsRange (GenericAlignments.cell cost ref ulr clr (i + 1) (j + 1) left up diag) := by
  unfold GenericAlignments.cell
  simp only [Nat.add_sub_cancel, hE, hl, Bool.false_eq_true, if_false, if_true, if_neg hu]
  split_ifs
  · exact absRange_abs32_add32 _ _
  · exact absRange_INT_MAX

theorem lowercase_diag_zero (s : List Char) (hs : ∀ c ∈ s, c.isAlpha = true) :
    ∀ k, k ≤ s.length → cellAt (GenericAlignments.matrix s s (s.map tolower)) k k = 0 := by
  intro k
  induction k with
  | zero =>
    intro _
    unfold GenericAlignments.matrix
    rw [GenericAlignments.cellAt_col_zero _ _ _ _ 0 (by simp [Reads.rows])]
    rfl
  | succ k ih =>
    intro hk
    have hk' : k < s.length := hk
    unfold GenericAlignments.matrix at *
    rw [GenericAlignments.cellAt_interior _ _ _ _ k k
      (by rw [rows_map_tolower s hs]; omega) (by unfold Reads.columns; omega)]
    have hl : islower (charAt (s.map tolower) k) = true := by
      rw [charAt_map tolower s k hk']
      exact islower_tolower _ (hs _ (charAt_mem s k hk'))
    have hm : toupper (charAt s k) = toupper (charAt (s.map tolower) k) := by
      rw [charAt_map tolower s k hk', toupper_tolower]
    rw [cell_lower_match _ _ _ _ _ _ _ _ _ (isEndingLCInit_map_tolower s k) hl hm]
    rw [ih (by omega), cost_lower _ _ hl]
    exact abs32_add32_zero_zero

theorem lowercase_step (s : List Char) (hs : ∀ c ∈ s, c.isAlpha = true) (st : Backtrack)
    (h1 : st.rowIndex = st.columnIndex) (h2 : 0 < st.rowIndex) (h3 : st.rowIndex ≤ s.length) :
    GenericAlignments.step s s (s.map tolower) (GenericAlignments.matrix s s (s.map tolower)) st =
      st.substitution s s (s.map tolower) := by
  obtain ⟨k, hk⟩ : ∃ k, st.rowIndex = k + 1 := ⟨st.rowIndex - 1, by omega⟩
  have hc : st.columnIndex = k + 1 := by omega
  have hk' : k < s.length := by omega
  have hl : islower (charAt (s.map tolower) k) = true := by
    rw [charAt_map tolower s k hk']
    exact islower_tolower _ (hs _ (charAt_mem s k hk'))
  have hm : toupper (charAt s k) = toupper (charAt (s.map tolower) k) := by
    rw [charAt_map tolower s k hk', toupper_tolower]
  have hcur : cellAt (GenericAlignments.matrix s s (s.map tolower)) (k + 1) (k + 1) = 0 :=
    lowercase_diag_zero s hs (k + 1) (by omega)
  have hsub : add32 (cellAt (GenericAlignments.matrix s s (s.map tolower)) k k)
      (Reads.cost (charAt s k) (charAt (s.map tolower) k)) = 0 := by
    rw [lowercase_diag_zero s hs k (by omega), cost_lower _ _ hl]
    exact add32_zero_zero
  have hdel : add32 (cellAt (GenericAlignments.matrix s s (s.map tolower)) (k + 1) k)
      (Reads.cost (charAt s k) '-') ≠ 0 := by
    rw [cost_dash _ (isAlpha_ne_dash _ (hs _ (charAt_mem s k hk')))]
    cases k with
    | zero =>
      unfold GenericAlignments.matrix
      rw [GenericAlignments.cellAt_col_zero _ _ _ _ 1 (by rw [rows_map_tolower s hs]; omega)]
      decide
    | succ j =>
      apply add32_two_ne_zero
      unfold GenericAlignments.matrix
      rw [GenericAlignments.cellAt_interior _ _ _ _ (j + 1) j
        (by rw [rows_map_tolower s hs]; omega) (by unfold Reads.columns; omega)]
      exact cell_lower_absRange _ _ _ _ _ _ _ _ _ (isEndingLCInit_map_tolower s (j + 1)) hl
        (isAlpha_ne_dash _ (hs _ (charAt_mem s j (by omega))))
  have hnotEnd : k + 1 < s.length →
      GenericAlignments.isEndingLCFind (s.map tolower) k = false := by
    intro hlt
    unfold GenericAlignments.isEndingLCFind
    rw [charAt_map tolower s (k + 1) hlt, isupper_tolower]
    simp
    omega
  unfold GenericAlignments.step
  simp only [hk, hc, GenericAlignments.moveCosts_interior, Nat.add_sub_cancel, hcur, hsub]
  rw [if_neg (by omega)]
  by_cases hlast : k + 1 < s.length
  · simp [hnotEnd hlast, hl, hm]
  · simp [hl, hm, hdel]

/-- C5: for every string `s` of letters, the Generic engine run on reference
`s`, uncorrected read `s` and corrected read the all-lowercase copy of `s`
computes the edit distance `matrix[rows-1][columns-1] = 0`. -/
theorem lowercase_copy_distance_zero (s : List Char) (hs : ∀ c ∈ s, c.isAlpha = true) :
    GenericAlignments.distance s s (s.map tolower) = 0 := by
  unfold GenericAlignments.distance
  rw [rows_map_tolower s hs]
  exact lowercase_diag_zero s hs s.length (le_refl _)

theorem lowercase_copy_distance_zero_witness :
    (∀ c ∈ ['A', 'C', 'G', 'T'], c.isAlpha = true) ∧
      GenericAlignments.distance ['A', 'C', 'G', 'T'] ['A', 'C', 'G', 'T']
        (['A', 'C', 'G', 'T'].map tolower) = 0 :=
  ⟨by decide, lowercase_copy_distance_zero ['A', 'C', 'G', 'T'] (by decide)⟩

/-- C6: for every string `s` of letters, the Generic engine run on reference
`s`, uncorrected read `s` and corrected read the all-lowercase copy of `s`
returns the three inputs as the three tracks, with no gap character, and
writes no error. -/
theorem lowercase_copy_no_gaps (s : List Char) (hs : ∀ c ∈ s, c.isAlpha = true) :
    GenericAlignments.initialise s s (s.map tolower) =
      some { clr := s.map tolower, ulr := s, ref := s, errorCode := none } := by
  unfold GenericAlignments.initialise GenericAlignments.findAlignments Backtrack.start
  rw [rows_map_tolower s hs]
  unfold Reads.columns
  simp only [Nat.add_sub_cancel]
  rw [whileLoop_diagonal _ s s (s.map tolower) s.length (le_refl _) (le_refl _) (by simp)
    (lowercase_step s hs) s.length _ [] [] [] none (le_refl _) (by omega)]
  simp [Backtrack.toAlignment]

theorem lowercase_copy_no_gaps_witness :
    (∀ c ∈ ['A', 'C', 'G', 'T'], c.isAlpha = true) ∧
      GenericAlignments.initialise ['A', 'C', 'G', 'T'] ['A', 'C', 'G', 'T']
          (['A', 'C', 'G', 'T'].map tolower) =
        some { clr := ['A', 'C', 'G', 'T'].map tolower, ulr := ['A', 'C', 'G', 'T'],
               ref := ['A', 'C', 'G', 'T'], errorCode := none } :=
  ⟨by decide, lowercase_copy_no_gaps ['A', 'C', 'G', 'T'] (by decide)⟩

/-! ## A read corrected throughout and equal to the reference -/

theorem rows_of_isupper (c : List Char) (hc : ∀ x ∈ c, isupper x = true) :
    Reads.rows c = c.length + 1 := by
  unfold Reads.rows
  rw [List.filter_eq_self.mpr]
  intro x hx
  have hu := (isupper_iff x).mp (hc x hx)
  have : x ≠ ' ' := by
    rw [Ne, char_eq_iff]
    have : (' ' : Char).toNat = 32 := rfl
    omega
  simpa using this

theorem cost_insert_upper (b : Char) (h : isupper b = true) : Reads.cost '-' b = 2 := by
  unfold Reads.cost Reads.costWith
  rw [if_neg (by rw [islower_of_isupper b h]; simp), toupper_dash,
    if_neg (fun e => isupper_ne_dash b h e.symm)]

theorem cost_same_upper (b : Char) (h : isupper b = true) : Reads.cost b b = 0 := by
  unfold Reads.cost Reads.costWith
  rw [if_neg (by rw [islower_of_isupper b h]; simp), if_pos (toupper_of_isupper b h)]

theorem cell_regular (cost : Char → Char → Int) (ref ulr clr : List Char) (i j : Nat)
    (left up diag : Int) (hl : islower (charAt clr i) = false) :
    GenericAlignments.cell cost ref ulr clr (i + 1) (j + 1) left up diag =
      min (abs32 (add32 left (cost (charAt ref j) '-')))
        (min (abs32 (add32 up (cost '-' (charAt clr i))))
          (abs32 (add32 diag (cost (charAt ref j) (charAt clr i))))) := by
  unfold GenericAlignments.cell GenericAlignments.isEndingLCInit
  simp [hl]

theorem near_min_up (a d : Int) (ha : AbsRange a) (hd : AbsRange d) :
    Near (min a (min (abs32 (add32 0 2)) d)) := by
  have h2 : abs32 (add32 0 2) = 2 := by decide
  rw [h2]
  unfold AbsRange at ha hd
  unfold Near
  omega

theorem near_min_left (b d : Int) (hb : AbsRange b) (hd : AbsRange d) :
    Near (min (abs32 (add32 0 2)) (min b d)) := by
  have h2 : abs32 (add32 0 2) = 2 := by decide
  rw [h2]
  unfold AbsRange at hb hd
  unfold Near
  omega

theorem near_one : Near 1 := by
  unfold Near
  omega

theorem add32_two_ne_zero_of_near {v : Int} (hv : Near v) : add32 v 2 ≠ 0 := by
  unfold Near at hv
  unfold add32 wrap32
  omega

theorem min_zero_of_near {l u : Int} (hl : Near l) (hu : Near u) :
    min (abs32 (add32 l 2)) (min (abs32 (add32 u 2)) (abs32 (add32 0 0))) = 0 := by
  rw [abs32_add32_zero_zero]
  unfold Near at hl hu
  unfold abs32 add32 wrap32
  split_ifs <;> omega

theorem uppercase_diag (c u : List Char) (hc : ∀ x ∈ c, isupper x = true)
    (hlen : u.length = c.length) :
    ∀ k, k ≤ c.length →
      cellAt (GenericAlignments.matrix c u c) k k = 0 ∧
      (k < c.length → Near (cellAt (GenericAlignments.matrix c u c) (k + 1) k) ∧
        Near (cellAt (GenericAlignments.matrix c u c) k (k + 1))) := by
  have hrows := rows_of_isupper c hc
  have hcols : Reads.columns u = c.length + 1 := by unfold Reads.columns; omega
  have hup : ∀ i, i < c.length → isupper (charAt c i) = true :=
    fun i hi => hc _ (charAt_mem c i hi)
  have hlow : ∀ i, i < c.length → islower (charAt c i) = false :=
    fun i hi => islower_of_isupper _ (hup i hi)
  have hnear : ∀ k, k < c.length → cellAt (GenericAlignments.matrix c u c) k k = 0 →
      Near (cellAt (GenericAlignments.matrix c u c) (k + 1) k) ∧
        Near (cellAt (GenericAlignments.matrix c u c) k (k + 1)) := by
    intro k hk hz
    unfold GenericAlignments.matrix at *
    cases k with
    | zero =>
      rw [GenericAlignments.cellAt_col_zero _ _ _ _ 1 (by omega),
        GenericAlignments.cellAt_row_zero _ _ _ _ 1 (by omega)]
      exact ⟨near_one, near_one⟩
    | succ j =>
      constructor
      · rw [GenericAlignments.cellAt_interior _ _ _ _ (j + 1) j (by omega) (by omega),
          cell_regular _ _ _ _ _ _ _ _ _ (hlow (j + 1) hk), hz,
          cost_insert_upper _ (hup (j + 1) hk)]
        exact near_min_up _ _ (absRange_abs32_add32 _ _) (absRange_abs32_add32 _ _)
      · rw [GenericAlignments.cellAt_interior _ _ _ _ j (j + 1) (by omega) (by omega),
          cell_regular _ _ _ _ _ _ _ _ _ (hlow j (by omega)), hz,
          cost_dash _ (isupper_ne_dash _ (hup (j + 1) hk))]
        exact near_min_left _ _ (absRange_abs32_add32 _ _) (absRange_abs32_add32 _ _)
  intro k
  induction k with
  | zero =>
    intro _
    have hz : cellAt (GenericAlignments.matrix c u c) 0 0 = 0 := by
      unfold GenericAlignments.matrix
      rw [GenericAlignments.cellAt_col_zero _ _ _ _ 0 (by omega)]
      rfl
    exact ⟨hz, fun h => hnear 0 h hz⟩
  | succ k ih =>
    intro hk
    obtain ⟨hz, hn⟩ := ih (by omega)
    obtain ⟨hL, hU⟩ := hn (by omega)
    have hz' : cellAt (GenericAlignments.matrix c u c) (k + 1) (k + 1) = 0 := by
      unfold GenericAlignments.matrix at *
      rw [GenericAlignments.cellAt_interior _ _ _ _ k k (by omega) (by omega),
        cell_regular _ _ _ _ _ _ _ _ _ (hlow k (by omega)), hz,
        cost_dash _ (isupper_ne_dash _ (hup k (by omega))),
        cost_insert_upper _ (hup k (by omega)), cost_same_upper _ (hup k (by omega))]
      exact min_zero_of_near hL hU
    exact ⟨hz', fun h => hnear (k + 1) h hz'⟩

theorem uppercase_step (c u : List Char) (hc : ∀ x ∈ c, isupper x = true)
    (hlen : u.length = c.length) (st : Backtrack)
    (h1 : st.rowIndex = st.columnIndex) (h2 : 0 < st.rowIndex) (h3 : st.rowIndex ≤ c.length) :
    GenericAlignments.step c u c (GenericAlignments.matrix c u c) st = st.substitution c u c := by
  obtain ⟨k, hk⟩ : ∃ k, st.rowIndex = k + 1 := ⟨st.rowIndex - 1, by omega⟩
  have hcol : st.columnIndex = k + 1 := by omega
  have hk' : k < c.length := by omega
  have hup : isupper (charAt c k) = true := hc _ (charAt_mem c k hk')
  have hlow : islower (charAt c k) = false := islower_of_isupper _ hup
  obtain ⟨hz, hn⟩ := uppercase_diag c u hc hlen k (by omega)
  obtain ⟨hL, hU⟩ := hn hk'
  have hcur := (uppercase_diag c u hc hlen (k + 1) (by omega)).1
  have hdel := add32_two_ne_zero_of_near hL
  have hins := add32_two_ne_zero_of_near hU
  unfold GenericAlignments.step GenericAlignments.isEndingLCFind
  simp only [hk, hcol, GenericAlignments.moveCosts_interior, Nat.add_sub_cancel, hcur, hz,
    cost_dash _ (isupper_ne_dash _ hup), cost_insert_upper _ hup, cost_same_upper _ hup]
  simp [hlow, hdel, hins, add32_zero_zero]

/-- C7: for every corrected read `c` of uppercase letters, reference equal to
`c` and any uncorrected read `u` of the same length, the Generic engine
computes distance 0, at every cell `(k, k)` of the diagonal the backtracker
takes the substitution move, whose cost is 0, and the aligned triple is
`(c, u, c)`: no gap is inserted and no error is written. -/
theorem uppercase_identical_diagonal (c u : List Char) (hc : ∀ x ∈ c, isupper x = true)
    (hlen : u.length = c.length) :
    GenericAlignments.distance c u c = 0 ∧
    GenericAlignments.initialise c u c =
      some { clr := c, ulr := u, ref := c, errorCode := none } ∧
    (∀ st : Backtrack, st.rowIndex = st.columnIndex → 0 < st.rowIndex →
      st.rowIndex ≤ c.length →
      GenericAlignments.step c u c (GenericAlignments.matrix c u c) st =
          st.substitution c u c ∧
        Reads.cost (charAt c (st.columnIndex - 1)) (charAt c (st.rowIndex - 1)) = 0) := by
  refine ⟨?_, ?_, ?_⟩
  · unfold GenericAlignments.distance
    rw [rows_of_isupper c hc]
    unfold Reads.columns
    rw [hlen]
    exact (uppercase_diag c u hc hlen c.length (le_refl _)).1
  · unfold GenericAlignments.initialise GenericAlignments.findAlignments Backtrack.start
    rw [rows_of_isupper c hc]
    unfold Reads.columns
    rw [hlen]
    simp only [Nat.add_sub_cancel]
    rw [whileLoop_diagonal _ c u c c.length (le_refl _) (by omega) (le_refl _)
      (uppercase_step c u hc hlen) c.length _ [] [] [] none (le_refl _) (by omega)]
    simp [Backtrack.toAlignment, ← hlen]
  · intro st h1 h2 h3
    refine ⟨uppercase_step c u hc hlen st h1 h2 h3, ?_⟩
    rw [← h1]
    exact cost_same_upper _ (hc _ (charAt_mem c _ (by omega)))

theorem uppercase_identical_diagonal_witness :
    (∀ x ∈ ['A', 'C', 'G', 'T'], isupper x = true) ∧
    ['A', 'C', 'G', 'A'].length = ['A', 'C', 'G', 'T'].length ∧
    GenericAlignments.distance ['A', 'C', 'G', 'T'] ['A', 'C', 'G', 'A'] ['A', 'C', 'G', 'T'] = 0 ∧
    GenericAlignments.initialise ['A', 'C', 'G', 'T'] ['A', 'C', 'G', 'A'] ['A', 'C', 'G', 'T'] =
      some { clr := ['A', 'C', 'G', 'T'], ulr := ['A', 'C', 'G', 'A'],
             ref := ['A', 'C', 'G', 'T'], errorCode := none } :=
  ⟨by decide, by decide,
    (uppercase_identical_diagonal ['A', 'C', 'G', 'T'] ['A', 'C', 'G', 'A'] (by decide)
      (by decide)).1,
    (uppercase_identical_diagonal ['A', 'C', 'G', 'T'] ['A', 'C', 'G', 'A'] (by decide)
      (by decide)).2.1⟩

/-! ## Post-processing -/

theorem drop_zip_cons (a b : List Char) (i : Nat) (hi : i < a.length)
    (hlen : a.length = b.length) :
    (a.zip b).drop i = (charAt a i, charAt b i) :: (a.zip b).drop (i + 1) := by
  have hz : i < (a.zip b).length := by simp; omega
  rw [List.drop_eq_getElem_cons hz, charAt_eq_getElem a i hi, charAt_eq_getElem b i (by omega)]
  simp

theorem processLoop_eq (clrMaf refMaf : List Char) (hlen : clrMaf.length = refMaf.length) :
    ∀ (n i : Nat) (acc : List Char × List Char), i + n = clrMaf.length →
      OptimalAlignment.processLoop clrMaf refMaf n i acc =
        (acc.1 ++ (((clrMaf.zip refMaf).drop i).filter keepColumn).map Prod.fst,
         acc.2 ++ (((clrMaf.zip refMaf).drop i).filter keepColumn).map Prod.snd) := by
  intro n
  induction n with
  | zero =>
    intro i acc h
    have : (clrMaf.zip refMaf).length ≤ i := by simp; omega
    simp [OptimalAlignment.processLoop, List.drop_eq_nil_of_le this]
  | succ n ih =>
    intro i acc h
    rw [OptimalAlignment.processLoop, ih (i + 1) _ (by omega),
      drop_zip_cons clrMaf refMaf i (by omega) hlen]
    by_cases hc : charAt clrMaf i ≠ '-' ∨ charAt refMaf i ≠ '-'
    · rw [if_pos hc]
      have hp : keepColumn (charAt clrMaf i, charAt refMaf i) = true := by
        unfold keepColumn
        rcases hc with h1 | h1 <;> simp [h1]
      rw [List.filter_cons_of_pos hp]
      simp
    · rw [if_neg hc]
      have hp : ¬ keepColumn (charAt clrMaf i, charAt refMaf i) = true := by
        unfold keepColumn
        simp only [not_or, not_not] at hc
        simp [hc.1, hc.2]
      rw [List.filter_cons_of_neg hp]

/-- C10: for every pair of equal-length tracks, `processAlignments` returns
the input columns in their original order with exactly the columns removed
that hold `-` in both tracks; the two outputs have equal length and no
column of theirs is a gap in both. -/
theorem processAlignments_filters_columns (clrMaf refMaf : List Char)
    (hlen : clrMaf.length = refMaf.length) :
    OptimalAlignment.processAlignments clrMaf refMaf =
      ((keptColumns clrMaf refMaf).map Prod.fst, (keptColumns clrMaf refMaf).map Prod.snd) ∧
    (OptimalAlignment.processAlignments clrMaf refMaf).1.length =
      (OptimalAlignment.processAlignments clrMaf refMaf).2.length ∧
    (∀ i, i < (OptimalAlignment.processAlignments clrMaf refMaf).1.length →
      ¬ ((OptimalAlignment.processAlignments clrMaf refMaf).1.getD i 'x' = '-' ∧
         (OptimalAlignment.processAlignments clrMaf refMaf).2.getD i 'x' = '-')) ∧
    (keptColumns clrMaf refMaf).Sublist (clrMaf.zip refMaf) ∧
    (∀ p ∈ clrMaf.zip refMaf, p ∈ keptColumns clrMaf refMaf ↔ ¬ (p.1 = '-' ∧ p.2 = '-')) := by
  have hmain : OptimalAlignment.processAlignments clrMaf refMaf =
      ((keptColumns clrMaf refMaf).map Prod.fst, (keptColumns clrMaf refMaf).map Prod.snd) := by
    unfold OptimalAlignment.processAlignments keptColumns
    rw [processLoop_eq clrMaf refMaf hlen clrMaf.length 0 ([], []) (by omega)]
    simp
  refine ⟨hmain, ?_, ?_, ?_, ?_⟩
  · rw [hmain]; simp
  · rw [hmain]
    intro i hi
    simp only [List.length_map] at hi
    have h1 : i < ((keptColumns clrMaf refMaf).map Prod.fst).length := by simpa using hi
    have h2 : i < ((keptColumns clrMaf refMaf).map Prod.snd).length := by simpa using hi
    rw [List.getD_eq_getElem _ _ h1, List.getD_eq_getElem _ _ h2]
    simp only [List.getElem_map]
    have hmem : (keptColumns clrMaf refMaf)[i] ∈ keptColumns clrMaf refMaf :=
      List.getElem_mem hi
    have hmem' : (keptColumns clrMaf refMaf)[i] ∈ (clrMaf.zip refMaf).filter keepColumn := hmem
    have hk : keepColumn ((keptColumns clrMaf refMaf)[i]) = true := (List.mem_filter.mp hmem').2
    intro hboth
    unfold keepColumn at hk
    rw [hboth.1, hboth.2] at hk
    simp at hk
  · exact List.filter_sublist _
  · intro p hp
    unfold keptColumns keepColumn
    rw [List.mem_filter]
    simp only [hp, true_and, Bool.not_eq_true', Bool.and_eq_false_iff, beq_eq_false_iff_ne, ne_eq]
    tauto

theorem processAlignments_filters_columns_witness :
    ['A', '-', 'C', '-'].length = ['-', 'A', 'C', '-'].length ∧
    OptimalAlignment.processAlignments ['A', '-', 'C', '-'] ['-', 'A', 'C', '-'] =
      ((keptColumns ['A', '-', 'C', '-'] ['-', 'A', 'C', '-']).map Prod.fst,
       (keptColumns ['A', '-', 'C', '-'] ['-', 'A', 'C', '-']).map Prod.snd) :=
  ⟨by decide, (processAlignments_filters_columns ['A', '-', 'C', '-'] ['-', 'A', 'C', '-']
    (by decide)).1⟩

/-! ## Round trip of the corrected read -/

theorem removeGaps_cons_dash (t : List Char) : removeGaps ('-' :: t) = removeGaps t := by
  simp [removeGaps]

theorem removeGaps_cons_of_ne (c : Char) (t : List Char) (h : c ≠ '-') :
    removeGaps (c :: t) = c :: removeGaps t := by
  simp [removeGaps, h]

theorem charAt_ne_dash (s : List Char) (h : ∀ x ∈ s, x ≠ '-') (i : Nat) : charAt s i ≠ '-' := by
  by_cases hi : i < s.length
  · exact h _ (charAt_mem s i hi)
  · rw [charAt_of_le s i (by omega)]
    decide

theorem drop_pred_charAt (s : List Char) (n r : Nat) (hr : 0 < r) (hrn : r ≤ n)
    (hn : n ≤ s.length) :
    (s.take n).drop (r - 1) = charAt s (r - 1) :: (s.take n).drop r := by
  have hlt : r - 1 < (s.take n).length := by rw [List.length_take]; omega
  rw [List.drop_eq_getElem_cons hlt, List.getElem_take, charAt_eq_getElem s (r - 1) (by omega)]
  have : r - 1 + 1 = r := by omega
  rw [this]

theorem IsMove.roundTrip {ref ulr clr : List Char} {n : Nat} {s t : Backtrack}
    (hdash : ∀ x ∈ clr, x ≠ '-') (hn : n ≤ clr.length)
    (h : IsMove ref ulr clr s t) (hs : 0 < s.rowIndex ∨ 0 < s.columnIndex)
    (hP : RoundTrip clr n s) : RoundTrip clr n t := by
  have he : s.errorCode = none := by
    by_contra hne
    have := hP.2 hne
    omega
  obtain ⟨hle, heq⟩ := hP.1 he
  rcases h with ⟨h1, rfl⟩ | ⟨h1, rfl⟩ | ⟨h1, h2, rfl⟩ | ⟨code, rfl⟩
  · refine ⟨fun _ => ⟨hle, ?_⟩, fun hne => absurd he hne⟩
    simp only [Backtrack.deletion]
    rw [removeGaps_cons_dash, heq]
  · refine ⟨fun _ => ⟨?_, ?_⟩, fun hne => absurd he hne⟩
    · simp only [Backtrack.insertion]; omega
    · simp only [Backtrack.insertion]
      rw [removeGaps_cons_of_ne _ _ (charAt_ne_dash clr hdash _), heq,
        drop_pred_charAt clr n s.rowIndex h1 hle hn]
  · refine ⟨fun _ => ⟨?_, ?_⟩, fun hne => absurd he hne⟩
    · simp only [Backtrack.substitution]; omega
    · simp only [Backtrack.substitution]
      rw [removeGaps_cons_of_ne _ _ (charAt_ne_dash clr hdash _), heq,
        drop_pred_charAt clr n s.rowIndex h1 hle hn]
  · refine ⟨fun hnone => ?_, fun _ => ⟨rfl, rfl, ?_⟩⟩
    · simp [Backtrack.noPath] at hnone
    · simp only [Backtrack.noPath]
      rw [heq]
      exact List.drop_suffix _ _

/-- Any loop whose body is a move returns; the corrected track without gaps
is a suffix of the first `rows - 1` characters of `clr`, and is all of them
when no error is written. -/
theorem loop_roundTrip (ref ulr clr : List Char) (body : Backtrack → Backtrack)
    (hbody : ∀ s : Backtrack, (0 < s.rowIndex ∨ 0 < s.columnIndex) → IsMove ref ulr clr s (body s))
    (hdash : ∀ x ∈ clr, x ≠ '-') (rows columns : Nat) (hrows : rows - 1 ≤ clr.length) :
    ∃ a, (whileLoop body ((rows - 1) + (columns - 1)) (Backtrack.start rows columns)).map
        Backtrack.toAlignment = some a ∧
      (a.errorCode = none → removeGaps a.clr = clr.take (rows - 1)) ∧
      removeGaps a.clr <:+ clr.take (rows - 1) := by
  obtain ⟨r, hr⟩ := whileLoop_terminates body (fun s hs => (hbody s hs).measure_lt hs)
    ((rows - 1) + (columns - 1)) (Backtrack.start rows columns) (by simp [Backtrack.start])
  have hstart : RoundTrip clr (rows - 1) (Backtrack.start rows columns) := by
    refine ⟨fun _ => ⟨le_refl _, ?_⟩, fun hne => ?_⟩
    · simp only [Backtrack.start, removeGaps, List.filter_nil]
      rw [List.drop_eq_nil_of_le]
      rw [List.length_take]
      omega
    · simp [Backtrack.start] at hne
  have hinv := whileLoop_invariant body (RoundTrip clr (rows - 1))
    (fun s hs hP => (hbody s hs).roundTrip hdash hrows hs hP) _ _ r hstart hr
  have hexit := whileLoop_exit body _ _ r hr
  refine ⟨r.toAlignment, by rw [hr]; rfl, ?_, ?_⟩
  · intro hnone
    have := (hinv.1 hnone).2
    rw [hexit.1] at this
    simpa [Backtrack.toAlignment] using this
  · by_cases hnone : r.errorCode = none
    · have := (hinv.1 hnone).2
      simp only [Backtrack.toAlignment]
      rw [this]
      exact List.drop_suffix _ _
    · exact (hinv.2 hnone).2.2

theorem rows_pred_le (clr : List Char) : Reads.rows clr - 1 ≤ clr.length := by
  unfold Reads.rows
  simp only [Nat.add_sub_cancel]
  exact List.length_filter_le _ _

theorem take_rows_of_no_blank (clr : List Char) (h : ∀ x ∈ clr, x ≠ ' ') :
    clr.take (Reads.rows clr - 1) = clr := by
  unfold Reads.rows
  rw [List.filter_eq_self.mpr (by intro x hx; simpa using h x hx)]
  simp

/-- C2 (amended): for every input triple with `|reference| = |uncorrected|`
and a corrected read without `-`, the Generic engine returns; when
backtracking reaches no `No paths found` branch, the corrected track with
every `-` removed is the first `rows - 1` characters of the corrected read,
which is the whole corrected read when it holds no blank; in any case it is a
suffix of those characters. -/
theorem corrected_track_roundtrip (ref ulr clr : List Char) (_hlen : ref.length = ulr.length)
    (hdash : ∀ x ∈ clr, x ≠ '-') :
    ∃ a, GenericAlignments.initialise ref ulr clr = some a ∧
      (a.errorCode = none → removeGaps a.clr = clr.take (Reads.rows clr - 1)) ∧
      (a.errorCode = none → (∀ x ∈ clr, x ≠ ' ') → removeGaps a.clr = clr) ∧
      removeGaps a.clr <:+ clr.take (Reads.rows clr - 1) := by
  obtain ⟨a, ha, h1, h2⟩ := loop_roundTrip ref ulr clr _
    (fun s hs => generic_step_isMove ref ulr clr (GenericAlignments.matrix ref ulr clr)
      s hs) hdash (Reads.rows clr) (Reads.columns ulr) (rows_pred_le clr)
  refine ⟨a, ha, h1, ?_, h2⟩
  intro hnone hblank
  rw [h1 hnone, take_rows_of_no_blank clr hblank]

theorem corrected_track_roundtrip_witness :
    ['A', 'C', 'G', 'A'].length = ['A', 'C', 'G', 'T'].length ∧
    (∀ x ∈ ['A', 'c', 'g', 'T'], x ≠ '-') ∧
    ∃ a, GenericAlignments.initialise ['A', 'C', 'G', 'A'] ['A', 'C', 'G', 'T']
        ['A', 'c', 'g', 'T'] = some a ∧
      (a.errorCode = none →
        removeGaps a.clr = ['A', 'c', 'g', 'T'].take (Reads.rows ['A', 'c', 'g', 'T'] - 1)) ∧
      (a.errorCode = none → (∀ x ∈ ['A', 'c', 'g', 'T'], x ≠ ' ') →
        removeGaps a.clr = ['A', 'c', 'g', 'T']) ∧
      removeGaps a.clr <:+ ['A', 'c', 'g', 'T'].take (Reads.rows ['A', 'c', 'g', 'T'] - 1) :=
  ⟨by decide, by decide,
    corrected_track_roundtrip ['A', 'C', 'G', 'A'] ['A', 'C', 'G', 'T'] ['A', 'c', 'g', 'T']
      (by decide) (by decide)⟩

/-- C2 (counterexample): on reference `AT`, uncorrected read `AT` and
corrected read `ct` the Generic engine writes `ERROR CODE 5` and hands back
the corrected track `t`, which is not the corrected read `ct`. -/
theorem corrected_track_roundtrip_fails :
    GenericAlignments.initialise ['A', 'T'] ['A', 'T'] ['c', 't'] =
      some { clr := ['t'], ulr := ['T'], ref := ['T'], errorCode := some 5 } ∧
    ¬ ((GenericAlignments.initialise ['A', 'T'] ['A', 'T'] ['c', 't']).map
        (fun a => removeGaps a.clr) = some ['c', 't']) := by
  decide

/-! ## Gaps in both read tracks -/

theorem noDoubleGap_cons (c u : Char) (cs us : List Char) (h : NoDoubleGap cs us)
    (hcu : ¬ (c = '-' ∧ u = '-')) : NoDoubleGap (c :: cs) (u :: us) := by
  intro p hp
  rw [List.zip_cons_cons, List.mem_cons] at hp
  rcases hp with rfl | hp
  · exact hcu
  · exact h p hp

theorem IsMove.noDoubleGap {ref ulr clr : List Char} {s t : Backtrack}
    (hu : ∀ x ∈ ulr, x ≠ '-') (hc : ∀ x ∈ clr, x ≠ '-')
    (h : IsMove ref ulr clr s t) (hP : NoDoubleGap s.clrMaf s.ulrMaf) :
    NoDoubleGap t.clrMaf t.ulrMaf := by
  rcases h with ⟨_, rfl⟩ | ⟨_, rfl⟩ | ⟨_, _, rfl⟩ | ⟨code, rfl⟩
  · exact noDoubleGap_cons _ _ _ _ hP (fun hb => charAt_ne_dash ulr hu _ hb.2)
  · exact noDoubleGap_cons _ _ _ _ hP (fun hb => charAt_ne_dash clr hc _ hb.1)
  · exact noDoubleGap_cons _ _ _ _ hP (fun hb => charAt_ne_dash clr hc _ hb.1)
  · exact hP

/-- C9 (amended): for every input triple to the Generic engine whose
uncorrected read and corrected read contain no `-`, no column of the returned
aligned triple has `-` in both the corrected-read track and the
uncorrected-read track. -/
theorem no_double_gap_without_input_gaps (ref ulr clr : List Char)
    (hu : ∀ x ∈ ulr, x ≠ '-') (hc : ∀ x ∈ clr, x ≠ '-') :
    ∃ a, GenericAlignments.initialise ref ulr clr = some a ∧ NoDoubleGap a.clr a.ulr := by
  unfold GenericAlignments.initialise GenericAlignments.findAlignments
  obtain ⟨r, hr⟩ := whileLoop_terminates
    (GenericAlignments.step ref ulr clr (GenericAlignments.matrix ref ulr clr))
    (fun s hs => (generic_step_isMove ref ulr clr _ s hs).measure_lt hs)
    ((Reads.rows clr - 1) + (Reads.columns ulr - 1))
    (Backtrack.start (Reads.rows clr) (Reads.columns ulr)) (by simp [Backtrack.start])
  have hinv := whileLoop_invariant _ (fun s => NoDoubleGap s.clrMaf s.ulrMaf)
    (fun s hs hP => (generic_step_isMove ref ulr clr
      (GenericAlignments.matrix ref ulr clr) s hs).noDoubleGap hu hc hP) _ _ r
    (by intro p hp; simp [Backtrack.start] at hp) hr
  exact ⟨r.toAlignment, by rw [hr]; rfl, hinv⟩

theorem no_double_gap_without_input_gaps_witness :
    (∀ x ∈ ['A', 'C', 'G', 'T'], x ≠ '-') ∧ (∀ x ∈ ['A', 'g', 'T'], x ≠ '-') ∧
    ∃ a, GenericAlignments.initialise ['A', 'C', 'G', 'T'] ['A', 'C', 'G', 'T'] ['A', 'g', 'T'] =
        some a ∧ NoDoubleGap a.clr a.ulr :=
  ⟨by decide, by decide,
    no_double_gap_without_input_gaps ['A', 'C', 'G', 'T'] ['A', 'C', 'G', 'T'] ['A', 'g', 'T']
      (by decide) (by decide)⟩

/-- C9 (counterexample): on reference `ACGT`, uncorrected read `A-GT` and
corrected read `agT` the Generic engine returns the tracks `a-gT`, `A-GT`,
`ACGT`, whose second column holds `-` in both read tracks. -/
theorem no_double_gap_fails :
    GenericAlignments.initialise ['A', 'C', 'G', 'T'] ['A', '-', 'G', 'T'] ['a', 'g', 'T'] =
      some { clr := ['a', '-', 'g', 'T'], ulr := ['A', '-', 'G', 'T'],
             ref := ['A', 'C', 'G', 'T'], errorCode := none } ∧
    ¬ NoDoubleGap ['a', '-', 'g', 'T'] ['A', '-', 'G', 'T'] := by
  refine ⟨by decide, ?_⟩
  intro h
  exact h ('-', '-') (by decide) ⟨rfl, rfl⟩

/-! ## The `No paths found` branches -/

theorem whileLoop_of_stopped (body : Backtrack → Backtrack) (fuel : Nat) (s : Backtrack)
    (hr : s.rowIndex = 0) (hc : s.columnIndex = 0) : whileLoop body fuel s = some s := by
  cases fuel <;> simp [whileLoop, hr, hc]

theorem IsMove.errorCode_cases {ref ulr clr : List Char} {s t : Backtrack}
    (h : IsMove ref ulr clr s t) :
    t.errorCode = s.errorCode ∨ ∃ code, t = s.noPath code := by
  rcases h with ⟨_, rfl⟩ | ⟨_, rfl⟩ | ⟨_, _, rfl⟩ | ⟨code, rfl⟩
  · left; rfl
  · left; rfl
  · left; rfl
  · right; exact ⟨code, rfl⟩

theorem inRange_wrap32 (x : Int) : InRange (wrap32 x) := by
  unfold InRange wrap32
  omega

theorem inRange_abs32 {x : Int} (h : InRange x) : InRange (abs32 x) := by
  unfold abs32
  split_ifs
  · exact inRange_wrap32 _
  · exact h

theorem inRange_min {a b : Int} (ha : InRange a) (hb : InRange b) : InRange (min a b) := by
  rcases min_choice a b with h | h <;> rw [h] <;> assumption

theorem inRange_INT_MAX : InRange INT_MAX := by
  unfold InRange INT_MAX
  omega

theorem GenericAlignments.cell_inRange (cost : Char → Char → Int) (ref ulr clr : List Char)
    (i j : Nat) (left up diag : Int) (hleft : InRange left) :
    InRange (GenericAlignments.cell cost ref ulr clr i j left up diag) := by
  have h : ∀ x y, InRange (abs32 (add32 x y)) := fun x y => inRange_abs32 (inRange_wrap32 _)
  unfold GenericAlignments.cell
  simp only
  split_ifs
  · exact inRange_min (h _ _) (h _ _)
  · exact h _ _
  · exact h _ _
  · exact hleft
  · exact inRange_INT_MAX
  · exact inRange_min (h _ _) (inRange_min (h _ _) (h _ _))

theorem GenericAlignments.cellAt_inRange (cost : Char → Char → Int) (ref ulr clr : List Char)
    (hsize : 2 * (Reads.rows clr + Reads.columns ulr) < 2147483647) (i : Nat)
    (hi : i < Reads.rows clr) :
    ∀ j, j < Reads.columns ulr →
      InRange (cellAt (GenericAlignments.matrixWith cost ref ulr clr) i j) := by
  intro j
  induction j with
  | zero =>
    intro _
    rw [GenericAlignments.cellAt_col_zero _ _ _ _ i hi]
    unfold InRange
    omega
  | succ j ih =>
    intro hj
    cases i with
    | zero =>
      rw [GenericAlignments.cellAt_row_zero _ _ _ _ _ hj]
      unfold InRange
      omega
    | succ i =>
      rw [GenericAlignments.cellAt_interior _ _ _ _ i j hi hj]
      exact GenericAlignments.cell_inRange _ _ _ _ _ _ _ _ _ (ih (by omega))

theorem cost_mem (a b : Char) : Reads.cost a b = 0 ∨ Reads.cost a b = 2 := by
  unfold Reads.cost Reads.costWith
  split_ifs <;> simp

/-- The branch that the body of the Generic loop takes at a cell off row 0
and column 0, with the test that selected it. -/
theorem GenericAlignments.step_interior_cases (ref ulr clr : List Char)
    (matrix : List (List Int)) (s : Backtrack) (i j : Nat)
    (hi : s.rowIndex = i + 1) (hj : s.columnIndex = j + 1) :
    (GenericAlignments.step ref ulr clr matrix s = s.deletion ulr ref ∧
      add32 (cellAt matrix (i + 1) j) (Reads.cost (charAt ref j) '-') =
        cellAt matrix (i + 1) (j + 1) ∧
      ¬ (GenericAlignments.isEndingLCFind clr i = false ∧ islower (charAt clr i) = true)) ∨
    (GenericAlignments.step ref ulr clr matrix s = s.deletion ulr ref ∧
      cellAt matrix (i + 1) j = cellAt matrix (i + 1) (j + 1) ∧
      (GenericAlignments.isEndingLCFind clr i = false ∧ islower (charAt clr i) = true)) ∨
    (GenericAlignments.step ref ulr clr matrix s = s.insertion clr ∧
      add32 (cellAt matrix i (j + 1)) (Reads.cost '-' (charAt clr i)) =
        cellAt matrix (i + 1) (j + 1)) ∨
    (GenericAlignments.step ref ulr clr matrix s = s.substitution ref ulr clr ∧
      add32 (cellAt matrix i j) (Reads.cost (charAt ref j) (charAt clr i)) =
        cellAt matrix (i + 1) (j + 1)) ∨
    (∃ code, GenericAlignments.step ref ulr clr matrix s = s.noPath code) := by
  unfold GenericAlignments.step
  simp only [hi, hj, GenericAlignments.moveCosts_interior, Nat.add_sub_cancel]
  rw [if_neg (by omega)]
  split_ifs <;> first
    | exact Or.inl ⟨rfl, by assumption, by simp_all⟩
    | exact Or.inr (Or.inl ⟨rfl, by assumption, by simp_all⟩)
    | exact Or.inr (Or.inr (Or.inl ⟨rfl, by assumption⟩))
    | exact Or.inr (Or.inr (Or.inr (Or.inl ⟨rfl, by assumption⟩)))
    | exact Or.inr (Or.inr (Or.inr (Or.inr ⟨_, rfl⟩)))

theorem add32_congr {a b c : Int} (h : add32 a b = c) : (c - (a + b)) % 4294967296 = 0 := by
  unfold add32 wrap32 at h
  omega

/-- One iteration of the Generic loop that writes no error goes to a cell
whose value plus the charged cost is the value of the current cell, as 32-bit
integers. -/
theorem GenericAlignments.step_charge (ref ulr clr : List Char) (s : Backtrack)
    (hs : 0 < s.rowIndex ∨ 0 < s.columnIndex)
    (hr : s.rowIndex < Reads.rows clr) (hc : s.columnIndex < Reads.columns ulr)
    (ht : (GenericAlignments.step ref ulr clr (GenericAlignments.matrix ref ulr clr) s).errorCode
      = none) :
    (cellAt (GenericAlignments.matrix ref ulr clr) s.rowIndex s.columnIndex -
      (cellAt (GenericAlignments.matrix ref ulr clr)
          (GenericAlignments.step ref ulr clr (GenericAlignments.matrix ref ulr clr) s).rowIndex
          (GenericAlignments.step ref ulr clr (GenericAlignments.matrix ref ulr clr)
            s).columnIndex +
        GenericAlignments.chargedCost ref ulr clr (GenericAlignments.matrix ref ulr clr) s)) %
        4294967296 = 0 ∧
    0 ≤ GenericAlignments.chargedCost ref ulr clr (GenericAlignments.matrix ref ulr clr) s ∧
    GenericAlignments.chargedCost ref ulr clr (GenericAlignments.matrix ref ulr clr) s ≤ 2 := by
  rcases Nat.eq_zero_or_pos s.rowIndex with h0 | hpos
  · -- row 0: the deletion along the first row
    obtain ⟨j, hj⟩ : ∃ j, s.columnIndex = j + 1 := ⟨s.columnIndex - 1, by omega⟩
    have hstep : GenericAlignments.step ref ulr clr (GenericAlignments.matrix ref ulr clr) s =
        s.deletion ulr ref := by
      unfold GenericAlignments.step
      simp [h0]
    have hch : GenericAlignments.chargedCost ref ulr clr (GenericAlignments.matrix ref ulr clr) s
        = 1 := by
      unfold GenericAlignments.chargedCost
      rw [hstep]
      simp [Backtrack.deletion, h0]
    rw [hstep, hch]
    simp only [Backtrack.deletion, h0, hj, Nat.add_sub_cancel]
    unfold GenericAlignments.matrix
    rw [GenericAlignments.cellAt_row_zero _ _ _ _ (j + 1) (by omega),
      GenericAlignments.cellAt_row_zero _ _ _ _ j (by omega)]
    refine ⟨?_, by omega, by omega⟩
    push_cast
    omega
  · obtain ⟨i, hi⟩ : ∃ i, s.rowIndex = i + 1 := ⟨s.rowIndex - 1, by omega⟩
    rcases Nat.eq_zero_or_pos s.columnIndex with hc0 | hcpos
    · -- column 0: the insertion along the first column
      have hstep : GenericAlignments.step ref ulr clr (GenericAlignments.matrix ref ulr clr) s =
          s.insertion clr := by
        unfold GenericAlignments.step
        simp [hc0, hi]
      have hch : GenericAlignments.chargedCost ref ulr clr
          (GenericAlignments.matrix ref ulr clr) s = 1 := by
        unfold GenericAlignments.chargedCost
        rw [hstep]
        simp [Backtrack.insertion, hc0]
      rw [hstep, hch]
      simp only [Backtrack.insertion, hc0, hi, Nat.add_sub_cancel]
      unfold GenericAlignments.matrix
      rw [GenericAlignments.cellAt_col_zero _ _ _ _ (i + 1) (by omega),
        GenericAlignments.cellAt_col_zero _ _ _ _ i (by omega)]
      refine ⟨?_, by omega, by omega⟩
      push_cast
      omega
    · obtain ⟨j, hj⟩ : ∃ j, s.columnIndex = j + 1 := ⟨s.columnIndex - 1, by omega⟩
      have hcd := cost_mem (charAt ref j) '-'
      have hci := cost_mem '-' (charAt clr i)
      have hcs := cost_mem (charAt ref j) (charAt clr i)
      rcases GenericAlignments.step_interior_cases ref ulr clr
          (GenericAlignments.matrix ref ulr clr) s i j hi hj with
        ⟨hstep, heq, hn⟩ | ⟨hstep, heq, hz⟩ | ⟨hstep, heq⟩ | ⟨hstep, heq⟩ | ⟨code, hstep⟩
      · have hch : GenericAlignments.chargedCost ref ulr clr
            (GenericAlignments.matrix ref ulr clr) s = Reads.cost (charAt ref j) '-' := by
          unfold GenericAlignments.chargedCost
          rw [hstep]
          simp [Backtrack.deletion, hi, hj, hn]
        rw [hstep, hch]
        simp only [Backtrack.deletion, hi, hj, Nat.add_sub_cancel]
        exact ⟨add32_congr heq, by omega, by omega⟩
      · have hch : GenericAlignments.chargedCost ref ulr clr
            (GenericAlignments.matrix ref ulr clr) s = 0 := by
          unfold GenericAlignments.chargedCost
          rw [hstep]
          simp [Backtrack.deletion, hi, hj, hz]
        rw [hstep, hch]
        simp only [Backtrack.deletion, hi, hj, Nat.add_sub_cancel]
        refine ⟨?_, by omega, by omega⟩
        rw [heq]
        simp
      · have hch : GenericAlignments.chargedCost ref ulr clr
            (GenericAlignments.matrix ref ulr clr) s = Reads.cost '-' (charAt clr i) := by
          unfold GenericAlignments.chargedCost
          rw [hstep]
          simp [Backtrack.insertion, hi, hj]
        rw [hstep, hch]
        simp only [Backtrack.insertion, hi, hj, Nat.add_sub_cancel]
        exact ⟨add32_congr heq, by omega, by omega⟩
      · have hch : GenericAlignments.chargedCost ref ulr clr
            (GenericAlignments.matrix ref ulr clr) s =
              Reads.cost (charAt ref j) (charAt clr i) := by
          unfold GenericAlignments.chargedCost
          rw [hstep]
          simp [Backtrack.substitution, hi, hj]
        rw [hstep, hch]
        simp only [Backtrack.substitution, hi, hj, Nat.add_sub_cancel]
        exact ⟨add32_congr heq, by omega, by omega⟩
      · rw [hstep] at ht
        simp [Backtrack.noPath] at ht

theorem IsMove.index_le {ref ulr clr : List Char} {s t : Backtrack}
    (h : IsMove ref ulr clr s t) : t.rowIndex ≤ s.rowIndex ∧ t.columnIndex ≤ s.columnIndex := by
  rcases h with ⟨_, rfl⟩ | ⟨_, rfl⟩ | ⟨_, _, rfl⟩ | ⟨code, rfl⟩ <;>
    simp [Backtrack.deletion, Backtrack.insertion, Backtrack.substitution, Backtrack.noPath]

/-- Along a run that writes no error the charged costs add up to the value of
the cell the run starts from, as 32-bit integers. -/
theorem GenericAlignments.pathCost_congr (ref ulr clr : List Char) :
    ∀ (fuel : Nat) (s r : Backtrack),
      s.rowIndex < Reads.rows clr → s.columnIndex < Reads.columns ulr →
      whileLoop (GenericAlignments.step ref ulr clr (GenericAlignments.matrix ref ulr clr))
        fuel s = some r →
      r.errorCode = none → s.errorCode = none →
      (cellAt (GenericAlignments.matrix ref ulr clr) s.rowIndex s.columnIndex -
        pathCost (GenericAlignments.step ref ulr clr (GenericAlignments.matrix ref ulr clr))
          (GenericAlignments.chargedCost ref ulr clr (GenericAlignments.matrix ref ulr clr))
          fuel s) % 4294967296 = 0 ∧
      0 ≤ pathCost (GenericAlignments.step ref ulr clr (GenericAlignments.matrix ref ulr clr))
          (GenericAlignments.chargedCost ref ulr clr (GenericAlignments.matrix ref ulr clr))
          fuel s ∧
      pathCost (GenericAlignments.step ref ulr clr (GenericAlignments.matrix ref ulr clr))
          (GenericAlignments.chargedCost ref ulr clr (GenericAlignments.matrix ref ulr clr))
          fuel s ≤ 2 * (fuel : Int) := by
  have h00 : cellAt (GenericAlignments.matrix ref ulr clr) 0 0 = 0 := by
    unfold GenericAlignments.matrix
    rw [GenericAlignments.cellAt_col_zero _ _ _ _ 0 (by simp [Reads.rows])]
    rfl
  intro fuel
  induction fuel with
  | zero =>
    intro s r _ _ hrun _ _
    unfold whileLoop at hrun
    split_ifs at hrun with hc
    have hr0 : s.rowIndex = 0 := by omega
    have hc0 : s.columnIndex = 0 := by omega
    rw [hr0, hc0, h00]
    simp [pathCost]
  | succ n ih =>
    intro s r hr hc hrun hrn hsn
    unfold whileLoop at hrun
    unfold pathCost
    split_ifs at hrun ⊢ with hcond
    · have hmove := generic_step_isMove ref ulr clr
        (GenericAlignments.matrix ref ulr clr) s hcond
      have htn : (GenericAlignments.step ref ulr clr (GenericAlignments.matrix ref ulr clr)
          s).errorCode = none := by
        rcases hmove.errorCode_cases with hsame | ⟨code, hno⟩
        · rw [hsame, hsn]
        · rw [hno, whileLoop_of_stopped _ n _ rfl rfl] at hrun
          simp only [Option.some.injEq] at hrun
          subst hrun
          simp [Backtrack.noPath] at hrn
      obtain ⟨h1, h2, h3⟩ := GenericAlignments.step_charge ref ulr clr s hcond hr hc htn
      obtain ⟨hle1, hle2⟩ := hmove.index_le
      obtain ⟨g1, g2, g3⟩ := ih _ r (by omega) (by omega) hrun hrn htn
      refine ⟨?_, by omega, ?_⟩
      · omega
      · push_cast
        omega
    · have hr0 : s.rowIndex = 0 := by omega
      have hc0 : s.columnIndex = 0 := by omega
      rw [hr0, hc0, h00]
      refine ⟨by simp, le_refl _, ?_⟩
      push_cast
      omega

/-- C4 (amended): for every input triple to the Generic engine whose row and
column counts satisfy `2 * (rows + columns) < INT_MAX`, the engine returns,
and when backtracking reaches no `No paths found` branch the sum over the
backtracked moves of the cost that the forward pass puts on the move (1 for a
move along row 0 or column 0, 0 for the zero-cost deletion against a `-` of
the uncorrected read, otherwise `cost(r, '-')`, `cost('-', c)` or
`cost(r, c)`) equals `matrix[rows-1][columns-1]`. -/
theorem path_cost_is_distance (ref ulr clr : List Char)
    (hsize : 2 * (Reads.rows clr + Reads.columns ulr) < 2147483647) :
    ∃ a, GenericAlignments.initialise ref ulr clr = some a ∧
      (a.errorCode = none →
        pathCost (GenericAlignments.step ref ulr clr (GenericAlignments.matrix ref ulr clr))
          (GenericAlignments.chargedCost ref ulr clr (GenericAlignments.matrix ref ulr clr))
          ((Reads.rows clr - 1) + (Reads.columns ulr - 1))
          (Backtrack.start (Reads.rows clr) (Reads.columns ulr)) =
        GenericAlignments.distance ref ulr clr) := by
  obtain ⟨r, hr⟩ := whileLoop_terminates
    (GenericAlignments.step ref ulr clr (GenericAlignments.matrix ref ulr clr))
    (fun s hs => (generic_step_isMove ref ulr clr _ s hs).measure_lt hs)
    ((Reads.rows clr - 1) + (Reads.columns ulr - 1))
    (Backtrack.start (Reads.rows clr) (Reads.columns ulr)) (by simp [Backtrack.start])
  refine ⟨r.toAlignment, ?_, ?_⟩
  · unfold GenericAlignments.initialise GenericAlignments.findAlignments
    rw [hr]
    rfl
  · intro hnone
    have hrows : 0 < Reads.rows clr := by simp [Reads.rows]
    have hcols : 0 < Reads.columns ulr := by simp [Reads.columns]
    obtain ⟨g1, g2, g3⟩ := GenericAlignments.pathCost_congr ref ulr clr _ _ r
      (by simp only [Backtrack.start]; omega) (by simp only [Backtrack.start]; omega) hr hnone rfl
    have hrange := GenericAlignments.cellAt_inRange Reads.cost ref ulr clr hsize
      (Reads.rows clr - 1) (by omega) (Reads.columns ulr - 1) (by omega)
    unfold InRange at hrange
    unfold GenericAlignments.distance
    simp only [Backtrack.start] at g1 g2 g3 ⊢
    unfold GenericAlignments.matrix at *
    push_cast at g3
    omega

theorem path_cost_is_distance_witness :
    2 * (Reads.rows ['C'] + Reads.columns ['A', 'C']) < 2147483647 ∧
    ∃ a, GenericAlignments.initialise ['A', 'C'] ['A', 'C'] ['C'] = some a ∧
      (a.errorCode = none →
        pathCost (GenericAlignments.step ['A', 'C'] ['A', 'C'] ['C']
            (GenericAlignments.matrix ['A', 'C'] ['A', 'C'] ['C']))
          (GenericAlignments.chargedCost ['A', 'C'] ['A', 'C'] ['C']
            (GenericAlignments.matrix ['A', 'C'] ['A', 'C'] ['C']))
          ((Reads.rows ['C'] - 1) + (Reads.columns ['A', 'C'] - 1))
          (Backtrack.start (Reads.rows ['C']) (Reads.columns ['A', 'C'])) =
        GenericAlignments.distance ['A', 'C'] ['A', 'C'] ['C']) :=
  ⟨by decide, path_cost_is_distance ['A', 'C'] ['A', 'C'] ['C'] (by decide)⟩

/-- C4 (counterexample): on reference `AC`, uncorrected read `AC` and
corrected read `C` the Generic engine returns the tracks `-C`, `AC`, `AC`
without error; the step costs of the two columns are `cost('A', '-') = 2` and
`cost('C', 'C') = 0`, their sum is 2, and `matrix[rows-1][columns-1]` is 1. -/
theorem column_cost_sum_fails :
    GenericAlignments.initialise ['A', 'C'] ['A', 'C'] ['C'] =
      some { clr := ['-', 'C'], ulr := ['A', 'C'], ref := ['A', 'C'], errorCode := none } ∧
    columnCostSum { clr := ['-', 'C'], ulr := ['A', 'C'], ref := ['A', 'C'], errorCode := none }
      = 2 ∧
    GenericAlignments.distance ['A', 'C'] ['A', 'C'] ['C'] = 1 := by
  decide

/-! ## Post-processing twice -/

theorem zip_map_fst_snd (l : List (Char × Char)) : (l.map Prod.fst).zip (l.map Prod.snd) = l := by
  induction l with
  | nil => rfl
  | cons p l ih => simp [ih]

theorem processAlignments_eq_kept (clrMaf refMaf : List Char)
    (hlen : clrMaf.length = refMaf.length) :
    OptimalAlignment.processAlignments clrMaf refMaf =
      ((keptColumns clrMaf refMaf).map Prod.fst, (keptColumns clrMaf refMaf).map Prod.snd) := by
  unfold OptimalAlignment.processAlignments keptColumns
  rw [processLoop_eq clrMaf refMaf hlen clrMaf.length 0 ([], []) (by omega)]
  simp

theorem keptColumns_of_kept (clrMaf refMaf : List Char) :
    keptColumns ((keptColumns clrMaf refMaf).map Prod.fst)
      ((keptColumns clrMaf refMaf).map Prod.snd) = keptColumns clrMaf refMaf := by
  conv_lhs => unfold keptColumns
  rw [zip_map_fst_snd]
  unfold keptColumns
  rw [List.filter_filter]
  simp

/-- C11: post-processing is idempotent: for every pair of equal-length
tracks, `processAlignments` applied to the pair `(cAlignment, refAlignment)`
that it returned gives that pair back unchanged. -/
theorem processAlignments_idempotent (clrMaf refMaf : List Char)
    (hlen : clrMaf.length = refMaf.length) :
    OptimalAlignment.processAlignments
        (OptimalAlignment.processAlignments clrMaf refMaf).1
        (OptimalAlignment.processAlignments clrMaf refMaf).2 =
      OptimalAlignment.processAlignments clrMaf refMaf := by
  rw [processAlignments_eq_kept clrMaf refMaf hlen]
  simp only
  rw [processAlignments_eq_kept _ _ (by simp), keptColumns_of_kept]

theorem processAlignments_idempotent_witness :
    ['A', '-', 'C', '-'].length = ['-', 'A', 'C', '-'].length ∧
    OptimalAlignment.processAlignments
        (OptimalAlignment.processAlignments ['A', '-', 'C', '-'] ['-', 'A', 'C', '-']).1
        (OptimalAlignment.processAlignments ['A', '-', 'C', '-'] ['-', 'A', 'C', '-']).2 =
      OptimalAlignment.processAlignments ['A', '-', 'C', '-'] ['-', 'A', 'C', '-'] :=
  ⟨by decide, processAlignments_idempotent ['A', '-', 'C', '-'] ['-', 'A', 'C', '-'] (by decide)⟩

/-! ## The matrix of the Segment-Trimming engine -/

theorem fillMatrix_length (cell : Nat → Nat → Int → Int → Int → Int) (row0 : List Int)
    (rows : Nat) (h : 0 < rows) : (fillMatrix cell row0 rows).length = rows := by
  unfold fillMatrix
  rw [List.length_cons, fillRows_length]
  omega

theorem proovread_cellAt_row_zero (lbi : List Int) (ref clr : List Char) (j : Nat)
    (h : j ≤ ref.length) : cellAt (ProovreadAlignments.matrix lbi ref clr) 0 j = 0 := by
  unfold ProovreadAlignments.matrix
  rw [cellAt_zero]
  have h' : j < (List.replicate (ref.length + 1) (0 : Int)).length := by simp; omega
  rw [List.getD_eq_getElem _ _ h']
  simp

theorem proovread_cellAt_col_zero (lbi : List Int) (ref clr : List Char) (i : Nat)
    (h : i ≤ clr.length) : cellAt (ProovreadAlignments.matrix lbi ref clr) i 0 = (i : Int) := by
  cases i with
  | zero =>
    have := proovread_cellAt_row_zero lbi ref clr 0 (by omega)
    simpa using this
  | succ i =>
    unfold ProovreadAlignments.matrix
    rw [cellAt_succ_zero _ _ _ _ (by omega)]

theorem proovread_cellAt_interior (lbi : List Int) (ref clr : List Char) (i j : Nat)
    (hi : i < clr.length) (hj : j < ref.length) :
    cellAt (ProovreadAlignments.matrix lbi ref clr) (i + 1) (j + 1) =
      ProovreadAlignments.cell lbi ref clr (i + 1) (j + 1)
        (cellAt (ProovreadAlignments.matrix lbi ref clr) (i + 1) j)
        (cellAt (ProovreadAlignments.matrix lbi ref clr) i (j + 1))
        (cellAt (ProovreadAlignments.matrix lbi ref clr) i j) := by
  unfold ProovreadAlignments.matrix
  rw [cellAt_succ_succ _ _ _ _ _ (by simp) (by omega) (by simp; omega)]

/-- The recurrence that the forward pass of the Segment-Trimming engine
computes: the substitution cost is `cost(clr[i], ref[j])`. -/
theorem proovread_recurrence (lbi : List Int) (ref clr : List Char) (i j : Nat)
    (hi : i < clr.length) (hj : j < ref.length) :
    cellAt (ProovreadAlignments.matrix lbi ref clr) (i + 1) (j + 1) =
      min (if ProovreadAlignments.isLastBase lbi (i + 1) = true then
            cellAt (ProovreadAlignments.matrix lbi ref clr) (i + 1) j
          else add32 (cellAt (ProovreadAlignments.matrix lbi ref clr) (i + 1) j)
            (Reads.cost (charAt ref j) '-'))
        (min (add32 (cellAt (ProovreadAlignments.matrix lbi ref clr) i (j + 1))
            (Reads.cost '-' (charAt clr i)))
          (add32 (cellAt (ProovreadAlignments.matrix lbi ref clr) i j)
            (Reads.cost (charAt clr i) (charAt ref j)))) := by
  rw [proovread_cellAt_interior lbi ref clr i j hi hj]
  unfold ProovreadAlignments.cell
  simp

theorem recordLastBases_subset (ts : List (List Char)) :
    ∀ (start : Int) (acc : List Int) (x : Int), x ∈ acc →
      x ∈ ProovreadAlignments.recordLastBases ts start acc := by
  induction ts with
  | nil => intro start acc x hx; simpa [ProovreadAlignments.recordLastBases] using hx
  | cons t ts ih =>
    intro start acc x hx
    rw [ProovreadAlignments.recordLastBases]
    exact ih _ _ x (List.mem_append_left _ hx)

theorem recordLastBases_mem (ts : List (List Char)) :
    ∀ (start : Int) (acc : List Int) (k : Nat), k < ts.length →
      start + (((ts.take (k + 1)).map List.length).sum : Nat) ∈
        ProovreadAlignments.recordLastBases ts start acc := by
  induction ts with
  | nil => intro start acc k hk; simp at hk
  | cons t ts ih =>
    intro start acc k hk
    rw [ProovreadAlignments.recordLastBases]
    cases k with
    | zero =>
      apply recordLastBases_subset
      simp
    | succ k =>
      have := ih (start + t.length) (acc ++ [start + t.length]) k (by simpa using hk)
      have he : start + ((((t :: ts).take (k + 1 + 1)).map List.length).sum : Nat) =
          start + t.length + (((ts.take (k + 1)).map List.length).sum : Nat) := by
        simp only [List.take_succ_cons, List.map_cons, List.sum_cons]
        push_cast
        omega
      rw [he]
      exact this

theorem fragmentEnd_mem (tokens : List (List Char)) (before : List Int) (k : Nat)
    (hk : k < tokens.length) :
    fragmentEnd tokens k ∈ ProovreadAlignments.lastBaseIndicesAfter tokens before := by
  unfold ProovreadAlignments.lastBaseIndicesAfter fragmentEnd
  have := recordLastBases_mem tokens (-1) before k hk
  have he : (-1 : Int) + (((tokens.take (k + 1)).map List.length).sum : Nat) =
      (((tokens.take (k + 1)).map List.length).sum : Nat) - 1 := by omega
  rw [he] at this
  exact this

/-- C18: the Segment-Trimming matrix has one row more than the corrected
read without its delimiters has characters and one column more than the
reference has characters; `matrix[i][0] = i` for every row `i` and
`matrix[0][j] = 0` for every column `j`, whatever `lastBaseIndices` holds. -/
theorem segment_matrix_base_cases (lbi : List Int) (ref clr : List Char) :
    (ProovreadAlignments.matrix lbi ref (ProovreadAlignments.cleanClr clr)).length =
      (ProovreadAlignments.cleanClr clr).length + 1 ∧
    (∀ i, i ≤ (ProovreadAlignments.cleanClr clr).length →
      ((ProovreadAlignments.matrix lbi ref (ProovreadAlignments.cleanClr clr)).getD i []).length =
        ref.length + 1) ∧
    (∀ i, i ≤ (ProovreadAlignments.cleanClr clr).length →
      cellAt (ProovreadAlignments.matrix lbi ref (ProovreadAlignments.cleanClr clr)) i 0 =
        (i : Int)) ∧
    (∀ j, j ≤ ref.length →
      cellAt (ProovreadAlignments.matrix lbi ref (ProovreadAlignments.cleanClr clr)) 0 j = 0) := by
  refine ⟨?_, ?_, ?_, ?_⟩
  · unfold ProovreadAlignments.matrix
    exact fillMatrix_length _ _ _ (by omega)
  · intro i hi
    unfold ProovreadAlignments.matrix
    rw [fillMatrix_row_length _ _ _ (by simp) i (by omega)]
    simp
  · intro i hi
    exact proovread_cellAt_col_zero lbi ref _ i hi
  · intro j hj
    exact proovread_cellAt_row_zero lbi ref _ j hj

/-- On a row whose character index is recorded in `lastBaseIndices` the
deletion candidate is the left cell itself. -/
theorem proovread_last_base_row (lbi : List Int) (ref clr : List Char) (i j : Nat)
    (hi : i < clr.length) (hj : j < ref.length) (hmem : (i : Int) ∈ lbi) :
    cellAt (ProovreadAlignments.matrix lbi ref clr) (i + 1) (j + 1) =
      min (cellAt (ProovreadAlignments.matrix lbi ref clr) (i + 1) j)
        (min (add32 (cellAt (ProovreadAlignments.matrix lbi ref clr) i (j + 1))
            (Reads.cost '-' (charAt clr i)))
          (add32 (cellAt (ProovreadAlignments.matrix lbi ref clr) i j)
            (Reads.cost (charAt clr i) (charAt ref j)))) := by
  have hb : ProovreadAlignments.isLastBase lbi (i + 1) = true := by
    unfold ProovreadAlignments.isLastBase
    simp only [decide_eq_true_eq]
    have : ((i + 1 : Nat) : Int) - 1 = (i : Int) := by push_cast; omega
    rw [this]
    exact hmem
  rw [proovread_recurrence _ ref _ i j hi hj, if_pos hb]

/-- C20: in the Segment-Trimming matrix, on every row `i + 1` whose character
index `i` is the index of the last character of a fragment that `split`
returned, and at every column `j + 1`, `matrix[i+1][j+1] <= matrix[i+1][j]`:
the deletion candidate is the left cell itself, with no cost added, whatever
the reference and corrected characters are. This holds whatever the vector
`lastBaseIndices` held before. -/
theorem segment_final_row_free_deletion (split : List Char → List (List Char))
    (before : List Int) (ref clr : List Char) (k i j : Nat)
    (hk : k < (split clr).length) (hfrag : fragmentEnd (split clr) k = (i : Int))
    (hi : i < (ProovreadAlignments.cleanClr clr).length) (hj : j < ref.length) :
    cellAt (ProovreadAlignments.matrix
        (ProovreadAlignments.lastBaseIndicesAfter (split clr) before) ref
        (ProovreadAlignments.cleanClr clr)) (i + 1) (j + 1) ≤
      cellAt (ProovreadAlignments.matrix
        (ProovreadAlignments.lastBaseIndicesAfter (split clr) before) ref
        (ProovreadAlignments.cleanClr clr)) (i + 1) j ∧
    cellAt (ProovreadAlignments.matrix
        (ProovreadAlignments.lastBaseIndicesAfter (split clr) before) ref
        (ProovreadAlignments.cleanClr clr)) (i + 1) (j + 1) =
      min (cellAt (ProovreadAlignments.matrix
          (ProovreadAlignments.lastBaseIndicesAfter (split clr) before) ref
          (ProovreadAlignments.cleanClr clr)) (i + 1) j)
        (min (add32 (cellAt (ProovreadAlignments.matrix
              (ProovreadAlignments.lastBaseIndicesAfter (split clr) before) ref
              (ProovreadAlignments.cleanClr clr)) i (j + 1))
            (Reads.cost '-' (charAt (ProovreadAlignments.cleanClr clr) i)))
          (add32 (cellAt (ProovreadAlignments.matrix
              (ProovreadAlignments.lastBaseIndicesAfter (split clr) before) ref
              (ProovreadAlignments.cleanClr clr)) i j)
            (Reads.cost (charAt (ProovreadAlignments.cleanClr clr) i) (charAt ref j)))) := by
  have hmem : (i : Int) ∈ ProovreadAlignments.lastBaseIndicesAfter (split clr) before := by
    rw [← hfrag]
    exact fragmentEnd_mem _ _ k hk
  have hrec := proovread_last_base_row _ ref _ i j hi hj hmem
  refine ⟨?_, hrec⟩
  rw [hrec]
  exact min_le_left _ _

/-! ## The cells of the Generic matrix are +infinity or small -/

theorem abs32_add32_eq_addInf (x c b : Int) (hx : x = INT_MAX ∨ (0 ≤ x ∧ x ≤ b))
    (hc : c = 0 ∨ c = 2) (hb : b + 2 < 2147483647) :
    abs32 (add32 x c) = addInf x c ∧
      (addInf x c = INT_MAX ∨ (0 ≤ addInf x c ∧ addInf x c ≤ b + 2)) := by
  unfold abs32 add32 wrap32 addInf INT_MAX at *
  rcases hx with hx | hx <;> rcases hc with hc | hc <;> subst hc <;>
    constructor <;> split_ifs <;> omega

theorem cellBound_min {a b bound : Int} (ha : a = INT_MAX ∨ (0 ≤ a ∧ a ≤ bound))
    (hb : b = INT_MAX ∨ (0 ≤ b ∧ b ≤ bound)) :
    min a b = INT_MAX ∨ (0 ≤ min a b ∧ min a b ≤ bound) := by
  unfold INT_MAX at *
  omega

theorem generic_cell_bound (ref ulr clr : List Char) (i j : Nat) (left up diag : Int)
    (hsize : 2 * ((i : Int) + j + 2) < 2147483647)
    (hl : CellBound (i + 1) j left) (hu : CellBound i (j + 1) up) (hd : CellBound i j diag) :
    CellBound (i + 1) (j + 1)
      (GenericAlignments.cell Reads.cost ref ulr clr (i + 1) (j + 1) left up diag) := by
  unfold CellBound at *
  have hl' : left = INT_MAX ∨ (0 ≤ left ∧ left ≤ 2 * ((i : Int) + j + 1)) := by
    rcases hl with h | h
    · exact Or.inl h
    · right; push_cast at h; omega
  have hu' : up = INT_MAX ∨ (0 ≤ up ∧ up ≤ 2 * ((i : Int) + j + 1)) := by
    rcases hu with h | h
    · exact Or.inl h
    · right; push_cast at h; omega
  have hd' : diag = INT_MAX ∨ (0 ≤ diag ∧ diag ≤ 2 * ((i : Int) + j + 1)) := by
    rcases hd with h | h
    · exact Or.inl h
    · right; omega
  have key : ∀ x c, (x = INT_MAX ∨ (0 ≤ x ∧ x ≤ 2 * ((i : Int) + j + 1))) →
      (c = 0 ∨ c = 2) →
      (abs32 (add32 x c) = INT_MAX ∨
        (0 ≤ abs32 (add32 x c) ∧ abs32 (add32 x c) ≤ 2 * ((i : Int) + j + 1) + 2)) := by
    intro x c hx hc
    obtain ⟨h1, h2⟩ := abs32_add32_eq_addInf x c _ hx hc (by omega)
    rw [h1]
    exact h2
  have hgoal : ∀ v, (v = INT_MAX ∨ (0 ≤ v ∧ v ≤ 2 * ((i : Int) + j + 1) + 2)) →
      (v = INT_MAX ∨ (0 ≤ v ∧ v ≤ 2 * (((i + 1 : Nat) : Int) + ((j + 1 : Nat) : Int)))) := by
    intro v hv
    rcases hv with h | h
    · exact Or.inl h
    · right; push_cast; omega
  apply hgoal
  unfold GenericAlignments.cell
  simp only
  split_ifs
  · exact cellBound_min (key _ _ hd' (cost_mem _ _)) (key _ _ hl' (cost_mem _ _))
  · exact key _ _ hl' (cost_mem _ _)
  · exact key _ _ hd' (cost_mem _ _)
  · rcases hl' with h | h
    · exact Or.inl h
    · right; omega
  · exact Or.inl rfl
  · exact cellBound_min (key _ _ hl' (cost_mem _ _))
      (cellBound_min (key _ _ hu' (cost_mem _ _)) (key _ _ hd' (cost_mem _ _)))

/-- Every cell of the Generic matrix is `INT_MAX` or lies between 0 and
`2 * (i + j)`, when `2 * (rows + columns) < INT_MAX`. -/
theorem generic_cellAt_bound (ref ulr clr : List Char)
    (hsize : 2 * (Reads.rows clr + Reads.columns ulr) < 2147483647) :
    ∀ i, i < Reads.rows clr → ∀ j, j < Reads.columns ulr →
      CellBound i j (cellAt (GenericAlignments.matrix ref ulr clr) i j) := by
  unfold GenericAlignments.matrix
  intro i
  induction i with
  | zero =>
    intro _ j hj
    rw [GenericAlignments.cellAt_row_zero _ _ _ _ j hj]
    right
    push_cast
    omega
  | succ i ih =>
    intro hi j
    induction j with
    | zero =>
      intro _
      rw [GenericAlignments.cellAt_col_zero _ _ _ _ (i + 1) hi]
      right
      push_cast
      omega
    | succ j ihj =>
      intro hj
      rw [GenericAlignments.cellAt_interior _ _ _ _ i j hi hj]
      exact generic_cell_bound ref ulr clr i j _ _ _ (by omega) (ihj (by omega))
        (ih (by omega) (j + 1) hj) (ih (by omega) j (by omega))

theorem abs32_add32_cellAt (ref ulr clr : List Char)
    (hsize : 2 * (Reads.rows clr + Reads.columns ulr) < 2147483647) (i j : Nat)
    (hi : i < Reads.rows clr) (hj : j < Reads.columns ulr) (a b : Char) :
    abs32 (add32 (cellAt (GenericAlignments.matrix ref ulr clr) i j) (Reads.cost a b)) =
      addInf (cellAt (GenericAlignments.matrix ref ulr clr) i j) (Reads.cost a b) := by
  have h := generic_cellAt_bound ref ulr clr hsize i hi j hj
  unfold CellBound at h
  exact (abs32_add32_eq_addInf _ _ (2 * ((i : Int) + (j : Int))) h (cost_mem a b) (by omega)).1

/-- C14 (amended): the Generic matrix has `rows` rows, one more than the
corrected read has characters other than blanks (so `clr.length + 1` rows for
a corrected read without blanks), each of `ulr.length + 1` columns;
`matrix[i][0] = i` for every row `i` and `matrix[0][j] = j` for every column
`j`. -/
theorem generic_matrix_base_cases (ref ulr clr : List Char) :
    (GenericAlignments.matrix ref ulr clr).length = Reads.rows clr ∧
    (GenericAlignments.matrix ref ulr clr).length =
      (clr.filter (fun c => c != ' ')).length + 1 ∧
    ((∀ x ∈ clr, x ≠ ' ') → (GenericAlignments.matrix ref ulr clr).length = clr.length + 1) ∧
    (∀ i, i < Reads.rows clr →
      ((GenericAlignments.matrix ref ulr clr).getD i []).length = ulr.length + 1) ∧
    (∀ i, i < Reads.rows clr → cellAt (GenericAlignments.matrix ref ulr clr) i 0 = (i : Int)) ∧
    (∀ j, j < ulr.length + 1 → cellAt (GenericAlignments.matrix ref ulr clr) 0 j = (j : Int)) := by
  have hlen : (GenericAlignments.matrix ref ulr clr).length = Reads.rows clr := by
    unfold GenericAlignments.matrix GenericAlignments.matrixWith
    exact fillMatrix_length _ _ _ (by simp [Reads.rows])
  refine ⟨hlen, ?_, ?_, ?_, ?_, ?_⟩
  · rw [hlen]
    rfl
  · intro hb
    rw [hlen]
    unfold Reads.rows
    rw [List.filter_eq_self.mpr (by intro x hx; simpa using hb x hx)]
  · intro i hi
    unfold GenericAlignments.matrix GenericAlignments.matrixWith
    rw [fillMatrix_row_length _ _ _ (by simp [GenericAlignments.row0_length, Reads.columns]) i hi,
      GenericAlignments.row0_length]
    rfl
  · intro i hi
    exact GenericAlignments.cellAt_col_zero _ _ _ _ i hi
  · intro j hj
    exact GenericAlignments.cellAt_row_zero _ _ _ _ j hj

/-- C14 (counterexample): on reference `ACG`, uncorrected read `ACG` and the
corrected read `A G`, which holds a blank, the Generic matrix has 3 rows, not
the corrected-read length plus one, which is 4. -/
theorem generic_matrix_rows_fails :
    (GenericAlignments.matrix ['A', 'C', 'G'] ['A', 'C', 'G'] ['A', ' ', 'G']).length = 3 ∧
    ['A', ' ', 'G'].length + 1 = 4 ∧
    (GenericAlignments.matrix ['A', 'C', 'G'] ['A', 'C', 'G'] ['A', ' ', 'G']).length ≠
      ['A', ' ', 'G'].length + 1 := by
  decide

/-- C15: for every cell `(i+1, j+1)` of the Generic matrix whose
corrected-read character `c = clr[i]` is not lowercase, with `r = ref[j]`,
`matrix[i+1][j+1]` is the minimum of `matrix[i+1][j] + cost(r, '-')`,
`matrix[i][j+1] + cost('-', c)` and `matrix[i][j] + cost(r, c)`, where
+infinity (`INT_MAX`) plus a cost is +infinity; the row and column counts
satisfy `2 * (rows + columns) < INT_MAX`. -/
theorem generic_regular_recurrence (ref ulr clr : List Char)
    (hsize : 2 * (Reads.rows clr + Reads.columns ulr) < 2147483647) (i j : Nat)
    (hi : i + 1 < Reads.rows clr) (hj : j + 1 < Reads.columns ulr)
    (hreg : islower (charAt clr i) = false) :
    cellAt (GenericAlignments.matrix ref ulr clr) (i + 1) (j + 1) =
      min (addInf (cellAt (GenericAlignments.matrix ref ulr clr) (i + 1) j)
          (Reads.cost (charAt ref j) '-'))
        (min (addInf (cellAt (GenericAlignments.matrix ref ulr clr) i (j + 1))
            (Reads.cost '-' (charAt clr i)))
          (addInf (cellAt (GenericAlignments.matrix ref ulr clr) i j)
            (Reads.cost (charAt ref j) (charAt clr i)))) := by
  rw [← abs32_add32_cellAt ref ulr clr hsize (i + 1) j hi (by omega),
    ← abs32_add32_cellAt ref ulr clr hsize i (j + 1) (by omega) hj,
    ← abs32_add32_cellAt ref ulr clr hsize i j (by omega) (by omega)]
  unfold GenericAlignments.matrix
  rw [GenericAlignments.cellAt_interior _ _ _ _ i j hi hj, cell_regular _ _ _ _ _ _ _ _ _ hreg]

theorem generic_regular_recurrence_witness :
    2 * (Reads.rows ['A', 'C'] + Reads.columns ['A', 'G']) < 2147483647 ∧
    0 + 1 < Reads.rows ['A', 'C'] ∧ 0 + 1 < Reads.columns ['A', 'G'] ∧
    islower (charAt ['A', 'C'] 0) = false ∧
    cellAt (GenericAlignments.matrix ['A', 'G'] ['A', 'G'] ['A', 'C']) (0 + 1) (0 + 1) =
      min (addInf (cellAt (GenericAlignments.matrix ['A', 'G'] ['A', 'G'] ['A', 'C']) (0 + 1) 0)
          (Reads.cost (charAt ['A', 'G'] 0) '-'))
        (min (addInf (cellAt (GenericAlignments.matrix ['A', 'G'] ['A', 'G'] ['A', 'C']) 0 (0 + 1))
            (Reads.cost '-' (charAt ['A', 'C'] 0)))
          (addInf (cellAt (GenericAlignments.matrix ['A', 'G'] ['A', 'G'] ['A', 'C']) 0 0)
            (Reads.cost (charAt ['A', 'G'] 0) (charAt ['A', 'C'] 0)))) :=
  ⟨by decide, by decide, by decide, by decide,
    generic_regular_recurrence ['A', 'G'] ['A', 'G'] ['A', 'C'] (by decide) 0 0 (by decide)
      (by decide) (by decide)⟩

/-! ## The lowercase cells of the Generic matrix -/

theorem addInf_zero (a : Int) : addInf a 0 = a := by
  unfold addInf
  split_ifs with h
  · exact h.symm
  · omega

theorem toupper_ne_toupper_dash (c : Char) (hl : islower c = true) :
    toupper '-' ≠ toupper c := by
  rw [toupper_dash]
  have hc : c ≠ '-' := by
    rw [islower_iff] at hl
    rw [Ne, char_eq_iff, toNat_dash]
    omega
  exact fun h => toupper_ne_dash c hc h.symm

/-- The recurrence on a cell that `initialize` classifies as ending
lowercase: lowercase and followed by an uppercase letter. -/
theorem generic_ending_recurrence (ref ulr clr : List Char)
    (hsize : 2 * (Reads.rows clr + Reads.columns ulr) < 2147483647) (i j : Nat)
    (hi : i + 1 < Reads.rows clr) (hj : j + 1 < Reads.columns ulr)
    (hE : GenericAlignments.isEndingLCInit clr i = true) :
    cellAt (GenericAlignments.matrix ref ulr clr) (i + 1) (j + 1) =
      if toupper (charAt ulr j) = toupper (charAt clr i) then
        min (addInf (cellAt (GenericAlignments.matrix ref ulr clr) i j)
            (Reads.cost (charAt ref j) (charAt clr i)))
          (addInf (cellAt (GenericAlignments.matrix ref ulr clr) (i + 1) j)
            (Reads.cost (charAt ref j) '-'))
      else
        addInf (cellAt (GenericAlignments.matrix ref ulr clr) (i + 1) j)
          (Reads.cost (charAt ref j) '-') := by
  rw [← abs32_add32_cellAt ref ulr clr hsize (i + 1) j hi (by omega),
    ← abs32_add32_cellAt ref ulr clr hsize i j (by omega) (by omega)]
  unfold GenericAlignments.matrix
  rw [GenericAlignments.cellAt_interior _ _ _ _ i j hi hj]
  unfold GenericAlignments.cell
  simp only [Nat.add_sub_cancel, hE, if_true]

/-- C17: for every cell `(i+1, j+1)` of the Generic matrix whose
corrected-read character `c = clr[i]` is interior lowercase (lowercase, not
the last character, the next character not uppercase): `matrix[i+1][j+1]` is
`matrix[i][j]` when `toupper(ulr[j]) == toupper(c)`, it is `matrix[i+1][j]`
when `ulr[j] == '-'`, and it is `INT_MAX` in every other case; the row and
column counts satisfy `2 * (rows + columns) < INT_MAX`. -/
theorem generic_interior_lowercase_recurrence (ref ulr clr : List Char)
    (hsize : 2 * (Reads.rows clr + Reads.columns ulr) < 2147483647) (i j : Nat)
    (hi : i + 1 < Reads.rows clr) (hj : j + 1 < Reads.columns ulr)
    (hl : islower (charAt clr i) = true) (_hnl : i + 1 < clr.length)
    (hnu : isupper (charAt clr (i + 1)) = false) :
    (toupper (charAt ulr j) = toupper (charAt clr i) →
      cellAt (GenericAlignments.matrix ref ulr clr) (i + 1) (j + 1) =
        cellAt (GenericAlignments.matrix ref ulr clr) i j) ∧
    (charAt ulr j = '-' →
      cellAt (GenericAlignments.matrix ref ulr clr) (i + 1) (j + 1) =
        cellAt (GenericAlignments.matrix ref ulr clr) (i + 1) j) ∧
    (toupper (charAt ulr j) ≠ toupper (charAt clr i) → charAt ulr j ≠ '-' →
      cellAt (GenericAlignments.matrix ref ulr clr) (i + 1) (j + 1) = INT_MAX) := by
  have hE : GenericAlignments.isEndingLCInit clr i = false := by
    unfold GenericAlignments.isEndingLCInit
    simp [hnu]
  have hcell := GenericAlignments.cellAt_interior Reads.cost ref ulr clr i j hi hj
  refine ⟨?_, ?_, ?_⟩
  · intro hm
    have h0 := abs32_add32_cellAt ref ulr clr hsize i j (by omega) (by omega) (charAt ref j)
      (charAt clr i)
    rw [cost_lower _ _ hl, addInf_zero] at h0
    unfold GenericAlignments.matrix at *
    rw [hcell, cell_lower_match _ _ _ _ _ _ _ _ _ hE hl hm, cost_lower _ _ hl, h0]
  · intro hd
    have hm : ¬ toupper (charAt ulr j) = toupper (charAt clr i) := by
      rw [hd]
      exact toupper_ne_toupper_dash _ hl
    unfold GenericAlignments.matrix at *
    rw [hcell]
    unfold GenericAlignments.cell
    simp only [Nat.add_sub_cancel, hE, hl, Bool.false_eq_true, if_false, if_true, if_neg hm,
      if_pos hd]
  · intro hm hd
    unfold GenericAlignments.matrix at *
    rw [hcell]
    unfold GenericAlignments.cell
    simp only [Nat.add_sub_cancel, hE, hl, Bool.false_eq_true, if_false, if_true, if_neg hm,
      if_neg hd]

theorem generic_interior_lowercase_recurrence_witness :
    2 * (Reads.rows ['a', 'c', 'G'] + Reads.columns ['A', '-', 'G']) < 2147483647 ∧
    0 + 1 < Reads.rows ['a', 'c', 'G'] ∧ 0 + 1 < Reads.columns ['A', '-', 'G'] ∧
    islower (charAt ['a', 'c', 'G'] 0) = true ∧ 0 + 1 < ['a', 'c', 'G'].length ∧
    isupper (charAt ['a', 'c', 'G'] (0 + 1)) = false ∧
    (toupper (charAt ['A', '-', 'G'] 0) = toupper (charAt ['a', 'c', 'G'] 0) →
      cellAt (GenericAlignments.matrix ['A', 'C', 'G'] ['A', '-', 'G'] ['a', 'c', 'G'])
          (0 + 1) (0 + 1) =
        cellAt (GenericAlignments.matrix ['A', 'C', 'G'] ['A', '-', 'G'] ['a', 'c', 'G']) 0 0) :=
  ⟨by decide, by decide, by decide, by decide, by decide, by decide,
    (generic_interior_lowercase_recurrence ['A', 'C', 'G'] ['A', '-', 'G'] ['a', 'c', 'G']
      (by decide) 0 0 (by decide) (by decide) (by decide) (by decide) (by decide)).1⟩

/-- C16 (the code at the failing input): on reference `ACG`, uncorrected read
`ACG` and corrected read `ACg` the last character `g` is lowercase and is the
last character of the corrected read, an ending lowercase letter for
`findAlignments` but not for `initialize`; `toupper(ulr[0])` differs from
`toupper('g')`, so the claimed value of `matrix[3][1]` is
`matrix[3][0] + cost(ref[0], '-') = 5`, and `initialize` stores `INT_MAX`. -/
theorem ending_lowercase_last_character_diverges :
    islower (charAt ['A', 'C', 'g'] 2) = true ∧ 2 + 1 = ['A', 'C', 'g'].length ∧
    GenericAlignments.isEndingLCFind ['A', 'C', 'g'] 2 = true ∧
    GenericAlignments.isEndingLCInit ['A', 'C', 'g'] 2 = false ∧
    toupper (charAt ['A', 'C', 'G'] 0) ≠ toupper (charAt ['A', 'C', 'g'] 2) ∧
    addInf (cellAt (GenericAlignments.matrix ['A', 'C', 'G'] ['A', 'C', 'G'] ['A', 'C', 'g']) 3 0)
      (Reads.cost (charAt ['A', 'C', 'G'] 0) '-') = 5 ∧
    cellAt (GenericAlignments.matrix ['A', 'C', 'G'] ['A', 'C', 'G'] ['A', 'C', 'g']) 3 1 =
      INT_MAX := by
  decide

/-! ## The mismatch penalty -/

theorem costWith_mono (p q : Nat) (h : p ≤ q) (a b : Char) :
    0 ≤ Reads.costWith (p : Int) a b ∧
      Reads.costWith (p : Int) a b ≤ Reads.costWith (q : Int) a b := by
  unfold Reads.costWith
  split_ifs <;> constructor <;> omega

theorem natAbs_add_mono {x y c d : Int} (hx : 0 ≤ x) (hxy : x ≤ y) (hc : 0 ≤ c) (hcd : c ≤ d) :
    0 ≤ ((x + c).natAbs : Int) ∧ ((x + c).natAbs : Int) ≤ ((y + d).natAbs : Int) := by
  omega

theorem cellExact_mono (p q : Nat) (h : p ≤ q) (ref ulr clr : List Char) (i j : Nat)
    (l u d l' u' d' : Int) (hl : 0 ≤ l ∧ l ≤ l') (hu : 0 ≤ u ∧ u ≤ u') (hd : 0 ≤ d ∧ d ≤ d') :
    0 ≤ GenericAlignments.cellExact (Reads.costWith (p : Int)) ref ulr clr i j l u d ∧
      GenericAlignments.cellExact (Reads.costWith (p : Int)) ref ulr clr i j l u d ≤
        GenericAlignments.cellExact (Reads.costWith (q : Int)) ref ulr clr i j l' u' d' := by
  have k : ∀ (x y : Int) (a b : Char), 0 ≤ x ∧ x ≤ y →
      0 ≤ ((x + Reads.costWith (p : Int) a b).natAbs : Int) ∧
        ((x + Reads.costWith (p : Int) a b).natAbs : Int) ≤
          ((y + Reads.costWith (q : Int) a b).natAbs : Int) := by
    intro x y a b hxy
    obtain ⟨h1, h2⟩ := costWith_mono p q h a b
    exact natAbs_add_mono hxy.1 hxy.2 h1 h2
  unfold GenericAlignments.cellExact
  simp only
  split_ifs
  · have h1 := k d d' (charAt ref (j - 1)) (charAt clr (i - 1)) hd
    have h2 := k l l' (charAt ref (j - 1)) '-' hl
    omega
  · exact k l l' _ _ hl
  · exact k d d' _ _ hd
  · omega
  · unfold INT_MAX; omega
  · have h1 := k d d' (charAt ref (j - 1)) (charAt clr (i - 1)) hd
    have h2 := k l l' (charAt ref (j - 1)) '-' hl
    have h3 := k u u' '-' (charAt clr (i - 1)) hu
    omega

/-- Without overflow every cell of the matrix filled with penalty `p` is
non-negative and at most the cell of the matrix filled with a larger
penalty. -/
theorem matrixWith_mono (p q : Nat) (h : p ≤ q) (ref ulr clr : List Char)
    (hp : GenericAlignments.NoOverflow (Reads.costWith (p : Int)) ref ulr clr)
    (hq : GenericAlignments.NoOverflow (Reads.costWith (q : Int)) ref ulr clr) :
    ∀ i, i < Reads.rows clr → ∀ j, j < Reads.columns ulr →
      0 ≤ cellAt (GenericAlignments.matrixWith (Reads.costWith (p : Int)) ref ulr clr) i j ∧
        cellAt (GenericAlignments.matrixWith (Reads.costWith (p : Int)) ref ulr clr) i j ≤
          cellAt (GenericAlignments.matrixWith (Reads.costWith (q : Int)) ref ulr clr) i j := by
  intro i
  induction i with
  | zero =>
    intro _ j hj
    rw [GenericAlignments.cellAt_row_zero _ _ _ _ j hj,
      GenericAlignments.cellAt_row_zero _ _ _ _ j hj]
    omega
  | succ i ih =>
    intro hi j
    induction j with
    | zero =>
      intro _
      rw [GenericAlignments.cellAt_col_zero _ _ _ _ (i + 1) hi,
        GenericAlignments.cellAt_col_zero _ _ _ _ (i + 1) hi]
      omega
    | succ j ihj =>
      intro hj
      rw [GenericAlignments.cellAt_interior _ _ _ _ i j hi hj,
        GenericAlignments.cellAt_interior _ _ _ _ i j hi hj,
        hp i (by omega) j (by omega), hq i (by omega) j (by omega)]
      exact cellExact_mono p q h ref ulr clr (i + 1) (j + 1) _ _ _ _ _ _ (ihj (by omega))
        (ih (by omega) (j + 1) hj) (ih (by omega) j (by omega))

/-! ## No overflow on reads of letters -/

theorem costWith_range (p : Nat) (a b : Char) :
    0 ≤ Reads.costWith (p : Int) a b ∧ Reads.costWith (p : Int) a b ≤ (p : Int) := by
  unfold Reads.costWith
  split_ifs <;> constructor <;> omega

theorem costWith_lower (p : Int) (a b : Char) (h : islower b = true) :
    Reads.costWith p a b = 0 := by
  unfold Reads.costWith
  rw [if_pos h]

theorem abs32_add32_exact (x c : Int) (hx : 0 ≤ x) (hc : 0 ≤ c) (h : x + c < 2147483648) :
    abs32 (add32 x c) = ((x + c).natAbs : Int) ∧ abs32 (add32 x c) = x + c := by
  unfold abs32 add32 wrap32
  constructor <;> split_ifs <;> omega

theorem abs32_add32_INT_MAX_zero :
    abs32 (add32 INT_MAX 0) = ((INT_MAX + 0).natAbs : Int) ∧ abs32 (add32 INT_MAX 0) = INT_MAX := by
  decide

theorem abs32_add32_zero_exact (x b : Int) (hx : x = INT_MAX ∨ (0 ≤ x ∧ x ≤ b))
    (hb : b < 2147483648) :
    abs32 (add32 x 0) = ((x + 0).natAbs : Int) ∧ abs32 (add32 x 0) = x := by
  unfold abs32 add32 wrap32 INT_MAX at *
  constructor <;> split_ifs <;> omega

theorem isEndingLCInit_islower (clr : List Char) (i : Nat)
    (h : GenericAlignments.isEndingLCInit clr i = true) : islower (charAt clr i) = true := by
  unfold GenericAlignments.isEndingLCInit at h
  simp only [Bool.and_eq_true] at h
  exact h.1.2

/-- On a read of letters the row above a row that is not lowercase is not an
interior-lowercase row. -/
theorem not_lowerRow_above_upper (clr : List Char) (hletters : ∀ x ∈ clr, x.isAlpha = true)
    (i : Nat) (hi : i < clr.length) (hreg : islower (charAt clr i) = false) :
    ¬ GenericAlignments.LowerRow clr i := by
  intro h
  obtain ⟨hpos, hl, hE⟩ := h
  have hal := hletters _ (charAt_mem clr i hi)
  have hup : isupper (charAt clr i) = true := by
    unfold Char.isAlpha at hal
    have : (charAt clr i).isLower = false := hreg
    rw [this] at hal
    simpa [isupper] using hal
  unfold GenericAlignments.isEndingLCInit at hE
  have hidx : i - 1 + 1 = i := by omega
  have hlt : decide (i < clr.length) = true := by simpa using hi
  rw [hidx, hup, hlt, hl] at hE
  simp at hE

/-- On a read of letters one cell of the forward pass is computed without
overflow and stays finite, or `INT_MAX` on an interior-lowercase row, when
its three neighbours do. -/
theorem letters_cell_exact (p : Nat) (ref ulr clr : List Char)
    (hletters : ∀ x ∈ clr, x.isAlpha = true) (i j : Nat) (hi : i < clr.length)
    (b : Int) (hb : b + 2 * ((p : Int) + 1) < 2147483648) (l u d : Int)
    (hl : GenericAlignments.FiniteOrLower clr (i + 1) (b + ((p : Int) + 1)) l)
    (hu : GenericAlignments.FiniteOrLower clr i (b + ((p : Int) + 1)) u)
    (hd : GenericAlignments.FiniteOrLower clr i b d) :
    GenericAlignments.cell (Reads.costWith (p : Int)) ref ulr clr (i + 1) (j + 1) l u d =
        GenericAlignments.cellExact (Reads.costWith (p : Int)) ref ulr clr (i + 1) (j + 1) l u d ∧
      GenericAlignments.FiniteOrLower clr (i + 1) (b + 2 * ((p : Int) + 1))
        (GenericAlignments.cell (Reads.costWith (p : Int)) ref ulr clr (i + 1) (j + 1) l u d) := by
  have hdel := costWith_range p (charAt ref j) '-'
  have hins := costWith_range p '-' (charAt clr i)
  have hsub := costWith_range p (charAt ref j) (charAt clr i)
  have hd' : d = INT_MAX ∨ (0 ≤ d ∧ d ≤ b) := by
    rcases hd with h | h
    · exact Or.inl h.1
    · exact Or.inr h
  by_cases hE : GenericAlignments.isEndingLCInit clr i = true
  · -- ending lowercase: the left cell is finite, the cost of keeping is 0
    have hlow := isEndingLCInit_islower clr i hE
    have hnot : ¬ GenericAlignments.LowerRow clr (i + 1) := by
      intro h
      have := h.2.2
      simp only [Nat.add_sub_cancel] at this
      rw [hE] at this
      simp at this
    have hlf : 0 ≤ l ∧ l ≤ b + ((p : Int) + 1) := by
      rcases hl with h | h
      · exact absurd h.2 hnot
      · exact h
    have hk := abs32_add32_zero_exact d b hd' (by omega)
    have hx := abs32_add32_exact l _ hlf.1 hdel.1 (by omega)
    unfold GenericAlignments.cell GenericAlignments.cellExact
    simp only [Nat.add_sub_cancel, hE, if_true, costWith_lower _ _ _ hlow]
    split_ifs
    · rw [hk.1.symm, hx.1.symm]
      refine ⟨rfl, Or.inr ?_⟩
      rw [hk.2, hx.2]
      unfold INT_MAX at hd'
      omega
    · rw [hx.1.symm]
      refine ⟨rfl, Or.inr ?_⟩
      rw [hx.2]
      omega
  · have hE' : GenericAlignments.isEndingLCInit clr i = false := by simpa using hE
    by_cases hlow : islower (charAt clr i) = true
    · -- interior lowercase
      have hrow : GenericAlignments.LowerRow clr (i + 1) :=
        ⟨by omega, by simpa using hlow, by simpa using hE'⟩
      have hk := abs32_add32_zero_exact d b hd' (by omega)
      unfold GenericAlignments.cell GenericAlignments.cellExact
      simp only [Nat.add_sub_cancel, hE', hlow, Bool.false_eq_true, if_false, if_true,
        costWith_lower _ _ _ hlow]
      split_ifs
      · rw [hk.1.symm]
        refine ⟨rfl, ?_⟩
        rw [hk.2]
        rcases hd' with h | h
        · exact Or.inl ⟨h, hrow⟩
        · exact Or.inr ⟨h.1, by omega⟩
      · refine ⟨rfl, ?_⟩
        rcases hl with h | h
        · exact Or.inl h
        · exact Or.inr ⟨h.1, by omega⟩
      · exact ⟨rfl, Or.inl ⟨rfl, hrow⟩⟩
    · -- regular: the three neighbours are finite
      have hlow' : islower (charAt clr i) = false := by simpa using hlow
      have hnot : ¬ GenericAlignments.LowerRow clr (i + 1) := by
        intro h
        have := h.2.1
        simp only [Nat.add_sub_cancel] at this
        exact hlow this
      have hnotAbove := not_lowerRow_above_upper clr hletters i hi hlow'
      have hlf : 0 ≤ l ∧ l ≤ b + ((p : Int) + 1) := by
        rcases hl with h | h
        · exact absurd h.2 hnot
        · exact h
      have huf : 0 ≤ u ∧ u ≤ b + ((p : Int) + 1) := by
        rcases hu with h | h
        · exact absurd h.2 hnotAbove
        · exact h
      have hdf : 0 ≤ d ∧ d ≤ b := by
        rcases hd with h | h
        · exact absurd h.2 hnotAbove
        · exact h
      have hx := abs32_add32_exact l _ hlf.1 hdel.1 (by omega)
      have hy := abs32_add32_exact u _ huf.1 hins.1 (by omega)
      have hz := abs32_add32_exact d _ hdf.1 hsub.1 (by omega)
      unfold GenericAlignments.cell GenericAlignments.cellExact
      simp only [Nat.add_sub_cancel, hE', hlow', Bool.false_eq_true, if_false]
      rw [hx.1.symm, hy.1.symm, hz.1.symm]
      refine ⟨rfl, Or.inr ?_⟩
      rw [hx.2, hy.2, hz.2]
      omega

theorem rows_of_letters (clr : List Char) (hletters : ∀ x ∈ clr, x.isAlpha = true) :
    Reads.rows clr = clr.length + 1 := by
  unfold Reads.rows
  rw [List.filter_eq_self.mpr]
  intro x hx
  have h := (isAlpha_iff x).mp (hletters x hx)
  have : x ≠ ' ' := by
    rw [Ne, char_eq_iff]
    have : (' ' : Char).toNat = 32 := rfl
    omega
  simpa using this

theorem size_bound_cell (p rows columns i j : Nat) (hsize : (p + 1) * (rows + columns) < 2147483647)
    (hi : i + 1 < rows) (hj : j + 1 < columns) :
    ((p : Int) + 1) * ((i : Int) + (j : Int)) + 2 * ((p : Int) + 1) < 2147483648 := by
  have h1 : (p + 1) * (i + j + 2) ≤ (p + 1) * (rows + columns) :=
    Nat.mul_le_mul_left _ (by omega)
  have h2 : (((p + 1) * (i + j + 2) : Nat) : Int) < 2147483647 := by
    have : (p + 1) * (i + j + 2) < 2147483647 := by omega
    exact_mod_cast this
  have h3 : (((p + 1) * (i + j + 2) : Nat) : Int) =
      ((p : Int) + 1) * ((i : Int) + (j : Int)) + 2 * ((p : Int) + 1) := by
    push_cast
    ring
  omega

/-- On a read of letters, with `(p + 1) * (rows + columns) < INT_MAX`, every
cell of the matrix filled with penalty `p` is at most `(p + 1) * (i + j)`, or
it is `INT_MAX` on an interior-lowercase row. -/
theorem letters_matrix_finite (p : Nat) (ref ulr clr : List Char)
    (hletters : ∀ x ∈ clr, x.isAlpha = true)
    (hsize : (p + 1) * (Reads.rows clr + Reads.columns ulr) < 2147483647) :
    ∀ i, i < Reads.rows clr → ∀ j, j < Reads.columns ulr →
      GenericAlignments.FiniteOrLower clr i (((p : Int) + 1) * ((i : Int) + (j : Int)))
        (cellAt (GenericAlignments.matrixWith (Reads.costWith (p : Int)) ref ulr clr) i j) := by
  have hrows := rows_of_letters clr hletters
  have hnonneg : ∀ n : Nat, (n : Int) ≤ ((p : Int) + 1) * (n : Int) := by
    intro n
    have : (0 : Int) ≤ (p : Int) * (n : Int) := by positivity
    linarith
  intro i
  induction i with
  | zero =>
    intro _ j hj
    rw [GenericAlignments.cellAt_row_zero _ _ _ _ j hj]
    right
    have := hnonneg j
    push_cast
    constructor
    · omega
    · simpa using this
  | succ i ih =>
    intro hi j
    induction j with
    | zero =>
      intro _
      rw [GenericAlignments.cellAt_col_zero _ _ _ _ (i + 1) hi]
      right
      constructor
      · omega
      · simp
    | succ j ihj =>
      intro hj
      rw [GenericAlignments.cellAt_interior _ _ _ _ i j hi hj]
      have hb := size_bound_cell p _ _ i j hsize hi hj
      have e1 : ((p : Int) + 1) * (((i + 1 : Nat) : Int) + (j : Int)) =
          ((p : Int) + 1) * ((i : Int) + (j : Int)) + ((p : Int) + 1) := by
        push_cast
        ring
      have e2 : ((p : Int) + 1) * ((i : Int) + ((j + 1 : Nat) : Int)) =
          ((p : Int) + 1) * ((i : Int) + (j : Int)) + ((p : Int) + 1) := by
        push_cast
        ring
      have e3 : ((p : Int) + 1) * (((i + 1 : Nat) : Int) + ((j + 1 : Nat) : Int)) =
          ((p : Int) + 1) * ((i : Int) + (j : Int)) + 2 * ((p : Int) + 1) := by
        push_cast
        ring
      have hl := ihj (by omega)
      have hu := ih (by omega) (j + 1) hj
      have hd := ih (by omega) j (by omega)
      rw [e1] at hl
      rw [e2] at hu
      rw [e3]
      exact (letters_cell_exact p ref ulr clr hletters i j (by omega) _ hb _ _ _ hl hu hd).2

/-- On a corrected read of letters, with `(p + 1) * (rows + columns) <
INT_MAX`, the forward pass with mismatch penalty `p` does not overflow. -/
theorem noOverflow_of_letters (p : Nat) (ref ulr clr : List Char)
    (hletters : ∀ x ∈ clr, x.isAlpha = true)
    (hsize : (p + 1) * (Reads.rows clr + Reads.columns ulr) < 2147483647) :
    GenericAlignments.NoOverflow (Reads.costWith (p : Int)) ref ulr clr := by
  have hrows := rows_of_letters clr hletters
  have hfin := letters_matrix_finite p ref ulr clr hletters hsize
  intro i hi j hj
  have hi' : i + 1 < Reads.rows clr := by omega
  have hj' : j + 1 < Reads.columns ulr := by omega
  have hb := size_bound_cell p _ _ i j hsize hi' hj'
  have e1 : ((p : Int) + 1) * (((i + 1 : Nat) : Int) + (j : Int)) =
      ((p : Int) + 1) * ((i : Int) + (j : Int)) + ((p : Int) + 1) := by
    push_cast
    ring
  have e2 : ((p : Int) + 1) * ((i : Int) + ((j + 1 : Nat) : Int)) =
      ((p : Int) + 1) * ((i : Int) + (j : Int)) + ((p : Int) + 1) := by
    push_cast
    ring
  have hl := hfin (i + 1) hi' j (by omega)
  have hu := hfin i (by omega) (j + 1) hj'
  have hd := hfin i (by omega) j (by omega)
  rw [e1] at hl
  rw [e2] at hu
  exact (letters_cell_exact p ref ulr clr hletters i j (by omega) _ hb _ _ _ hl hu hd).1

/-- C12: with the mismatch penalty of the cost function taken as a parameter
(2 in the code), for every input triple and all penalties `p <= q`, the
Generic edit distance `matrix[rows-1][columns-1]` computed with `p` is at
most the one computed with `q` when neither forward pass overflows; no
forward pass overflows on a corrected read of letters with
`(q + 1) * (rows + columns) < INT_MAX`. With `p = 2` the distance is the one
the code computes. -/
theorem distance_monotone_in_penalty (p q : Nat) (h : p ≤ q) (ref ulr clr : List Char) :
    (GenericAlignments.NoOverflow (Reads.costWith (p : Int)) ref ulr clr →
      GenericAlignments.NoOverflow (Reads.costWith (q : Int)) ref ulr clr →
      GenericAlignments.distanceWith (Reads.costWith (p : Int)) ref ulr clr ≤
        GenericAlignments.distanceWith (Reads.costWith (q : Int)) ref ulr clr) ∧
    ((∀ x ∈ clr, x.isAlpha = true) →
      (q + 1) * (Reads.rows clr + Reads.columns ulr) < 2147483647 →
      GenericAlignments.distanceWith (Reads.costWith (p : Int)) ref ulr clr ≤
        GenericAlignments.distanceWith (Reads.costWith (q : Int)) ref ulr clr) ∧
    GenericAlignments.distanceWith (Reads.costWith ((2 : Nat) : Int)) ref ulr clr =
      GenericAlignments.distance ref ulr clr := by
  have key : GenericAlignments.NoOverflow (Reads.costWith (p : Int)) ref ulr clr →
      GenericAlignments.NoOverflow (Reads.costWith (q : Int)) ref ulr clr →
      GenericAlignments.distanceWith (Reads.costWith (p : Int)) ref ulr clr ≤
        GenericAlignments.distanceWith (Reads.costWith (q : Int)) ref ulr clr := by
    intro hp hq
    unfold GenericAlignments.distanceWith
    exact (matrixWith_mono p q h ref ulr clr hp hq (Reads.rows clr - 1)
      (by simp [Reads.rows]) (Reads.columns ulr - 1) (by simp [Reads.columns])).2
  refine ⟨key, ?_, rfl⟩
  intro hletters hsize
  have hle : (p + 1) * (Reads.rows clr + Reads.columns ulr) ≤
      (q + 1) * (Reads.rows clr + Reads.columns ulr) := Nat.mul_le_mul_right _ (by omega)
  exact key (noOverflow_of_letters p ref ulr clr hletters (by omega))
    (noOverflow_of_letters q ref ulr clr hletters hsize)

theorem distance_monotone_in_penalty_witness :
    2 ≤ 3 ∧
    (∀ x ∈ ['a', 't', 'G'], x.isAlpha = true) ∧
    (3 + 1) * (Reads.rows ['a', 't', 'G'] + Reads.columns ['A', 'C', 'G']) < 2147483647 ∧
    GenericAlignments.distanceWith (Reads.costWith ((2 : Nat) : Int)) ['A', 'C', 'G']
        ['A', 'C', 'G'] ['a', 't', 'G'] ≤
      GenericAlignments.distanceWith (Reads.costWith ((3 : Nat) : Int)) ['A', 'C', 'G']
        ['A', 'C', 'G'] ['a', 't', 'G'] :=
  ⟨by decide, by decide, by decide,
    (distance_monotone_in_penalty 2 3 (by decide) ['A', 'C', 'G'] ['A', 'C', 'G']
      ['a', 't', 'G']).2.1 (by decide) (by decide)⟩

/-! ## Resetting a Segment-Trimming object -/

theorem recordLastBases_append (ts : List (List Char)) :
    ∀ (start : Int) (acc : List Int),
      ProovreadAlignments.recordLastBases ts start acc =
        acc ++ ProovreadAlignments.recordLastBases ts start [] := by
  induction ts with
  | nil => intro start acc; simp [ProovreadAlignments.recordLastBases]
  | cons t ts ih =>
    intro start acc
    rw [ProovreadAlignments.recordLastBases, ProovreadAlignments.recordLastBases, ih,
      ih _ ([] ++ _)]
    simp

/-- C13 (the code at the failing input): after `reset` the vector
`lastBaseIndices` holds what it held before followed by the indices of the new
read, for every object and every triple. On the object constructed from
`A`, `A`, `A`, `reset("AC", "AC", "AC")` leaves the indices `0, 1` and
`matrix[1][2] = 0`, where the object constructed from `AC`, `AC`, `AC` has
the index `1` and `matrix[1][2] = 2`; the two objects differ. -/
theorem reset_keeps_old_boundaries :
    (∀ (sp : List Char → List (List Char)) (obj : ProovreadAlignments.Object)
      (ref ulr clr : List Char),
      (ProovreadAlignments.reset sp obj ref ulr clr).lastBaseIndices =
        obj.lastBaseIndices ++ (ProovreadAlignments.construct sp ref ulr clr).lastBaseIndices) ∧
    ProovreadAlignments.Reachable split (ProovreadAlignments.construct split ['A'] ['A'] ['A']) ∧
    (ProovreadAlignments.reset split (ProovreadAlignments.construct split ['A'] ['A'] ['A'])
      ['A', 'C'] ['A', 'C'] ['A', 'C']).lastBaseIndices = [0, 1] ∧
    (ProovreadAlignments.construct split ['A', 'C'] ['A', 'C'] ['A', 'C']).lastBaseIndices = [1] ∧
    cellAt (ProovreadAlignments.reset split
      (ProovreadAlignments.construct split ['A'] ['A'] ['A'])
      ['A', 'C'] ['A', 'C'] ['A', 'C']).matrix 1 2 = 0 ∧
    cellAt (ProovreadAlignments.construct split ['A', 'C'] ['A', 'C'] ['A', 'C']).matrix 1 2 = 2 ∧
    ProovreadAlignments.reset split (ProovreadAlignments.construct split ['A'] ['A'] ['A'])
        ['A', 'C'] ['A', 'C'] ['A', 'C'] ≠
      ProovreadAlignments.construct split ['A', 'C'] ['A', 'C'] ['A', 'C'] := by
  refine ⟨?_, ProovreadAlignments.Reachable.construct _ _ _, by decide, by decide, by decide,
    by decide, by decide⟩
  intro sp obj ref ulr clr
  unfold ProovreadAlignments.reset ProovreadAlignments.construct
    ProovreadAlignments.initialiseObject ProovreadAlignments.lastBaseIndicesAfter
  exact recordLastBases_append _ _ _

/-- C19 (the code at the failing input): on reference `GCT` and the corrected
read `GaT` of one fragment (its last base has index 2), at the cell `(2, 2)`
with `c = 'a'` and `r = 'C'` the claimed minimum, with the substitution cost
`cost(r, c) = 0`, is 0; the forward pass adds `cost(c, r) = 2` and stores 2. -/
theorem segment_forward_swaps_cost_arguments :
    ProovreadAlignments.lastBaseIndicesAfter (split ['G', 'a', 'T']) [] = [2] ∧
    Reads.cost 'C' 'a' = 0 ∧ Reads.cost 'a' 'C' = 2 ∧
    min (add32 (cellAt (ProovreadAlignments.matrix [2] ['G', 'C', 'T'] ['G', 'a', 'T']) 2 1)
        (Reads.cost 'C' '-'))
      (min (add32 (cellAt (ProovreadAlignments.matrix [2] ['G', 'C', 'T'] ['G', 'a', 'T']) 1 2)
          (Reads.cost '-' 'a'))
        (add32 (cellAt (ProovreadAlignments.matrix [2] ['G', 'C', 'T'] ['G', 'a', 'T']) 1 1)
          (Reads.cost 'C' 'a'))) = 0 ∧
    cellAt (ProovreadAlignments.matrix [2] ['G', 'C', 'T'] ['G', 'a', 'T']) 2 2 = 2 := by
  decide

theorem segment_final_row_free_deletion_witness :
    0 < (split ['G', 'a', ' ', 'T']).length ∧
    fragmentEnd (split ['G', 'a', ' ', 'T']) 0 = ((1 : Nat) : Int) ∧
    1 < (ProovreadAlignments.cleanClr ['G', 'a', ' ', 'T']).length ∧
    1 < ['G', 'C', 'T'].length ∧
    cellAt (ProovreadAlignments.matrix
        (ProovreadAlignments.lastBaseIndicesAfter (split ['G', 'a', ' ', 'T']) []) ['G', 'C', 'T']
        (ProovreadAlignments.cleanClr ['G', 'a', ' ', 'T'])) (1 + 1) (1 + 1) ≤
      cellAt (ProovreadAlignments.matrix
        (ProovreadAlignments.lastBaseIndicesAfter (split ['G', 'a', ' ', 'T']) []) ['G', 'C', 'T']
        (ProovreadAlignments.cleanClr ['G', 'a', ' ', 'T'])) (1 + 1) 1 :=
  ⟨by decide, by decide, by decide, by decide,
    (segment_final_row_free_deletion split [] ['G', 'C', 'T'] ['G', 'a', ' ', 'T'] 0 1 1
      (by decide) (by decide) (by decide) (by decide)).1⟩

/-! ## The sentinel and the sign of the cells -/

/-- C25: in the Generic forward pass with 32-bit wraparound, for every input
with `2 * (rows + columns) < INT_MAX`, every cell `matrix[i][j]` is `INT_MAX`
or satisfies `0 <= matrix[i][j] <= 2 * (i + j)`, so no cell is negative;
`std::abs(INT_MAX + cost)` is `INT_MAX` for the costs 0 and 2. -/
theorem generic_cells_bounded (ref ulr clr : List Char)
    (hsize : 2 * (Reads.rows clr + Reads.columns ulr) < 2147483647) :
    (∀ i, i < Reads.rows clr → ∀ j, j < Reads.columns ulr →
      (cellAt (GenericAlignments.matrix ref ulr clr) i j = INT_MAX ∨
        (0 ≤ cellAt (GenericAlignments.matrix ref ulr clr) i j ∧
          cellAt (GenericAlignments.matrix ref ulr clr) i j ≤ 2 * ((i : Int) + (j : Int)))) ∧
      0 ≤ cellAt (GenericAlignments.matrix ref ulr clr) i j) ∧
    abs32 (add32 INT_MAX 0) = INT_MAX ∧ abs32 (add32 INT_MAX 2) = INT_MAX ∧
    (∀ a b, abs32 (add32 INT_MAX (Reads.cost a b)) = INT_MAX) := by
  refine ⟨?_, by decide, by decide, ?_⟩
  · intro i hi j hj
    have h := generic_cellAt_bound ref ulr clr hsize i hi j hj
    unfold CellBound at h
    refine ⟨h, ?_⟩
    rcases h with h | h
    · rw [h]; decide
    · exact h.1
  · intro a b
    rcases cost_mem a b with h | h <;> rw [h] <;> decide

theorem generic_cells_bounded_witness :
    2 * (Reads.rows ['a', 't', 'g'] + Reads.columns ['A', 'C', 'G']) < 2147483647 ∧
    ∀ i, i < Reads.rows ['a', 't', 'g'] → ∀ j, j < Reads.columns ['A', 'C', 'G'] →
      (cellAt (GenericAlignments.matrix ['A', 'C', 'G'] ['A', 'C', 'G'] ['a', 't', 'g']) i j =
          INT_MAX ∨
        (0 ≤ cellAt (GenericAlignments.matrix ['A', 'C', 'G'] ['A', 'C', 'G'] ['a', 't', 'g']) i j ∧
          cellAt (GenericAlignments.matrix ['A', 'C', 'G'] ['A', 'C', 'G'] ['a', 't', 'g']) i j ≤
            2 * ((i : Int) + (j : Int)))) ∧
      0 ≤ cellAt (GenericAlignments.matrix ['A', 'C', 'G'] ['A', 'C', 'G'] ['a', 't', 'g']) i j :=
  ⟨by decide,
    (generic_cells_bounded ['A', 'C', 'G'] ['A', 'C', 'G'] ['a', 't', 'g'] (by decide)).1⟩

/-! ## Gaps of the uncorrected-read and reference tracks -/

theorem sameGaps_cons (u r : Char) (us rs : List Char) (h : SameGaps us rs)
    (hur : u = '-' ↔ r = '-') : SameGaps (u :: us) (r :: rs) := by
  intro p hp
  rw [List.zip_cons_cons, List.mem_cons] at hp
  rcases hp with rfl | hp
  · exact hur
  · exact h p hp

theorem noTripleGap_cons (c u r : Char) (cs us rs : List Char) (h : NoTripleGap cs us rs)
    (hc : ¬ (c = '-' ∧ u = '-' ∧ r = '-')) : NoTripleGap (c :: cs) (u :: us) (r :: rs) := by
  intro p hp
  rw [List.zip_cons_cons, List.zip_cons_cons, List.mem_cons] at hp
  rcases hp with rfl | hp
  · exact hc
  · exact h p hp

theorem IsMove.sameGaps {ref ulr clr : List Char} {s t : Backtrack}
    (hu : ∀ x ∈ ulr, x ≠ '-') (hr : ∀ x ∈ ref, x ≠ '-')
    (h : IsMove ref ulr clr s t) (hP : SameGaps s.ulrMaf s.refMaf) :
    SameGaps t.ulrMaf t.refMaf := by
  rcases h with ⟨_, rfl⟩ | ⟨_, rfl⟩ | ⟨_, _, rfl⟩ | ⟨code, rfl⟩
  · exact sameGaps_cons _ _ _ _ hP
      ⟨fun e => absurd e (charAt_ne_dash ulr hu _), fun e => absurd e (charAt_ne_dash ref hr _)⟩
  · exact sameGaps_cons _ _ _ _ hP ⟨fun _ => rfl, fun _ => rfl⟩
  · exact sameGaps_cons _ _ _ _ hP
      ⟨fun e => absurd e (charAt_ne_dash ulr hu _), fun e => absurd e (charAt_ne_dash ref hr _)⟩
  · exact hP

theorem IsMove.noTripleGap {ref ulr clr : List Char} {s t : Backtrack}
    (hu : ∀ x ∈ ulr, x ≠ '-') (hc : ∀ x ∈ clr, x ≠ '-')
    (h : IsMove ref ulr clr s t) (hP : NoTripleGap s.clrMaf s.ulrMaf s.refMaf) :
    NoTripleGap t.clrMaf t.ulrMaf t.refMaf := by
  rcases h with ⟨_, rfl⟩ | ⟨_, rfl⟩ | ⟨_, _, rfl⟩ | ⟨code, rfl⟩
  · exact noTripleGap_cons _ _ _ _ _ _ hP (fun hb => charAt_ne_dash ulr hu _ hb.2.1)
  · exact noTripleGap_cons _ _ _ _ _ _ hP (fun hb => charAt_ne_dash clr hc _ hb.1)
  · exact noTripleGap_cons _ _ _ _ _ _ hP (fun hb => charAt_ne_dash clr hc _ hb.1)
  · exact hP

/-- Any loop whose body is a move returns an alignment whose uncorrected-read
and reference tracks have their gaps in the same columns, when neither read
holds a `-`; no column is a gap in all three tracks when `clr` holds no `-`. -/
theorem loop_sameGaps (ref ulr clr : List Char) (body : Backtrack → Backtrack)
    (hbody : ∀ s : Backtrack, (0 < s.rowIndex ∨ 0 < s.columnIndex) → IsMove ref ulr clr s (body s))
    (hu : ∀ x ∈ ulr, x ≠ '-') (hr : ∀ x ∈ ref, x ≠ '-') (rows columns : Nat) :
    ∃ a, (whileLoop body ((rows - 1) + (columns - 1)) (Backtrack.start rows columns)).map
        Backtrack.toAlignment = some a ∧
      SameGaps a.ulr a.ref ∧ ((∀ x ∈ clr, x ≠ '-') → NoTripleGap a.clr a.ulr a.ref) := by
  obtain ⟨r, hrun⟩ := whileLoop_terminates body (fun s hs => (hbody s hs).measure_lt hs)
    ((rows - 1) + (columns - 1)) (Backtrack.start rows columns) (by simp [Backtrack.start])
  have h1 := whileLoop_invariant body (fun s => SameGaps s.ulrMaf s.refMaf)
    (fun s hs hP => (hbody s hs).sameGaps hu hr hP) _ _ r
    (by intro p hp; simp [Backtrack.start] at hp) hrun
  refine ⟨r.toAlignment, by rw [hrun]; rfl, h1, ?_⟩
  intro hc
  exact whileLoop_invariant body (fun s => NoTripleGap s.clrMaf s.ulrMaf s.refMaf)
    (fun s hs hP => (hbody s hs).noTripleGap hu hc hP) _ _ r
    (by intro p hp; simp [Backtrack.start] at hp) hrun

/-- C26: for both engines and every input triple whose reference and
uncorrected read have equal length and contain no `-`, every column of the
returned aligned triple has a gap in the uncorrected-read track if and only
if it has a gap in the reference track, and no column has a gap in all three
tracks when the corrected read (without its delimiters, for the
Segment-Trimming engine) contains no `-`. -/
theorem read_and_reference_gaps_coincide (ref ulr clr : List Char)
    (_hlen : ref.length = ulr.length) (hu : ∀ x ∈ ulr, x ≠ '-') (hr : ∀ x ∈ ref, x ≠ '-') :
    (∃ a, GenericAlignments.initialise ref ulr clr = some a ∧ SameGaps a.ulr a.ref ∧
      ((∀ x ∈ clr, x ≠ '-') → NoTripleGap a.clr a.ulr a.ref)) ∧
    (∀ (split : List Char → List (List Char)) (before : List Int),
      ∃ a, ProovreadAlignments.initialise split before ref ulr clr = some a ∧
        SameGaps a.ulr a.ref ∧
        ((∀ x ∈ ProovreadAlignments.cleanClr clr, x ≠ '-') → NoTripleGap a.clr a.ulr a.ref)) := by
  constructor
  · exact loop_sameGaps ref ulr clr _
      (fun s hs => generic_step_isMove ref ulr clr _ s hs) hu hr _ _
  · intro split before
    exact loop_sameGaps ref ulr (ProovreadAlignments.cleanClr clr) _
      (fun s hs => proovread_step_isMove _ ref ulr _ _ s hs) hu hr _ _

theorem read_and_reference_gaps_coincide_witness :
    ['A', 'C', 'G', 'T'].length = ['A', 'C', 'G', 'T'].length ∧
    (∀ x ∈ ['A', 'C', 'G', 'T'], x ≠ '-') ∧ (∀ x ∈ ['A', 'C', 'G', 'T'], x ≠ '-') ∧
    ∃ a, GenericAlignments.initialise ['A', 'C', 'G', 'T'] ['A', 'C', 'G', 'T'] ['A', 'g', 'T'] =
        some a ∧ SameGaps a.ulr a.ref ∧
      ((∀ x ∈ ['A', 'g', 'T'], x ≠ '-') → NoTripleGap a.clr a.ulr a.ref) :=
  ⟨rfl, by decide, by decide,
    (read_and_reference_gaps_coincide ['A', 'C', 'G', 'T'] ['A', 'C', 'G', 'T'] ['A', 'g', 'T']
      rfl (by decide) (by decide)).1⟩

/-! ## Termination of the backtracking loop -/

theorem IsMove.stepsDown {ref ulr clr : List Char} {s t : Backtrack}
    (h : IsMove ref ulr clr s t) : s.StepsDown t := by
  unfold Backtrack.StepsDown
  rcases h with ⟨h1, rfl⟩ | ⟨h1, rfl⟩ | ⟨h1, h2, rfl⟩ | ⟨code, rfl⟩ <;>
    simp [Backtrack.deletion, Backtrack.insertion, Backtrack.substitution, Backtrack.noPath] <;>
    omega

theorem IsMove.tracksWithin {ref ulr clr : List Char} {bound : Nat} {s t : Backtrack}
    (h : IsMove ref ulr clr s t) (hs : TracksWithin bound s) : TracksWithin bound t := by
  unfold TracksWithin at *
  rcases h with ⟨h1, rfl⟩ | ⟨h1, rfl⟩ | ⟨h1, h2, rfl⟩ | ⟨code, rfl⟩ <;>
    simp [Backtrack.deletion, Backtrack.insertion, Backtrack.substitution, Backtrack.noPath] <;>
    omega

theorem whileLoop_leavesAfter (body : Backtrack → Backtrack)
    (hdec : ∀ s : Backtrack, (0 < s.rowIndex ∨ 0 < s.columnIndex) →
      (body s).rowIndex + (body s).columnIndex < s.rowIndex + s.columnIndex) :
    ∀ (fuel : Nat) (s : Backtrack), s.rowIndex + s.columnIndex ≤ fuel →
      ∃ k r, k ≤ s.rowIndex + s.columnIndex ∧ whileLoop body fuel s = some r ∧
        LeavesAfter body s k r := by
  intro fuel
  induction fuel with
  | zero =>
    intro s hs
    refine ⟨0, s, Nat.zero_le _, ?_, ?_, ?_, rfl⟩
    · unfold whileLoop
      rw [if_neg (by omega)]
    · intro m hm
      omega
    · simp only [Function.iterate_zero, id_eq, Backtrack.running]
      omega
  | succ n ih =>
    intro s hs
    by_cases hc : 0 < s.rowIndex ∨ 0 < s.columnIndex
    · have hd := hdec s hc
      obtain ⟨k, r, hk, hrun, hbefore, hstop, hr⟩ := ih (body s) (by omega)
      refine ⟨k + 1, r, by omega, ?_, ?_, ?_, ?_⟩
      · unfold whileLoop
        rw [if_pos hc]
        exact hrun
      · intro m hm
        cases m with
        | zero => exact hc
        | succ m =>
          rw [Function.iterate_succ_apply]
          exact hbefore m (by omega)
      · rw [Function.iterate_succ_apply]
        exact hstop
      · rw [Function.iterate_succ_apply]
        exact hr
    · refine ⟨0, s, Nat.zero_le _, ?_, ?_, ?_, rfl⟩
      · unfold whileLoop
        rw [if_neg hc]
      · intro m hm
        omega
      · exact hc

/-- Any loop whose body is a move leaves after at most
`(rows - 1) + (columns - 1)` iterations, with tracks at most that long. -/
theorem loop_bounded (ref ulr clr : List Char) (body : Backtrack → Backtrack)
    (hbody : ∀ s : Backtrack, (0 < s.rowIndex ∨ 0 < s.columnIndex) → IsMove ref ulr clr s (body s))
    (rows columns : Nat) :
    ∃ k r, k ≤ (rows - 1) + (columns - 1) ∧
      LeavesAfter body (Backtrack.start rows columns) k r ∧
      (whileLoop body ((rows - 1) + (columns - 1)) (Backtrack.start rows columns)).map
        Backtrack.toAlignment = some r.toAlignment ∧
      r.toAlignment.clr.length ≤ (rows - 1) + (columns - 1) ∧
      r.toAlignment.ulr.length ≤ (rows - 1) + (columns - 1) ∧
      r.toAlignment.ref.length ≤ (rows - 1) + (columns - 1) := by
  obtain ⟨k, r, hk, hrun, hleave⟩ := whileLoop_leavesAfter body
    (fun s hs => (hbody s hs).measure_lt hs)
    ((rows - 1) + (columns - 1)) (Backtrack.start rows columns) (by simp [Backtrack.start])
  have hinv := whileLoop_invariant body (TracksWithin ((rows - 1) + (columns - 1)))
    (fun s hs hP => (hbody s hs).tracksWithin hP)
    _ _ r (by simp [TracksWithin, Backtrack.start]) hrun
  unfold TracksWithin at hinv
  refine ⟨k, r, by simpa [Backtrack.start] using hk, hleave, by rw [hrun]; rfl, ?_, ?_, ?_⟩ <;>
    simp only [Backtrack.toAlignment] <;> omega

/-- C27: the backtracking loop of both engines terminates on every input: each
iteration either lowers `rowIndex + columnIndex` by 1 or 2 or sets both indices
to 0, so the loop leaves after at most `(rows - 1) + (columns - 1)` iterations
and each returned track is at most `(rows - 1) + (columns - 1)` long. -/
theorem backtracking_terminates (ref ulr clr : List Char) :
    ((∀ s : Backtrack, s.running → s.StepsDown (GenericAlignments.loopBody ref ulr clr s)) ∧
      ∃ k r, k ≤ (Reads.rows clr - 1) + (Reads.columns ulr - 1) ∧
        LeavesAfter (GenericAlignments.loopBody ref ulr clr)
          (Backtrack.start (Reads.rows clr) (Reads.columns ulr)) k r ∧
        GenericAlignments.initialise ref ulr clr = some r.toAlignment ∧
        r.toAlignment.clr.length ≤ (Reads.rows clr - 1) + (Reads.columns ulr - 1) ∧
        r.toAlignment.ulr.length ≤ (Reads.rows clr - 1) + (Reads.columns ulr - 1) ∧
        r.toAlignment.ref.length ≤ (Reads.rows clr - 1) + (Reads.columns ulr - 1)) ∧
    (∀ (split : List Char → List (List Char)) (before : List Int),
      (∀ s : Backtrack, s.running →
        s.StepsDown (ProovreadAlignments.loopBody split before ref ulr clr s)) ∧
      ∃ k r, k ≤ (((ProovreadAlignments.cleanClr clr).length + 1) - 1) + ((ref.length + 1) - 1) ∧
        LeavesAfter (ProovreadAlignments.loopBody split before ref ulr clr)
          (Backtrack.start ((ProovreadAlignments.cleanClr clr).length + 1) (ref.length + 1)) k r ∧
        ProovreadAlignments.initialise split before ref ulr clr = some r.toAlignment ∧
        r.toAlignment.clr.length ≤
          (((ProovreadAlignments.cleanClr clr).length + 1) - 1) + ((ref.length + 1) - 1) ∧
        r.toAlignment.ulr.length ≤
          (((ProovreadAlignments.cleanClr clr).length + 1) - 1) + ((ref.length + 1) - 1) ∧
        r.toAlignment.ref.length ≤
          (((ProovreadAlignments.cleanClr clr).length + 1) - 1) + ((ref.length + 1) - 1)) := by
  refine ⟨⟨?_, ?_⟩, ?_⟩
  · intro s hs
    exact (generic_step_isMove ref ulr clr _ s hs).stepsDown
  · exact loop_bounded ref ulr clr _ (fun s hs => generic_step_isMove ref ulr clr _ s hs) _ _
  · intro split before
    refine ⟨?_, ?_⟩
    · intro s hs
      exact (proovread_step_isMove _ ref ulr _ _ s hs).stepsDown
    · exact loop_bounded ref ulr (ProovreadAlignments.cleanClr clr) _
        (fun s hs => proovread_step_isMove _ ref ulr _ _ s hs) _ _

/-! ## The order in which the backtracker tries the moves -/

/-- C21 (amended): at a cell with `rowIndex > 0` and `columnIndex > 0` the
backtracker of both engines tries the moves that the class of the cell admits,
in the order deletion, insertion, substitution, and takes the first whose
re-derived cost equals the stored cell. The Segment-Trimming engine admits all
three at every such cell. The Generic engine admits deletion then substitution
at an ending-lowercase match, deletion at an ending-lowercase mismatch,
substitution alone at an interior-lowercase match, the deletion at no cost at
an interior-lowercase cell against a `-` of the uncorrected read, and all three
at a regular cell. Where deletion is admitted and its cost equals the stored
value the step is a deletion (a `-` in the corrected track, only `columnIndex`
lowered), whatever the insertion and substitution costs are; at an
interior-lowercase match the step is a substitution whatever the deletion cost
is. -/
theorem backtracker_move_order (lbi : List Int) (ref ulr clr : List Char)
    (matrix : List (List Int)) (s : Backtrack) (hrow : 0 < s.rowIndex) (hcol : 0 < s.columnIndex) :
    ((GenericAlignments.isEndingLCFind clr (s.rowIndex - 1) = true ∨
        islower (charAt clr (s.rowIndex - 1)) = false) →
      (GenericAlignments.moveCosts ref clr matrix s.rowIndex s.columnIndex).1 =
        cellAt matrix s.rowIndex s.columnIndex →
      GenericAlignments.step ref ulr clr matrix s = s.deletion ulr ref) ∧
    (GenericAlignments.isEndingLCFind clr (s.rowIndex - 1) = false →
      islower (charAt clr (s.rowIndex - 1)) = true →
      toupper (charAt ulr (s.columnIndex - 1)) ≠ toupper (charAt clr (s.rowIndex - 1)) →
      charAt ulr (s.columnIndex - 1) = '-' →
      cellAt matrix s.rowIndex (s.columnIndex - 1) = cellAt matrix s.rowIndex s.columnIndex →
      GenericAlignments.step ref ulr clr matrix s = s.deletion ulr ref) ∧
    (GenericAlignments.isEndingLCFind clr (s.rowIndex - 1) = false →
      islower (charAt clr (s.rowIndex - 1)) = false →
      (GenericAlignments.moveCosts ref clr matrix s.rowIndex s.columnIndex).1 ≠
        cellAt matrix s.rowIndex s.columnIndex →
      (GenericAlignments.moveCosts ref clr matrix s.rowIndex s.columnIndex).2.1 =
        cellAt matrix s.rowIndex s.columnIndex →
      GenericAlignments.step ref ulr clr matrix s = s.insertion clr) ∧
    (GenericAlignments.isEndingLCFind clr (s.rowIndex - 1) = false →
      islower (charAt clr (s.rowIndex - 1)) = false →
      (GenericAlignments.moveCosts ref clr matrix s.rowIndex s.columnIndex).1 ≠
        cellAt matrix s.rowIndex s.columnIndex →
      (GenericAlignments.moveCosts ref clr matrix s.rowIndex s.columnIndex).2.1 ≠
        cellAt matrix s.rowIndex s.columnIndex →
      (GenericAlignments.moveCosts ref clr matrix s.rowIndex s.columnIndex).2.2 =
        cellAt matrix s.rowIndex s.columnIndex →
      GenericAlignments.step ref ulr clr matrix s = s.substitution ref ulr clr) ∧
    (GenericAlignments.isEndingLCFind clr (s.rowIndex - 1) = true →
      toupper (charAt ulr (s.columnIndex - 1)) = toupper (charAt clr (s.rowIndex - 1)) →
      (GenericAlignments.moveCosts ref clr matrix s.rowIndex s.columnIndex).1 ≠
        cellAt matrix s.rowIndex s.columnIndex →
      (GenericAlignments.moveCosts ref clr matrix s.rowIndex s.columnIndex).2.2 =
        cellAt matrix s.rowIndex s.columnIndex →
      GenericAlignments.step ref ulr clr matrix s = s.substitution ref ulr clr) ∧
    (GenericAlignments.isEndingLCFind clr (s.rowIndex - 1) = false →
      islower (charAt clr (s.rowIndex - 1)) = true →
      toupper (charAt ulr (s.columnIndex - 1)) = toupper (charAt clr (s.rowIndex - 1)) →
      (GenericAlignments.moveCosts ref clr matrix s.rowIndex s.columnIndex).2.2 =
        cellAt matrix s.rowIndex s.columnIndex →
      GenericAlignments.step ref ulr clr matrix s = s.substitution ref ulr clr) ∧
    ((ProovreadAlignments.moveCosts lbi ref clr matrix s.rowIndex s.columnIndex).1 =
        cellAt matrix s.rowIndex s.columnIndex →
      ProovreadAlignments.step lbi ref ulr clr matrix s = s.deletion ulr ref) ∧
    ((ProovreadAlignments.moveCosts lbi ref clr matrix s.rowIndex s.columnIndex).1 ≠
        cellAt matrix s.rowIndex s.columnIndex →
      (ProovreadAlignments.moveCosts lbi ref clr matrix s.rowIndex s.columnIndex).2.1 =
        cellAt matrix s.rowIndex s.columnIndex →
      ProovreadAlignments.step lbi ref ulr clr matrix s = s.insertion clr) ∧
    ((ProovreadAlignments.moveCosts lbi ref clr matrix s.rowIndex s.columnIndex).1 ≠
        cellAt matrix s.rowIndex s.columnIndex →
      (ProovreadAlignments.moveCosts lbi ref clr matrix s.rowIndex s.columnIndex).2.1 ≠
        cellAt matrix s.rowIndex s.columnIndex →
      (ProovreadAlignments.moveCosts lbi ref clr matrix s.rowIndex s.columnIndex).2.2 =
        cellAt matrix s.rowIndex s.columnIndex →
      ProovreadAlignments.step lbi ref ulr clr matrix s = s.substitution ref ulr clr) ∧
    ((s.deletion ulr ref).clrMaf = '-' :: s.clrMaf ∧
      (s.deletion ulr ref).rowIndex = s.rowIndex ∧
      (s.deletion ulr ref).columnIndex = s.columnIndex - 1) := by
  have hb : ¬ (s.rowIndex = 0 ∨ s.columnIndex = 0) := by omega
  refine ⟨?_, ?_, ?_, ?_, ?_, ?_, ?_, ?_, ?_, rfl, rfl, rfl⟩
  · intro hclass hdel
    unfold GenericAlignments.step
    simp only [if_neg hb, if_pos hdel]
    rcases hclass with hE | hL
    · simp [hE]
    · simp [hL]
  · intro hE hL hm hdash hleft
    unfold GenericAlignments.step
    have hm2 := hm
    rw [hdash] at hm2
    simp [hb, hE, hL, hm2, hdash, hleft, hrow, hcol]
  · intro hE hL hdel hins
    unfold GenericAlignments.step
    simp [hb, hE, hL, hdel, hins]
  · intro hE hL hdel hins hsub
    unfold GenericAlignments.step
    simp [hb, hE, hL, hdel, hins, hsub]
  · intro hE hm hdel hsub
    unfold GenericAlignments.step
    simp [hb, hE, hm, hdel, hsub]
  · intro hE hL hm hsub
    unfold GenericAlignments.step
    simp [hb, hE, hL, hm, hsub, hrow, hcol]
  · intro hdel
    unfold ProovreadAlignments.step
    simp [hb, hdel]
  · intro hdel hins
    unfold ProovreadAlignments.step
    simp [hb, hdel, hins]
  · intro hdel hins hsub
    unfold ProovreadAlignments.step
    simp [hb, hdel, hins, hsub]

theorem backtracker_move_order_witness :
    0 < (Backtrack.start 3 3).rowIndex ∧ 0 < (Backtrack.start 3 3).columnIndex ∧
    (GenericAlignments.moveCosts ['C', 'A'] ['C', '-']
        (GenericAlignments.matrix ['C', 'A'] ['C', 'A'] ['C', '-']) 2 2).1 =
      cellAt (GenericAlignments.matrix ['C', 'A'] ['C', 'A'] ['C', '-']) 2 2 ∧
    (GenericAlignments.moveCosts ['C', 'A'] ['C', '-']
        (GenericAlignments.matrix ['C', 'A'] ['C', 'A'] ['C', '-']) 2 2).2.1 =
      cellAt (GenericAlignments.matrix ['C', 'A'] ['C', 'A'] ['C', '-']) 2 2 ∧
    (GenericAlignments.moveCosts ['C', 'A'] ['C', '-']
        (GenericAlignments.matrix ['C', 'A'] ['C', 'A'] ['C', '-']) 2 2).2.2 =
      cellAt (GenericAlignments.matrix ['C', 'A'] ['C', 'A'] ['C', '-']) 2 2 ∧
    GenericAlignments.step ['C', 'A'] ['C', 'A'] ['C', '-']
        (GenericAlignments.matrix ['C', 'A'] ['C', 'A'] ['C', '-']) (Backtrack.start 3 3) =
      (Backtrack.start 3 3).deletion ['C', 'A'] ['C', 'A'] :=
  ⟨by decide, by decide, by decide, by decide, by decide,
    (backtracker_move_order [] ['C', 'A'] ['C', 'A'] ['C', '-']
      (GenericAlignments.matrix ['C', 'A'] ['C', 'A'] ['C', '-']) (Backtrack.start 3 3)
      (by decide) (by decide)).1 (Or.inr (by decide)) (by decide)⟩

/-- C21 (counterexample): on reference `--A`, uncorrected read `AAA` and
corrected read `Aaa` the Generic backtracker is at cell (2, 2) after one
iteration. The re-derived deletion, insertion and substitution costs all equal
the stored value 1 there, the cell is an interior-lowercase match, and the
step is a substitution, not a deletion. -/
theorem deletion_priority_fails :
    (GenericAlignments.loopBody ['-', '-', 'A'] ['A', 'A', 'A'] ['A', 'a', 'a'])^[1]
        (Backtrack.start (Reads.rows ['A', 'a', 'a']) (Reads.columns ['A', 'A', 'A'])) =
      { rowIndex := 2, columnIndex := 2, clrMaf := ['a'], ulrMaf := ['A'], refMaf := ['A'],
        errorCode := none } ∧
    cellAt (GenericAlignments.matrix ['-', '-', 'A'] ['A', 'A', 'A'] ['A', 'a', 'a']) 2 2 = 1 ∧
    GenericAlignments.moveCosts ['-', '-', 'A'] ['A', 'a', 'a']
        (GenericAlignments.matrix ['-', '-', 'A'] ['A', 'A', 'A'] ['A', 'a', 'a']) 2 2 =
      (1, 1, 1) ∧
    GenericAlignments.isEndingLCFind ['A', 'a', 'a'] 1 = false ∧
    islower (charAt ['A', 'a', 'a'] 1) = true ∧
    GenericAlignments.loopBody ['-', '-', 'A'] ['A', 'A', 'A'] ['A', 'a', 'a']
        { rowIndex := 2, columnIndex := 2, clrMaf := ['a'], ulrMaf := ['A'], refMaf := ['A'],
          errorCode := none } =
      { rowIndex := 1, columnIndex := 1, clrMaf := ['a', 'a'], ulrMaf := ['A', 'A'],
        refMaf := ['-', 'A'], errorCode := none } ∧
    GenericAlignments.loopBody ['-', '-', 'A'] ['A', 'A', 'A'] ['A', 'a', 'a']
        { rowIndex := 2, columnIndex := 2, clrMaf := ['a'], ulrMaf := ['A'], refMaf := ['A'],
          errorCode := none } ≠
      Backtrack.deletion ['A', 'A', 'A'] ['-', '-', 'A']
        { rowIndex := 2, columnIndex := 2, clrMaf := ['a'], ulrMaf := ['A'], refMaf := ['A'],
          errorCode := none } := by
  decide

/-! ## The classification of a cell in the two passes -/

theorem isEndingLCFind_eq_init (clr : List Char) (cIndex : Nat)
    (h : cIndex + 1 = clr.length → islower (charAt clr cIndex) = false) :
    GenericAlignments.isEndingLCFind clr cIndex = GenericAlignments.isEndingLCInit clr cIndex := by
  unfold GenericAlignments.isEndingLCFind GenericAlignments.isEndingLCInit
  by_cases hc : cIndex + 1 = clr.length
  · simp [hc, h hc]
  · simp [hc]

/-- C22: on reference `GA`, uncorrected read `G-` and corrected read `g` the
backtracker visits the cell (1, 2), which `initialize` filled as an
interior-lowercase cell (a deletion at no cost against the `-`:
`matrix[1][2] = matrix[1][1] = 0`) and which `findAlignments` classifies as an
ending-lowercase cell: it re-derives the deletion cost 2, finds no move and
takes the branch `ERROR CODE 2`. -/
theorem backtracker_classifies_last_lowercase_differently :
    Backtrack.start (Reads.rows ['g']) (Reads.columns ['G', '-']) =
      ⟨1, 2, [], [], [], none⟩ ∧
    GenericAlignments.isEndingLCInit ['g'] 0 = false ∧
    islower (charAt ['g'] 0) = true ∧
    GenericAlignments.isEndingLCFind ['g'] 0 = true ∧
    cellAt (GenericAlignments.matrix ['G', 'A'] ['G', '-'] ['g']) 1 1 = 0 ∧
    cellAt (GenericAlignments.matrix ['G', 'A'] ['G', '-'] ['g']) 1 2 = 0 ∧
    (GenericAlignments.moveCosts ['G', 'A'] ['g']
      (GenericAlignments.matrix ['G', 'A'] ['G', '-'] ['g']) 1 2).1 = 2 ∧
    GenericAlignments.step ['G', 'A'] ['G', '-'] ['g']
        (GenericAlignments.matrix ['G', 'A'] ['G', '-'] ['g']) ⟨1, 2, [], [], [], none⟩ =
      ⟨0, 0, [], [], [], some 2⟩ ∧
    GenericAlignments.initialise ['G', 'A'] ['G', '-'] ['g'] = some ⟨[], [], [], some 2⟩ := by
  decide

/-! ## The Segment-Trimming backtracker always finds a move -/

theorem toupper_of_not_islower (c : Char) (h : islower c = false) : toupper c = c := by
  rw [char_eq_iff, toNat_toupper]
  have h2 : ¬ (97 ≤ c.toNat ∧ c.toNat ≤ 122) := by
    rw [← islower_iff]
    simp [h]
  rw [if_neg h2]

/-- The two orders of the arguments of `cost` agree unless the second
character is lowercase. -/
theorem cost_swap (c r : Char) (hr : islower r = false) :
    Reads.cost c r = Reads.cost r c ∨
      (islower c = true ∧ Reads.cost c r = 2 ∧ Reads.cost r c = 0 ∧ Reads.cost '-' c = 0) := by
  by_cases hc : islower c = true
  · rcases cost_mem c r with h | h
    · left
      rw [h, cost_lower r c hc]
    · right
      exact ⟨hc, h, cost_lower r c hc, cost_lower '-' c hc⟩
  · left
    have hc2 : islower c = false := by simpa using hc
    unfold Reads.cost Reads.costWith
    rw [toupper_of_not_islower c hc2, toupper_of_not_islower r hr]
    simp only [hr, hc2]
    by_cases e : c = r
    · simp [e]
    · have e2 : ¬ r = c := fun h => e h.symm
      simp [e, e2]

theorem add32_exact (x c : Int) (hx : 0 ≤ x) (hc : 0 ≤ c) (h : x + c < 2147483648) :
    add32 x c = x + c := by
  unfold add32 wrap32
  omega

theorem proovread_moveCosts_interior (lbi : List Int) (ref clr : List Char)
    (matrix : List (List Int)) (i j : Nat) :
    ProovreadAlignments.moveCosts lbi ref clr matrix (i + 1) (j + 1) =
      ((if ProovreadAlignments.isLastBase lbi (i + 1) = true then cellAt matrix (i + 1) j
        else add32 (cellAt matrix (i + 1) j) (Reads.cost (charAt ref j) '-')),
       add32 (cellAt matrix i (j + 1)) (Reads.cost '-' (charAt clr i)),
       add32 (cellAt matrix i j) (Reads.cost (charAt ref j) (charAt clr i))) := by
  unfold ProovreadAlignments.moveCosts
  simp

theorem proovread_cell_bound (lbi : List Int) (ref clr : List Char) (i j : Nat)
    (left up diag b : Int) (hb : b + 2 < 2147483647)
    (hl : 0 ≤ left ∧ left ≤ b) (hu : 0 ≤ up ∧ up ≤ b) (hd : 0 ≤ diag ∧ diag ≤ b) :
    0 ≤ ProovreadAlignments.cell lbi ref clr (i + 1) (j + 1) left up diag ∧
      ProovreadAlignments.cell lbi ref clr (i + 1) (j + 1) left up diag ≤ b + 2 := by
  unfold ProovreadAlignments.cell
  simp only
  have h1 := cost_mem (charAt ref (j + 1 - 1)) '-'
  have h2 := cost_mem '-' (charAt clr (i + 1 - 1))
  have h3 := cost_mem (charAt clr (i + 1 - 1)) (charAt ref (j + 1 - 1))
  rw [add32_exact left _ hl.1 (by omega) (by omega), add32_exact up _ hu.1 (by omega) (by omega),
    add32_exact diag _ hd.1 (by omega) (by omega)]
  split_ifs <;> omega

/-- Every cell of the Segment-Trimming matrix lies between 0 and `2 * (i + j)`,
when `2 * (rows + columns) < INT_MAX`. -/
theorem proovread_cellAt_bound (lbi : List Int) (ref clr : List Char)
    (hsize : 2 * ((clr.length + 1) + (ref.length + 1)) < 2147483647) :
    ∀ i, i ≤ clr.length → ∀ j, j ≤ ref.length →
      0 ≤ cellAt (ProovreadAlignments.matrix lbi ref clr) i j ∧
        cellAt (ProovreadAlignments.matrix lbi ref clr) i j ≤ 2 * ((i : Int) + (j : Int)) := by
  intro i
  induction i with
  | zero =>
    intro _ j hj
    rw [proovread_cellAt_row_zero lbi ref clr j hj]
    omega
  | succ i ih =>
    intro hi j
    induction j with
    | zero =>
      intro _
      rw [proovread_cellAt_col_zero lbi ref clr (i + 1) hi]
      push_cast
      omega
    | succ j ihj =>
      intro hj
      rw [proovread_cellAt_interior lbi ref clr i j (by omega) (by omega)]
      have hl := ihj (by omega)
      have hu := ih (by omega) (j + 1) hj
      have hd := ih (by omega) j (by omega)
      have := proovread_cell_bound lbi ref clr i j _ _ _ (2 * ((i : Int) + j + 1)) (by omega)
        ⟨hl.1, by push_cast at hl; omega⟩ ⟨hu.1, by push_cast at hu; omega⟩ ⟨hd.1, by omega⟩
      push_cast
      omega

/-- Along a row a cell is at most 2 more than its left neighbour. -/
theorem proovread_row_step (lbi : List Int) (ref clr : List Char)
    (hsize : 2 * ((clr.length + 1) + (ref.length + 1)) < 2147483647)
    (i j : Nat) (hi : i ≤ clr.length) (hj : j < ref.length) :
    cellAt (ProovreadAlignments.matrix lbi ref clr) i (j + 1) ≤
      cellAt (ProovreadAlignments.matrix lbi ref clr) i j + 2 := by
  cases i with
  | zero =>
    rw [proovread_cellAt_row_zero lbi ref clr (j + 1) (by omega),
      proovread_cellAt_row_zero lbi ref clr j (by omega)]
    omega
  | succ i =>
    rw [proovread_recurrence lbi ref clr i j (by omega) hj]
    have hl := proovread_cellAt_bound lbi ref clr hsize (i + 1) hi j (by omega)
    push_cast at hl
    have h1 := cost_mem (charAt ref j) '-'
    rw [add32_exact _ _ hl.1 (by omega) (by omega)]
    split_ifs <;> omega

/-- At a cell off row 0 and column 0 the Segment-Trimming backtracker takes
one of the three moves, when the reference holds no lowercase letter. -/
theorem proovread_step_finds_move (lbi : List Int) (ref ulr clr : List Char)
    (hsize : 2 * ((clr.length + 1) + (ref.length + 1)) < 2147483647)
    (href : ∀ x ∈ ref, islower x = false) (s : Backtrack) (i j : Nat)
    (hi : s.rowIndex = i + 1) (hj : s.columnIndex = j + 1)
    (hil : i < clr.length) (hjl : j < ref.length) :
    (ProovreadAlignments.step lbi ref ulr clr (ProovreadAlignments.matrix lbi ref clr) s).errorCode =
      s.errorCode := by
  have hrec := proovread_recurrence lbi ref clr i j hil hjl
  have hu := proovread_cellAt_bound lbi ref clr hsize i (by omega) (j + 1) (by omega)
  have hd := proovread_cellAt_bound lbi ref clr hsize i (by omega) j (by omega)
  have hstep := proovread_row_step lbi ref clr hsize i j (by omega) hjl
  push_cast at hu
  have hswap := cost_swap (charAt clr i) (charAt ref j) (href _ (charAt_mem ref j hjl))
  unfold ProovreadAlignments.step
  simp only [hi, hj, proovread_moveCosts_interior]
  rw [if_neg (by omega)]
  generalize (if ProovreadAlignments.isLastBase lbi (i + 1) = true then
      cellAt (ProovreadAlignments.matrix lbi ref clr) (i + 1) j
    else add32 (cellAt (ProovreadAlignments.matrix lbi ref clr) (i + 1) j)
      (Reads.cost (charAt ref j) '-')) = del at hrec ⊢
  split_ifs with h1 h2 h3
  · rfl
  · rfl
  · rfl
  · exfalso
    rw [hrec] at h1 h2 h3
    rcases hswap with hsw | ⟨_, hc2, _, hc0⟩
    · rw [← hsw] at h3
      omega
    · rw [hc2, add32_exact _ _ hd.1 (by omega) (by omega)] at h1 h2
      rw [hc0, add32_exact _ _ hu.1 (by omega) (by omega)] at h1 h2
      omega

theorem IsMove.sound {ref ulr clr : List Char} {rows columns : Nat} {s t : Backtrack}
    (h : IsMove ref ulr clr s t) (hP : Backtrack.Sound rows columns s)
    (he : t.errorCode = s.errorCode) : Backtrack.Sound rows columns t := by
  have hle := h.index_le
  unfold Backtrack.Sound at *
  refine ⟨by omega, by omega, ?_⟩
  rw [he]
  exact hP.2.2

theorem boundary_step_errorCode (ulr ref clr : List Char) (s : Backtrack) :
    (if s.rowIndex = 0 then s.deletion ulr ref else s.insertion clr).errorCode = s.errorCode := by
  split_ifs <;> rfl

theorem proovread_step_sound (lbi : List Int) (ref ulr clr : List Char)
    (hsize : 2 * ((clr.length + 1) + (ref.length + 1)) < 2147483647)
    (href : ∀ x ∈ ref, islower x = false) (s : Backtrack)
    (hs : 0 < s.rowIndex ∨ 0 < s.columnIndex)
    (hP : Backtrack.Sound (clr.length + 1) (ref.length + 1) s) :
    Backtrack.Sound (clr.length + 1) (ref.length + 1)
      (ProovreadAlignments.step lbi ref ulr clr (ProovreadAlignments.matrix lbi ref clr) s) := by
  apply (proovread_step_isMove lbi ref ulr clr _ s hs).sound hP
  by_cases hb : s.rowIndex = 0 ∨ s.columnIndex = 0
  · unfold ProovreadAlignments.step
    simp only [if_pos hb]
    exact boundary_step_errorCode ulr ref clr s
  · obtain ⟨i, hi⟩ : ∃ i, s.rowIndex = i + 1 := ⟨s.rowIndex - 1, by omega⟩
    obtain ⟨j, hj⟩ : ∃ j, s.columnIndex = j + 1 := ⟨s.columnIndex - 1, by omega⟩
    unfold Backtrack.Sound at hP
    exact proovread_step_finds_move lbi ref ulr clr hsize href s i j hi hj (by omega) (by omega)

/-- A loop whose body is a move that keeps states sound returns without an
error code at cell (0, 0), and the corrected track without gaps is the first
`rows - 1` characters of the corrected read. -/
theorem loop_sound (ref ulr clr : List Char) (body : Backtrack → Backtrack)
    (hbody : ∀ s : Backtrack, (0 < s.rowIndex ∨ 0 < s.columnIndex) → IsMove ref ulr clr s (body s))
    (rows columns : Nat) (hrows : 0 < rows) (hcolumns : 0 < columns)
    (P : Backtrack → Prop) (hstart : P (Backtrack.start rows columns))
    (hsound : ∀ s : Backtrack, (0 < s.rowIndex ∨ 0 < s.columnIndex) →
      P s → Backtrack.Sound rows columns s → P (body s) ∧ Backtrack.Sound rows columns (body s))
    (hdash : ∀ x ∈ clr, x ≠ '-') (hlen : rows - 1 ≤ clr.length) :
    ∃ r, whileLoop body ((rows - 1) + (columns - 1)) (Backtrack.start rows columns) = some r ∧
      r.errorCode = none ∧ r.rowIndex = 0 ∧ r.columnIndex = 0 ∧
      removeGaps r.clrMaf = clr.take (rows - 1) := by
  obtain ⟨r, hr⟩ := whileLoop_terminates body (fun s hs => (hbody s hs).measure_lt hs)
    ((rows - 1) + (columns - 1)) (Backtrack.start rows columns) (by simp [Backtrack.start])
  have hinv := whileLoop_invariant body (fun s => P s ∧ Backtrack.Sound rows columns s)
    (fun s hs hP => hsound s hs hP.1 hP.2) _ _ r
    ⟨hstart, ⟨by simp only [Backtrack.start]; omega, by simp only [Backtrack.start]; omega, rfl⟩⟩ hr
  have hexit := whileLoop_exit body _ _ r hr
  obtain ⟨a, ha, hround, _⟩ := loop_roundTrip ref ulr clr body hbody hdash rows columns hlen
  rw [hr] at ha
  simp only [Option.map_some', Option.some.injEq] at ha
  subst ha
  exact ⟨r, hr, hinv.2.2.2, hexit.1, hexit.2, hround hinv.2.2.2⟩

/-- C24: for every input triple to a Segment-Trimming engine with
`|reference| = |uncorrected|`, a reference without lowercase letter and
`2 * (rows + columns) < INT_MAX`, the backtracking never takes the branch
`No paths found` (although the forward pass calls `cost(clr, ref)` and the
backtracker `cost(ref, clr)`) and ends at cell (0, 0); the corrected track
without gaps equals the corrected read without its delimiters, when that
holds no `-`. This holds whatever the member `lastBaseIndices` held before. -/
theorem segment_backtracking_finds_path (split : List Char → List (List Char))
    (before : List Int) (ref ulr clr : List Char) (_hlen : ref.length = ulr.length)
    (href : ∀ x ∈ ref, islower x = false)
    (hsize : 2 * (((ProovreadAlignments.cleanClr clr).length + 1) + (ref.length + 1)) < 2147483647)
    (hdash : ∀ x ∈ ProovreadAlignments.cleanClr clr, x ≠ '-') :
    ∃ r, whileLoop (ProovreadAlignments.loopBody split before ref ulr clr)
        ((((ProovreadAlignments.cleanClr clr).length + 1) - 1) + ((ref.length + 1) - 1))
        (Backtrack.start ((ProovreadAlignments.cleanClr clr).length + 1) (ref.length + 1)) =
          some r ∧
      r.rowIndex = 0 ∧ r.columnIndex = 0 ∧
      ProovreadAlignments.initialise split before ref ulr clr = some r.toAlignment ∧
      r.toAlignment.errorCode = none ∧
      removeGaps r.toAlignment.clr = ProovreadAlignments.cleanClr clr := by
  obtain ⟨r, hr, he, h0, h1, hround⟩ := loop_sound ref ulr (ProovreadAlignments.cleanClr clr)
    (ProovreadAlignments.loopBody split before ref ulr clr)
    (fun s hs => proovread_step_isMove _ ref ulr _ _ s hs)
    ((ProovreadAlignments.cleanClr clr).length + 1) (ref.length + 1) (by omega) (by omega)
    (fun _ => True) trivial
    (fun s hs _ hP => ⟨trivial, proovread_step_sound _ ref ulr _ hsize href s hs hP⟩)
    hdash (by omega)
  refine ⟨r, hr, h0, h1, ?_, he, ?_⟩
  · unfold ProovreadAlignments.initialise ProovreadAlignments.findAlignments
    unfold ProovreadAlignments.loopBody at hr
    rw [hr]
    rfl
  · rw [Nat.add_sub_cancel, List.take_length] at hround
    exact hround

theorem segment_backtracking_finds_path_witness :
    ['G', 'C', 'T'].length = ['G', 'C', 'T'].length ∧
    (∀ x ∈ ['G', 'C', 'T'], islower x = false) ∧
    2 * (((ProovreadAlignments.cleanClr ['G', 'a', ' ', 'T']).length + 1) +
      (['G', 'C', 'T'].length + 1)) < 2147483647 ∧
    (∀ x ∈ ProovreadAlignments.cleanClr ['G', 'a', ' ', 'T'], x ≠ '-') ∧
    ∃ r, whileLoop
        (ProovreadAlignments.loopBody split [] ['G', 'C', 'T'] ['G', 'C', 'T'] ['G', 'a', ' ', 'T'])
        ((((ProovreadAlignments.cleanClr ['G', 'a', ' ', 'T']).length + 1) - 1) +
          ((['G', 'C', 'T'].length + 1) - 1))
        (Backtrack.start ((ProovreadAlignments.cleanClr ['G', 'a', ' ', 'T']).length + 1)
          (['G', 'C', 'T'].length + 1)) = some r ∧
      r.rowIndex = 0 ∧ r.columnIndex = 0 ∧
      ProovreadAlignments.initialise split [] ['G', 'C', 'T'] ['G', 'C', 'T']
        ['G', 'a', ' ', 'T'] = some r.toAlignment ∧
      r.toAlignment.errorCode = none ∧
      removeGaps r.toAlignment.clr = ProovreadAlignments.cleanClr ['G', 'a', ' ', 'T'] :=
  ⟨rfl, by decide, by decide, by decide,
    segment_backtracking_finds_path split [] ['G', 'C', 'T'] ['G', 'C', 'T'] ['G', 'a', ' ', 'T']
      rfl (by decide) (by decide) (by decide)⟩
/-! ## The Generic backtracker finds a move on a finite cell -/

/-- The test of the backtracker on a re-derived cost, for a stored value that
is not `INT_MAX`: the neighbour is not `INT_MAX` and the sum is exact. -/
theorem add32_eq_finite (x c v b : Int) (hx : x = INT_MAX ∨ (0 ≤ x ∧ x ≤ b))
    (hc : c = 0 ∨ c = 2) (hb : b + 2 < 2147483647) (hv : 0 ≤ v) (hv2 : v ≠ INT_MAX) :
    add32 x c = v ↔ (x ≠ INT_MAX ∧ x + c = v) := by
  unfold add32 wrap32 INT_MAX at *
  rcases hx with hx | hx <;> rcases hc with hc | hc <;> subst hc <;> constructor <;> intro h <;>
    omega

theorem addInf_eq_finite (x c v : Int) (hv2 : v ≠ INT_MAX) :
    v = addInf x c → (x ≠ INT_MAX ∧ x + c = v) := by
  unfold addInf
  split_ifs with h
  · intro e
    exact absurd e hv2
  · intro e
    exact ⟨h, e.symm⟩

theorem min2_finite (a b cur : Int) (h : cur = min a b) : cur = a ∨ cur = b := by
  rcases min_choice a b with e | e
  · left; rw [h, e]
  · right; rw [h, e]

theorem min3_finite (a b c cur : Int) (h : cur = min a (min b c)) :
    cur = a ∨ cur = b ∨ cur = c := by
  rcases min2_finite _ _ _ h with e | e
  · exact Or.inl e
  · rcases min2_finite _ _ _ e with e2 | e2
    · exact Or.inr (Or.inl e2)
    · exact Or.inr (Or.inr e2)

/-- At a cell off row 0 and column 0 that does not hold `INT_MAX`, the Generic
backtracker takes a move to a cell that does not hold `INT_MAX`, when the
corrected read does not end in a lowercase letter. -/
theorem generic_step_finds_move (ref ulr clr : List Char)
    (hsize : 2 * (Reads.rows clr + Reads.columns ulr) < 2147483647)
    (hlast : islower (charAt clr (clr.length - 1)) = false) (s : Backtrack) (i j : Nat)
    (hi : s.rowIndex = i + 1) (hj : s.columnIndex = j + 1)
    (hil : i + 1 < Reads.rows clr) (hjl : j + 1 < Reads.columns ulr)
    (hfin : cellAt (GenericAlignments.matrix ref ulr clr) (i + 1) (j + 1) ≠ INT_MAX) :
    (GenericAlignments.step ref ulr clr (GenericAlignments.matrix ref ulr clr) s =
        s.deletion ulr ref ∧
      cellAt (GenericAlignments.matrix ref ulr clr) (i + 1) j ≠ INT_MAX) ∨
    (GenericAlignments.step ref ulr clr (GenericAlignments.matrix ref ulr clr) s =
        s.insertion clr ∧
      cellAt (GenericAlignments.matrix ref ulr clr) i (j + 1) ≠ INT_MAX) ∨
    (GenericAlignments.step ref ulr clr (GenericAlignments.matrix ref ulr clr) s =
        s.substitution ref ulr clr ∧
      cellAt (GenericAlignments.matrix ref ulr clr) i j ≠ INT_MAX) := by
  have hEq : GenericAlignments.isEndingLCFind clr i = GenericAlignments.isEndingLCInit clr i := by
    apply isEndingLCFind_eq_init
    intro h
    have : i = clr.length - 1 := by omega
    rw [this]
    exact hlast
  have hrec : cellAt (GenericAlignments.matrix ref ulr clr) (i + 1) (j + 1) =
      GenericAlignments.cell Reads.cost ref ulr clr (i + 1) (j + 1)
        (cellAt (GenericAlignments.matrix ref ulr clr) (i + 1) j)
        (cellAt (GenericAlignments.matrix ref ulr clr) i (j + 1))
        (cellAt (GenericAlignments.matrix ref ulr clr) i j) := by
    unfold GenericAlignments.matrix
    exact GenericAlignments.cellAt_interior Reads.cost ref ulr clr i j hil hjl
  have hl := generic_cellAt_bound ref ulr clr hsize (i + 1) hil j (by omega)
  have hu := generic_cellAt_bound ref ulr clr hsize i (by omega) (j + 1) hjl
  have hd := generic_cellAt_bound ref ulr clr hsize i (by omega) j (by omega)
  have hc := generic_cellAt_bound ref ulr clr hsize (i + 1) hil (j + 1) hjl
  have hrows : (i : Int) + j + 2 < 1073741823 := by
    unfold Reads.rows Reads.columns at *
    omega
  unfold CellBound at hl hu hd hc
  have hl2 : cellAt (GenericAlignments.matrix ref ulr clr) (i + 1) j = INT_MAX ∨
      (0 ≤ cellAt (GenericAlignments.matrix ref ulr clr) (i + 1) j ∧
        cellAt (GenericAlignments.matrix ref ulr clr) (i + 1) j ≤ 2 * ((i : Int) + j + 2)) := by
    rcases hl with h | h
    · exact Or.inl h
    · right; push_cast at h; omega
  have hu2 : cellAt (GenericAlignments.matrix ref ulr clr) i (j + 1) = INT_MAX ∨
      (0 ≤ cellAt (GenericAlignments.matrix ref ulr clr) i (j + 1) ∧
        cellAt (GenericAlignments.matrix ref ulr clr) i (j + 1) ≤ 2 * ((i : Int) + j + 2)) := by
    rcases hu with h | h
    · exact Or.inl h
    · right; push_cast at h; omega
  have hd2 : cellAt (GenericAlignments.matrix ref ulr clr) i j = INT_MAX ∨
      (0 ≤ cellAt (GenericAlignments.matrix ref ulr clr) i j ∧
        cellAt (GenericAlignments.matrix ref ulr clr) i j ≤ 2 * ((i : Int) + j + 2)) := by
    rcases hd with h | h
    · exact Or.inl h
    · right; omega
  have hc0 : 0 ≤ cellAt (GenericAlignments.matrix ref ulr clr) (i + 1) (j + 1) := by
    rcases hc with h | h
    · exact absurd h hfin
    · exact h.1
  have c1 := cost_mem (charAt ref j) '-'
  have c2 := cost_mem '-' (charAt clr i)
  have c3 := cost_mem (charAt ref j) (charAt clr i)
  have t1 := add32_eq_finite _ _ _ _ hl2 c1 (by omega) hc0 hfin
  have t2 := add32_eq_finite _ _ _ _ hu2 c2 (by omega) hc0 hfin
  have t3 := add32_eq_finite _ _ _ _ hd2 c3 (by omega) hc0 hfin
  have a1 := (abs32_add32_eq_addInf _ _ _ hl2 c1 (by omega)).1
  have a2 := (abs32_add32_eq_addInf _ _ _ hu2 c2 (by omega)).1
  have a3 := (abs32_add32_eq_addInf _ _ _ hd2 c3 (by omega)).1
  clear hl hu hd hc hl2 hu2 hd2 hc0 c1 c2 c3 hrows hsize hlast
  unfold GenericAlignments.cell at hrec
  simp only [Nat.add_sub_cancel, a1, a2, a3] at hrec
  clear a1 a2 a3
  unfold GenericAlignments.step
  simp only [hi, hj, GenericAlignments.moveCosts_interior, Nat.add_sub_cancel, hEq,
    gt_iff_lt, Nat.succ_pos, and_true]
  rw [if_neg (by omega)]
  by_cases hE : GenericAlignments.isEndingLCInit clr i = true
  · simp only [hE, if_true] at hrec ⊢
    by_cases hm : toupper (charAt ulr j) = toupper (charAt clr i)
    · simp only [hm, if_true] at hrec ⊢
      by_cases h1 : add32 (cellAt (GenericAlignments.matrix ref ulr clr) (i + 1) j)
          (Reads.cost (charAt ref j) '-') =
            cellAt (GenericAlignments.matrix ref ulr clr) (i + 1) (j + 1)
      · rw [if_pos h1]
        exact Or.inl ⟨rfl, (t1.1 h1).1⟩
      · rw [if_neg h1]
        rcases min2_finite _ _ _ hrec with e | e
        · have h3 := addInf_eq_finite _ _ _ hfin e
          rw [if_pos (t3.2 h3)]
          exact Or.inr (Or.inr ⟨rfl, h3.1⟩)
        · exact absurd (t1.2 (addInf_eq_finite _ _ _ hfin e)) h1
    · simp only [hm, if_false] at hrec ⊢
      have h1 := addInf_eq_finite _ _ _ hfin hrec
      rw [if_pos (t1.2 h1)]
      exact Or.inl ⟨rfl, h1.1⟩
  · simp only [hE, Bool.false_eq_true, if_false] at hrec ⊢
    by_cases hL : islower (charAt clr i) = true
    · simp only [hL, if_true] at hrec ⊢
      by_cases hm : toupper (charAt ulr j) = toupper (charAt clr i)
      · simp only [hm, if_true] at hrec ⊢
        have h3 := addInf_eq_finite _ _ _ hfin hrec
        rw [if_pos (t3.2 h3)]
        exact Or.inr (Or.inr ⟨rfl, h3.1⟩)
      · simp only [hm, if_false] at hrec ⊢
        by_cases hdash : charAt ulr j = '-'
        · simp only [hdash, if_true] at hrec ⊢
          rw [if_pos hrec.symm]
          refine Or.inl ⟨rfl, ?_⟩
          rw [← hrec]
          exact hfin
        · simp only [hdash, if_false] at hrec
          exact absurd hrec hfin
    · simp only [hL, Bool.false_eq_true, if_false] at hrec ⊢
      by_cases h1 : add32 (cellAt (GenericAlignments.matrix ref ulr clr) (i + 1) j)
          (Reads.cost (charAt ref j) '-') =
            cellAt (GenericAlignments.matrix ref ulr clr) (i + 1) (j + 1)
      · rw [if_pos h1]
        exact Or.inl ⟨rfl, (t1.1 h1).1⟩
      · rw [if_neg h1]
        by_cases h2 : add32 (cellAt (GenericAlignments.matrix ref ulr clr) i (j + 1))
            (Reads.cost '-' (charAt clr i)) =
              cellAt (GenericAlignments.matrix ref ulr clr) (i + 1) (j + 1)
        · rw [if_pos h2]
          exact Or.inr (Or.inl ⟨rfl, (t2.1 h2).1⟩)
        · rw [if_neg h2]
          rcases min3_finite _ _ _ _ hrec with e | e | e
          · exact absurd (t1.2 (addInf_eq_finite _ _ _ hfin e)) h1
          · exact absurd (t2.2 (addInf_eq_finite _ _ _ hfin e)) h2
          · have h3 := addInf_eq_finite _ _ _ hfin e
            rw [if_pos (t3.2 h3)]
            exact Or.inr (Or.inr ⟨rfl, h3.1⟩)


theorem generic_step_sound (ref ulr clr : List Char)
    (hsize : 2 * (Reads.rows clr + Reads.columns ulr) < 2147483647)
    (hlast : islower (charAt clr (clr.length - 1)) = false) (s : Backtrack)
    (hs : 0 < s.rowIndex ∨ 0 < s.columnIndex)
    (hfin : cellAt (GenericAlignments.matrix ref ulr clr) s.rowIndex s.columnIndex ≠ INT_MAX)
    (hP : Backtrack.Sound (Reads.rows clr) (Reads.columns ulr) s) :
    cellAt (GenericAlignments.matrix ref ulr clr)
        (GenericAlignments.step ref ulr clr (GenericAlignments.matrix ref ulr clr) s).rowIndex
        (GenericAlignments.step ref ulr clr (GenericAlignments.matrix ref ulr clr) s).columnIndex ≠
      INT_MAX ∧
    Backtrack.Sound (Reads.rows clr) (Reads.columns ulr)
      (GenericAlignments.step ref ulr clr (GenericAlignments.matrix ref ulr clr) s) := by
  have hmove := generic_step_isMove ref ulr clr (GenericAlignments.matrix ref ulr clr) s hs
  obtain ⟨hr, hc, he⟩ := hP
  by_cases hb : s.rowIndex = 0 ∨ s.columnIndex = 0
  · have hstep : GenericAlignments.step ref ulr clr (GenericAlignments.matrix ref ulr clr) s =
        if s.rowIndex = 0 then s.deletion ulr ref else s.insertion clr := by
      unfold GenericAlignments.step
      simp only [if_pos hb]
    rw [hstep]
    by_cases h0 : s.rowIndex = 0
    · rw [if_pos h0]
      refine ⟨?_, ⟨hr, ?_, he⟩⟩
      · simp only [Backtrack.deletion, h0]
        unfold GenericAlignments.matrix
        rw [GenericAlignments.cellAt_row_zero _ _ _ _ _ (by omega)]
        unfold INT_MAX
        omega
      · simp only [Backtrack.deletion]
        omega
    · rw [if_neg h0]
      have hc0 : s.columnIndex = 0 := by omega
      refine ⟨?_, ⟨?_, hc, he⟩⟩
      · simp only [Backtrack.insertion, hc0]
        unfold GenericAlignments.matrix
        rw [GenericAlignments.cellAt_col_zero _ _ _ _ _ (by omega)]
        unfold INT_MAX
        omega
      · simp only [Backtrack.insertion]
        omega
  · obtain ⟨i, hi⟩ : ∃ i, s.rowIndex = i + 1 := ⟨s.rowIndex - 1, by omega⟩
    obtain ⟨j, hj⟩ : ∃ j, s.columnIndex = j + 1 := ⟨s.columnIndex - 1, by omega⟩
    rw [hi, hj] at hfin
    rcases generic_step_finds_move ref ulr clr hsize hlast s i j hi hj (by omega) (by omega) hfin
      with ⟨h, hn⟩ | ⟨h, hn⟩ | ⟨h, hn⟩
    · rw [h]
      refine ⟨?_, ⟨hr, ?_, he⟩⟩
      · simp only [Backtrack.deletion, hi, hj, Nat.add_sub_cancel]
        exact hn
      · simp only [Backtrack.deletion]
        omega
    · rw [h]
      refine ⟨?_, ⟨?_, hc, he⟩⟩
      · simp only [Backtrack.insertion, hi, hj, Nat.add_sub_cancel]
        exact hn
      · simp only [Backtrack.insertion]
        omega
    · rw [h]
      refine ⟨?_, ⟨?_, ?_, he⟩⟩
      · simp only [Backtrack.substitution, hi, hj, Nat.add_sub_cancel]
        exact hn
      · simp only [Backtrack.substitution]
        omega
      · simp only [Backtrack.substitution]
        omega

/-- C23 (amended): for every input triple to the Generic engine with
`|reference| = |uncorrected|`, a corrected read that contains no `-` and does
not end in a lowercase letter, a final cell `matrix[rows-1][columns-1]`
different from `INT_MAX` and `2 * (rows + columns) < INT_MAX`, the backtracking
never takes a `No paths found` branch and ends at cell (0, 0); the corrected
track without gaps is the first `rows - 1` characters of the corrected read,
which is the corrected read itself when it holds no blank. -/
theorem generic_backtracking_finds_path (ref ulr clr : List Char)
    (_hlen : ref.length = ulr.length) (hdash : ∀ x ∈ clr, x ≠ '-')
    (hlast : islower (charAt clr (clr.length - 1)) = false)
    (hfinal : cellAt (GenericAlignments.matrix ref ulr clr) (Reads.rows clr - 1)
      (Reads.columns ulr - 1) ≠ INT_MAX)
    (hsize : 2 * (Reads.rows clr + Reads.columns ulr) < 2147483647) :
    ∃ r, whileLoop (GenericAlignments.loopBody ref ulr clr)
        ((Reads.rows clr - 1) + (Reads.columns ulr - 1))
        (Backtrack.start (Reads.rows clr) (Reads.columns ulr)) = some r ∧
      r.rowIndex = 0 ∧ r.columnIndex = 0 ∧
      GenericAlignments.initialise ref ulr clr = some r.toAlignment ∧
      r.toAlignment.errorCode = none ∧
      removeGaps r.toAlignment.clr = clr.take (Reads.rows clr - 1) ∧
      ((∀ x ∈ clr, x ≠ ' ') → removeGaps r.toAlignment.clr = clr) := by
  obtain ⟨r, hr, he, h0, h1, hround⟩ := loop_sound ref ulr clr
    (GenericAlignments.loopBody ref ulr clr)
    (fun s hs => generic_step_isMove ref ulr clr (GenericAlignments.matrix ref ulr clr) s hs)
    (Reads.rows clr) (Reads.columns ulr) (by unfold Reads.rows; omega)
    (by unfold Reads.columns; omega)
    (fun s => cellAt (GenericAlignments.matrix ref ulr clr) s.rowIndex s.columnIndex ≠ INT_MAX)
    hfinal
    (fun s hs hfin hP => generic_step_sound ref ulr clr hsize hlast s hs hfin hP)
    hdash (rows_pred_le clr)
  refine ⟨r, hr, h0, h1, ?_, he, hround, ?_⟩
  · unfold GenericAlignments.initialise GenericAlignments.findAlignments
    unfold GenericAlignments.loopBody at hr
    rw [hr]
    rfl
  · intro hblank
    rw [← take_rows_of_no_blank clr hblank]
    exact hround

theorem generic_backtracking_finds_path_witness :
    ['A', 'C', 'G', 'T'].length = ['A', 'C', 'G', 'T'].length ∧
    (∀ x ∈ ['A', 'g', 'T'], x ≠ '-') ∧
    islower (charAt ['A', 'g', 'T'] (['A', 'g', 'T'].length - 1)) = false ∧
    cellAt (GenericAlignments.matrix ['A', 'C', 'G', 'T'] ['A', 'C', 'G', 'T'] ['A', 'g', 'T'])
      (Reads.rows ['A', 'g', 'T'] - 1) (Reads.columns ['A', 'C', 'G', 'T'] - 1) ≠ INT_MAX ∧
    2 * (Reads.rows ['A', 'g', 'T'] + Reads.columns ['A', 'C', 'G', 'T']) < 2147483647 ∧
    ∃ r, whileLoop
        (GenericAlignments.loopBody ['A', 'C', 'G', 'T'] ['A', 'C', 'G', 'T'] ['A', 'g', 'T'])
        ((Reads.rows ['A', 'g', 'T'] - 1) + (Reads.columns ['A', 'C', 'G', 'T'] - 1))
        (Backtrack.start (Reads.rows ['A', 'g', 'T']) (Reads.columns ['A', 'C', 'G', 'T'])) =
          some r ∧
      r.rowIndex = 0 ∧ r.columnIndex = 0 ∧
      GenericAlignments.initialise ['A', 'C', 'G', 'T'] ['A', 'C', 'G', 'T'] ['A', 'g', 'T'] =
        some r.toAlignment ∧
      r.toAlignment.errorCode = none ∧
      removeGaps r.toAlignment.clr =
        ['A', 'g', 'T'].take (Reads.rows ['A', 'g', 'T'] - 1) ∧
      ((∀ x ∈ ['A', 'g', 'T'], x ≠ ' ') → removeGaps r.toAlignment.clr = ['A', 'g', 'T']) :=
  ⟨rfl, by decide, by decide, by decide, by decide,
    generic_backtracking_finds_path ['A', 'C', 'G', 'T'] ['A', 'C', 'G', 'T'] ['A', 'g', 'T']
      rfl (by decide) (by decide) (by decide) (by decide)⟩

/-- C23 (counterexample): on reference `ACG`, uncorrected read `ACG` and the
corrected read `A G`, which holds a blank, no `-` and no lowercase letter, the
final cell is 4 and backtracking meets no `No paths found` branch, but the
corrected track is `A -`: without its gap it is `A `, not the corrected
read. -/
theorem generic_roundtrip_with_blank_fails :
    ['A', 'C', 'G'].length = ['A', 'C', 'G'].length ∧
    (∀ x ∈ ['A', ' ', 'G'], x ≠ '-') ∧
    islower (charAt ['A', ' ', 'G'] (['A', ' ', 'G'].length - 1)) = false ∧
    cellAt (GenericAlignments.matrix ['A', 'C', 'G'] ['A', 'C', 'G'] ['A', ' ', 'G'])
      (Reads.rows ['A', ' ', 'G'] - 1) (Reads.columns ['A', 'C', 'G'] - 1) = 4 ∧
    GenericAlignments.initialise ['A', 'C', 'G'] ['A', 'C', 'G'] ['A', ' ', 'G'] =
      some { clr := ['A', ' ', '-'], ulr := ['A', 'C', 'G'], ref := ['A', 'C', 'G'],
             errorCode := none } ∧
    removeGaps ['A', ' ', '-'] = ['A', ' '] ∧
    removeGaps ['A', ' ', '-'] ≠ ['A', ' ', 'G'] := by
  decide

/-! ## A cell at which no admitted move has the stored cost -/

end Lrcstats
